import Mathlib

/-!
Senator tweet sentiment analysis: the advanced sentiment engine.

A shallow embedding of the word-processing helpers, the lexicon builders and
`analyzeTweetAdvanced` of `project3_student.cpp`, with the properties proved
about them.

Conventions of the embedding:

* a `std::string` is the list of its characters (`CString`); the `<cctype>`
  classifiers are the ones of the "C" locale, so only ASCII characters are
  letters, digits or white space, and every other character is none of them;
* a `double` is an exact rational number (`ℚ`) and its operations are exact,
  except for the percentages of a summary, which are also given as the binary64
  operations compute them, each operation rounded to the nearest binary64 value
  (`round64`, `summarizeAdvancedBySenator.percentages64`);
* an `int` counter is a natural number: the counters only count characters and
  tokens of one text and never reach `2^31`;
* `stemString` comes from `stemmer.h`, which is not part of the translated
  source: it is a parameter `stem` of every function that calls it;
* `std::unordered_map<string, double>` is an association list with unique keys
  (`StrMap`), `std::unordered_set<string>` a list of its members (`StrSet`);
* a `vector` read `v[i]` and a map read `m.at(k)` return an `Option`: `none`
  stands for the out-of-bounds read and for the missing key;
* the order in which an unordered map is iterated is a parameter
  (`IterationOrder`) of the function that iterates.
-/

namespace SenatorSentiment

/-! ## Strings and characters -/

/-- A `std::string`. -/
abbrev CString := List Char

/-- The classifier `isupper` of the "C" locale. -/
def isupper (c : Char) : Bool := 65 ≤ c.toNat && c.toNat ≤ 90

/-- The classifier `islower` of the "C" locale. -/
def islower (c : Char) : Bool := 97 ≤ c.toNat && c.toNat ≤ 122

/-- The classifier `isdigit`. -/
def isdigit (c : Char) : Bool := 48 ≤ c.toNat && c.toNat ≤ 57

/-- The classifier `isalpha` of the "C" locale. -/
def isalpha (c : Char) : Bool := isupper c || islower c

/-- The classifier `isalnum` of the "C" locale. -/
def isalnum (c : Char) : Bool := isalpha c || isdigit c

/-- The classifier `isspace` of the "C" locale: space, `\t`, `\n`, `\v`, `\f`, `\r`. -/
def isspace (c : Char) : Bool := c.toNat = 32 || (9 ≤ c.toNat && c.toNat ≤ 13)

/-- The conversion `tolower` of the "C" locale. -/
def tolower (c : Char) : Char := if isupper c then Char.ofNat (c.toNat + 32) else c

/-- The effect of `transform(s.begin(), s.end(), s.begin(), ::tolower)`. -/
def toLowerStr (s : CString) : CString := s.map tolower

/-! ## Maps and sets of strings -/

/-- A `std::unordered_map<string, double>`. -/
abbrev StrMap := List (CString × ℚ)

/-- A `std::unordered_set<string>`. -/
abbrev StrSet := List CString

/-- The read `m.at(k)`; `none` when the key is missing (the C++ call throws). -/
def StrMap.at (m : StrMap) (k : CString) : Option ℚ := m.lookup k

/-- The test `m.count(k)` of a map, as a boolean. -/
def StrMap.count (m : StrMap) (k : CString) : Bool := (m.lookup k).isSome

/-- The assignment `m[k] = v`: the entry of `k` is created or overwritten. -/
def StrMap.assign (m : StrMap) (k : CString) (v : ℚ) : StrMap :=
  (k, v) :: m.filter (fun e => e.1 ≠ k)

/-- The test `s.count(k)` of a set, as a boolean. -/
def StrSet.count (s : StrSet) (k : CString) : Bool := s.contains k

/-! ## Word processing -/

/-- The character `raw[i]` for an `int` index (a blank outside the string, which
`normalizeWord` never reads). -/
def charAt (raw : CString) (i : Int) : Char := raw.getD i.toNat ' '

/-- The loop `while (start <= end && !isalnum(raw[start])) start++;` of
`normalizeWord`; the first argument bounds the number of iterations. -/
def normalizeWord.scanStart (raw : CString) (e : Int) : Nat → Int → Int
  | 0, start => start
  | fuel + 1, start =>
    if start ≤ e ∧ isalnum (charAt raw start) = false then
      normalizeWord.scanStart raw e fuel (start + 1)
    else start

/-- The loop `while (end >= start && !isalnum(raw[end])) end--;` of
`normalizeWord`; the first argument bounds the number of iterations. -/
def normalizeWord.scanEnd (raw : CString) (start : Int) : Nat → Int → Int
  | 0, e => e
  | fuel + 1, e =>
    if e ≥ start ∧ isalnum (charAt raw e) = false then
      normalizeWord.scanEnd raw start fuel (e - 1)
    else e

/-- The call `raw.substr(pos, n)`. -/
def substr (raw : CString) (pos n : Nat) : CString := (raw.drop pos).take n

/-- The function `normalizeWord`. Each scanning loop runs at most `raw.length()`
times, which is the bound given to it. -/
def normalizeWord (stem : CString → CString) (raw : CString) : CString :=
  if raw = [] then []
  else
    let start := normalizeWord.scanStart raw ((raw.length : Int) - 1) raw.length 0
    let e := normalizeWord.scanEnd raw start raw.length ((raw.length : Int) - 1)
    if start > e then []
    else stem (toLowerStr (substr raw start.toNat (e - start + 1).toNat))

/-- The token with its longest prefix and its longest suffix of non-alphanumeric
characters removed, where alphanumeric is what `isalnum` accepts: the letters
and digits of ASCII. -/
def stripCore (raw : CString) : CString :=
  ((raw.dropWhile (fun c => !isalnum c)).reverse.dropWhile (fun c => !isalnum c)).reverse

/-- The normalisation of a token as a core between ASCII letters or digits,
lower-cased and stemmed. -/
def normalizeWordSpec (stem : CString → CString) (raw : CString) : CString :=
  if raw.any isalnum then stem (toLowerStr (stripCore raw)) else []

/-- The letters and digits of Unicode among the code points below `U+0250`
(the blocks Basic Latin, Latin-1 Supplement, Latin Extended-A and Latin
Extended-B): the letters and digits of ASCII, the letters `ª`, `µ`, `º`, the
letters from `À` to `ÿ` without the signs `×` and `÷`, and every code point from
`U+0100` to `U+024F`. The table stops there: for a code point from `U+0250` on
the answer is `false`, and nothing below depends on it. -/
def isUnicodeAlnum (c : Char) : Bool :=
  isalnum c || c.toNat = 170 || c.toNat = 181 || c.toNat = 186 ||
    (192 ≤ c.toNat && c.toNat ≤ 214) || (216 ≤ c.toNat && c.toNat ≤ 246) ||
    (248 ≤ c.toNat && c.toNat ≤ 591)

/-- The token with its longest prefix and its longest suffix of characters that
are not Unicode letters or digits removed: the wording of the specification. -/
def unicodeCore (raw : CString) : CString :=
  ((raw.dropWhile (fun c => !isUnicodeAlnum c)).reverse.dropWhile
    (fun c => !isUnicodeAlnum c)).reverse

/-- The normalisation of a token in the words of the specification: empty when
nothing remains of the token once the characters that are not Unicode letters or
digits are stripped from both ends, and otherwise the remainder, lower-cased and
stemmed. -/
def normalizeWordUnicode (stem : CString → CString) (raw : CString) : CString :=
  if raw.any isUnicodeAlnum then stem (toLowerStr (unicodeCore raw)) else []

/-- The `for (char c : word)` loop of `isAllCaps`: `none` is the early
`return false`, `some n` the final value of `alphaCount`. -/
def isAllCaps.loop : List Char → Nat → Option Nat
  | [], alphaCount => some alphaCount
  | c :: cs, alphaCount =>
    if isalpha c then
      if isupper c = false then none else isAllCaps.loop cs (alphaCount + 1)
    else isAllCaps.loop cs alphaCount

/-- The function `isAllCaps`. -/
def isAllCaps (word : CString) : Bool :=
  if word.length ≤ 1 then false
  else
    match isAllCaps.loop word 0 with
    | none => false
    | some alphaCount => decide (alphaCount > 0)

/-- The characters read so far by `ss >> rawWord` are in `cur`, last one first. -/
def tokenize.go : List Char → List Char → List CString
  | [], cur => if cur = [] then [] else [cur.reverse]
  | c :: cs, cur =>
    if isspace c then
      if cur = [] then tokenize.go cs [] else cur.reverse :: tokenize.go cs []
    else tokenize.go cs (c :: cur)

/-- The successive values of `rawWord` in `while (ss >> rawWord)`: the maximal
runs of characters of the text that are not white space. -/
def tokenize (text : CString) : List CString := tokenize.go text []

/-! ## Data structures -/

/-- The struct `Tweet`. -/
structure Tweet where
  tweetId : CString
  userId : CString
  datetime : CString
  senatorName : CString
  text : CString
deriving DecidableEq

/-- The struct `AdvancedTweetAnalysis`, with its default member initialisers. -/
structure AdvancedTweetAnalysis where
  tweetId : CString := []
  senatorName : CString := []
  datetime : CString := []
  text : CString := []
  totalWords : Nat := 0
  posWordCount : Nat := 0
  negWordCount : Nat := 0
  neutralWordCount : Nat := 0
  baseSentimentScore : ℚ := 0
  adjustedSentimentScore : ℚ := 0
  negationHits : Nat := 0
  intensifierHits : Nat := 0
  downtonerHits : Nat := 0
  exclamationCount : Nat := 0
  questionCount : Nat := 0
  allCapsWordCount : Nat := 0
  emojiPositiveCount : Nat := 0
  emojiNegativeCount : Nat := 0
  slangPositiveCount : Nat := 0
  slangNegativeCount : Nat := 0
  ngramPositiveHits : Nat := 0
  ngramNegativeHits : Nat := 0
deriving DecidableEq

/-! ## Lexicon building -/

/-- One iteration of the first loop of `buildWordPolarityMap`. -/
def buildWordPolarityMap.addPositive (stem : CString → CString) (polarityMap : StrMap)
    (word : CString) : StrMap :=
  let stemmed := stem word
  if stemmed ≠ [] then polarityMap.assign stemmed 1 else polarityMap

/-- One iteration of the second loop of `buildWordPolarityMap`. -/
def buildWordPolarityMap.addNegative (stem : CString → CString) (polarityMap : StrMap)
    (word : CString) : StrMap :=
  let stemmed := stem word
  if stemmed ≠ [] then polarityMap.assign stemmed (-1) else polarityMap

/-- The function `buildWordPolarityMap`. -/
def buildWordPolarityMap (stem : CString → CString) (posWords negWords : List CString) :
    StrMap :=
  let polarityMap : StrMap := []
  let polarityMap := posWords.foldl (buildWordPolarityMap.addPositive stem) polarityMap
  let polarityMap := negWords.foldl (buildWordPolarityMap.addNegative stem) polarityMap
  let polarityMap := polarityMap.assign (stem "love".toList) 2
  let polarityMap := polarityMap.assign (stem "amazing".toList) 2
  let polarityMap := polarityMap.assign (stem "excellent".toList) 2
  let polarityMap := polarityMap.assign (stem "hate".toList) (-2)
  let polarityMap := polarityMap.assign (stem "terrible".toList) (-2)
  let polarityMap := polarityMap.assign (stem "horrible".toList) (-2)
  polarityMap

/-- The function `buildNegationWords`. -/
def buildNegationWords (stem : CString → CString) : StrSet :=
  [stem "not".toList, stem "no".toList, stem "never".toList,
   stem "none".toList, stem "nobody".toList, stem "nothing".toList,
   stem "neither".toList, stem "nowhere".toList, stem "hardly".toList,
   stem "barely".toList, stem "scarcely".toList, "n't".toList]

/-- The function `buildIntensifiers`. -/
def buildIntensifiers (stem : CString → CString) : StrSet :=
  [stem "very".toList, stem "really".toList, stem "extremely".toList,
   stem "so".toList, stem "super".toList, stem "highly".toList,
   stem "absolutely".toList, stem "completely".toList, stem "totally".toList]

/-- The function `buildDowntoners`. -/
def buildDowntoners (stem : CString → CString) : StrSet :=
  [stem "slightly".toList, stem "somewhat".toList, stem "kind".toList,
   stem "bit".toList, stem "little".toList, stem "fairly".toList,
   stem "rather".toList, stem "quite".toList]

/-- The function `buildNgramPolarity`. -/
def buildNgramPolarity : StrMap :=
  let ngramMap : StrMap := []
  let ngramMap := ngramMap.assign "so much fun".toList 2
  let ngramMap := ngramMap.assign "great job".toList 1.5
  let ngramMap := ngramMap.assign "well done".toList 1.5
  let ngramMap := ngramMap.assign "thank you".toList 1
  let ngramMap := ngramMap.assign "looking forward".toList 1.5
  let ngramMap := ngramMap.assign "sick of".toList (-2)
  let ngramMap := ngramMap.assign "waste of time".toList (-2)
  let ngramMap := ngramMap.assign "so tired of".toList (-1.5)
  let ngramMap := ngramMap.assign "fed up".toList (-1.5)
  let ngramMap := ngramMap.assign "not good".toList (-1.5)
  ngramMap

/-- The function `buildPositiveEmojisSlang`. An emoji is written as its code
points; in the C++ string it is the bytes of its UTF-8 encoding, and neither
those bytes nor the code points are letters, digits or white space. -/
def buildPositiveEmojisSlang : StrSet :=
  ["lol".toList, "lmao".toList, "haha".toList, "hehe".toList, "yay".toList,
   "awesome".toList, "😂".toList, "🤣".toList, "😊".toList, "😃".toList, "😄".toList,
   "❤️".toList, "💙".toList, "👍".toList, "✨".toList]

/-- The function `buildNegativeEmojisSlang`. -/
def buildNegativeEmojisSlang : StrSet :=
  ["ugh".toList, "omg".toList, "wtf".toList, "smh".toList, "💀".toList, "😡".toList,
   "😭".toList, "😢".toList, "👎".toList, "😠".toList]

/-! ## The advanced analysis of one tweet -/

/-- One iteration of the punctuation loop of `analyzeTweetAdvanced`. -/
def analyzeTweetAdvanced.countPunct (analysis : AdvancedTweetAnalysis) (c : Char) :
    AdvancedTweetAnalysis :=
  let analysis :=
    if c = '!' then { analysis with exclamationCount := analysis.exclamationCount + 1 }
    else analysis
  if c = '?' then { analysis with questionCount := analysis.questionCount + 1 }
  else analysis

/-- The locals `rawTokens`, `normalizedTokens` and the analysis during the
tokenising loop of `analyzeTweetAdvanced`. -/
structure TokenState where
  rawTokens : List CString
  normalizedTokens : List CString
  analysis : AdvancedTweetAnalysis

/-- One iteration of the tokenising loop `while (ss >> rawWord)`. -/
def analyzeTweetAdvanced.pushToken (stem : CString → CString) (st : TokenState)
    (rawWord : CString) : TokenState :=
  let rawTokens := st.rawTokens ++ [rawWord]
  let normalized := normalizeWord stem rawWord
  let normalizedTokens := st.normalizedTokens ++ [normalized]
  let analysis :=
    if isAllCaps rawWord then
      { st.analysis with allCapsWordCount := st.analysis.allCapsWordCount + 1 }
    else st.analysis
  { rawTokens := rawTokens, normalizedTokens := normalizedTokens, analysis := analysis }

/-- The body shared by the trigram and the bigram test: the lookup of the joined
key and, on a hit, the update of the score and of the hit counters. The boolean
is the new value of `inNgram`. -/
def analyzeTweetAdvanced.ngramHit (ngramPolarity : StrMap) (key : CString)
    (analysis : AdvancedTweetAnalysis) : Option (AdvancedTweetAnalysis × Bool) :=
  if ngramPolarity.count key then
    match ngramPolarity.at key with
    | none => none
    | some score =>
      let analysis :=
        { analysis with adjustedSentimentScore := analysis.adjustedSentimentScore + score }
      let analysis :=
        if score > 0 then { analysis with ngramPositiveHits := analysis.ngramPositiveHits + 1 }
        else { analysis with ngramNegativeHits := analysis.ngramNegativeHits + 1 }
      some (analysis, true)
  else some (analysis, false)

/-- The block `if (i + 2 < normalizedTokens.size()) { ... }`. -/
def analyzeTweetAdvanced.trigramStep (ngramPolarity : StrMap) (normalizedTokens : List CString)
    (i : Nat) (analysis : AdvancedTweetAnalysis) : Option (AdvancedTweetAnalysis × Bool) :=
  if i + 2 < normalizedTokens.length then
    match normalizedTokens[i]?, normalizedTokens[i + 1]?, normalizedTokens[i + 2]? with
    | some t0, some t1, some t2 =>
      let trigram := t0 ++ " ".toList ++ t1 ++ " ".toList ++ t2
      analyzeTweetAdvanced.ngramHit ngramPolarity trigram analysis
    | _, _, _ => none
  else some (analysis, false)

/-- The block `if (!inNgram && i + 1 < normalizedTokens.size()) { ... }`. -/
def analyzeTweetAdvanced.bigramStep (ngramPolarity : StrMap) (normalizedTokens : List CString)
    (i : Nat) (inNgram : Bool) (analysis : AdvancedTweetAnalysis) :
    Option (AdvancedTweetAnalysis × Bool) :=
  if inNgram = false ∧ i + 1 < normalizedTokens.length then
    match normalizedTokens[i]?, normalizedTokens[i + 1]? with
    | some t0, some t1 =>
      let bigram := t0 ++ " ".toList ++ t1
      analyzeTweetAdvanced.ngramHit ngramPolarity bigram analysis
    | _, _ => none
  else some (analysis, inNgram)

/-- The locals `hasNegation`, `hasIntensifier`, `hasDowntoner`. -/
structure ContextFlags where
  hasNegation : Bool := false
  hasIntensifier : Bool := false
  hasDowntoner : Bool := false
deriving DecidableEq

/-- The body of the loop `for (int j = 1; j <= 2 && (int)i - j >= 0; j++)`. -/
def analyzeTweetAdvanced.lookBackBody (negationWords intensifiers downtoners : StrSet)
    (prevToken : CString) (flags : ContextFlags) : ContextFlags :=
  let flags := if negationWords.count prevToken then { flags with hasNegation := true } else flags
  let flags := if intensifiers.count prevToken then { flags with hasIntensifier := true } else flags
  if downtoners.count prevToken then { flags with hasDowntoner := true } else flags

/-- The read `normalizedTokens[i - j]` of the look-back loop, with `i` a `size_t`
and `j` an `int`. The index is computed in `size_t`: when `j` exceeds `i` the
difference wraps around to a value above the size of every vector, so the read
is out of bounds (`none`); otherwise the index is `i - j` and the read is in
bounds exactly when `i - j` is below the size. -/
def analyzeTweetAdvanced.readBack (normalizedTokens : List CString) (i : Nat) (j : Int) :
    Option CString :=
  if (i : Int) - j < 0 then none else normalizedTokens[((i : Int) - j).toNat]?

/-- The loop `for (int j = 1; j <= 2 && (int)i - j >= 0; j++)`; the first
argument bounds the number of iterations (two are enough). -/
def analyzeTweetAdvanced.lookBack (negationWords intensifiers downtoners : StrSet)
    (normalizedTokens : List CString) (i : Nat) : Nat → Int → ContextFlags → Option ContextFlags
  | 0, _, flags => some flags
  | fuel + 1, j, flags =>
    if j ≤ 2 ∧ (i : Int) - j ≥ 0 then
      match analyzeTweetAdvanced.readBack normalizedTokens i j with
      | none => none
      | some prevToken =>
        analyzeTweetAdvanced.lookBack negationWords intensifiers downtoners normalizedTokens i
          fuel (j + 1)
          (analyzeTweetAdvanced.lookBackBody negationWords intensifiers downtoners prevToken flags)
    else some flags

/-- The three marker tests of `analyzeTweetAdvanced`. -/
def analyzeTweetAdvanced.markers (negationWords intensifiers downtoners : StrSet)
    (token : CString) (analysis : AdvancedTweetAnalysis) : AdvancedTweetAnalysis :=
  let analysis :=
    if negationWords.count token then { analysis with negationHits := analysis.negationHits + 1 }
    else analysis
  let analysis :=
    if intensifiers.count token then
      { analysis with intensifierHits := analysis.intensifierHits + 1 }
    else analysis
  if downtoners.count token then { analysis with downtonerHits := analysis.downtonerHits + 1 }
  else analysis

/-- The three modifiers applied to `adjustedWeight`. -/
def analyzeTweetAdvanced.applyModifiers (flags : ContextFlags) (baseWeight : ℚ) : ℚ :=
  let adjustedWeight := baseWeight
  let adjustedWeight := if flags.hasNegation then adjustedWeight * (-0.7) else adjustedWeight
  let adjustedWeight := if flags.hasIntensifier then adjustedWeight * 1.5 else adjustedWeight
  if flags.hasDowntoner then adjustedWeight * 0.5 else adjustedWeight

/-- The block `if (wordPolarity.count(token)) { ... } else { ... }`. -/
def analyzeTweetAdvanced.sentimentWord (wordPolarity : StrMap)
    (negationWords intensifiers downtoners : StrSet) (normalizedTokens : List CString)
    (i : Nat) (token : CString) (analysis : AdvancedTweetAnalysis) :
    Option AdvancedTweetAnalysis :=
  if wordPolarity.count token then
    match wordPolarity.at token with
    | none => none
    | some baseWeight =>
      match analyzeTweetAdvanced.lookBack negationWords intensifiers downtoners
          normalizedTokens i 2 1 {} with
      | none => none
      | some flags =>
        let adjustedWeight := analyzeTweetAdvanced.applyModifiers flags baseWeight
        let analysis :=
          { analysis with
            baseSentimentScore := analysis.baseSentimentScore + baseWeight
            adjustedSentimentScore := analysis.adjustedSentimentScore + adjustedWeight }
        if baseWeight > 0 then some { analysis with posWordCount := analysis.posWordCount + 1 }
        else if baseWeight < 0 then
          some { analysis with negWordCount := analysis.negWordCount + 1 }
        else some analysis
  else some { analysis with neutralWordCount := analysis.neutralWordCount + 1 }

/-- The body of the loop `for (size_t i = 0; i < normalizedTokens.size(); i++)`
of `analyzeTweetAdvanced`. -/
def analyzeTweetAdvanced.processToken (wordPolarity : StrMap)
    (negationWords intensifiers downtoners : StrSet) (ngramPolarity : StrMap)
    (positiveEmojisSlang negativeEmojisSlang : StrSet)
    (rawTokens normalizedTokens : List CString) (analysis : AdvancedTweetAnalysis) (i : Nat) :
    Option AdvancedTweetAnalysis :=
  match normalizedTokens[i]?, rawTokens[i]? with
  | some token, some rawToken =>
    if token = [] then some analysis
    else
      let analysis := { analysis with totalWords := analysis.totalWords + 1 }
      let lowerRaw := toLowerStr rawToken
      if positiveEmojisSlang.count lowerRaw then
        some { analysis with
          emojiPositiveCount := analysis.emojiPositiveCount + 1
          adjustedSentimentScore := analysis.adjustedSentimentScore + 1 }
      else if negativeEmojisSlang.count lowerRaw then
        some { analysis with
          emojiNegativeCount := analysis.emojiNegativeCount + 1
          adjustedSentimentScore := analysis.adjustedSentimentScore - 1 }
      else
        match analyzeTweetAdvanced.trigramStep ngramPolarity normalizedTokens i analysis with
        | none => none
        | some (analysis, inNgram) =>
          match analyzeTweetAdvanced.bigramStep ngramPolarity normalizedTokens i inNgram
              analysis with
          | none => none
          | some (analysis, inNgram) =>
            if inNgram then some analysis
            else
              let analysis :=
                analyzeTweetAdvanced.markers negationWords intensifiers downtoners token analysis
              analyzeTweetAdvanced.sentimentWord wordPolarity negationWords intensifiers
                downtoners normalizedTokens i token analysis
  | _, _ => none

/-- The loop `for (size_t i = 0; i < normalizedTokens.size(); i++)`, entered at
index `i` with `remaining = normalizedTokens.size() - i` iterations to run. -/
def analyzeTweetAdvanced.tokenLoop (step : AdvancedTweetAnalysis → Nat → Option AdvancedTweetAnalysis) :
    Nat → Nat → AdvancedTweetAnalysis → Option AdvancedTweetAnalysis
  | 0, _, analysis => some analysis
  | remaining + 1, i, analysis =>
    match step analysis i with
    | none => none
    | some analysis => analyzeTweetAdvanced.tokenLoop step remaining (i + 1) analysis

/-- The first half of `analyzeTweetAdvanced`: the copy of the identity fields,
the punctuation count and the tokenising loop. -/
def analyzeTweetAdvanced.prepare (stem : CString → CString) (tweet : Tweet) : TokenState :=
  let analysis : AdvancedTweetAnalysis :=
    { tweetId := tweet.tweetId, senatorName := tweet.senatorName,
      datetime := tweet.datetime, text := tweet.text }
  let analysis := tweet.text.foldl analyzeTweetAdvanced.countPunct analysis
  (tokenize tweet.text).foldl (analyzeTweetAdvanced.pushToken stem)
    { rawTokens := [], normalizedTokens := [], analysis := analysis }

/-- The final adjustment of `analyzeTweetAdvanced` for punctuation emphasis. -/
def analyzeTweetAdvanced.emphasis (analysis : AdvancedTweetAnalysis) : AdvancedTweetAnalysis :=
  if analysis.exclamationCount > 0 then
    { analysis with
      adjustedSentimentScore :=
        analysis.adjustedSentimentScore * (1.0 + 0.05 * (analysis.exclamationCount : ℚ)) }
  else analysis

/-- The function `analyzeTweetAdvanced`; `none` when a vector is read out of
bounds or a map is read at a missing key. -/
def analyzeTweetAdvanced (stem : CString → CString) (tweet : Tweet) (wordPolarity : StrMap)
    (negationWords intensifiers downtoners : StrSet) (ngramPolarity : StrMap)
    (positiveEmojisSlang negativeEmojisSlang : StrSet) : Option AdvancedTweetAnalysis :=
  let st := analyzeTweetAdvanced.prepare stem tweet
  match analyzeTweetAdvanced.tokenLoop
      (analyzeTweetAdvanced.processToken wordPolarity negationWords intensifiers downtoners
        ngramPolarity positiveEmojisSlang negativeEmojisSlang st.rawTokens st.normalizedTokens)
      st.normalizedTokens.length 0 st.analysis with
  | none => none
  | some analysis => some (analyzeTweetAdvanced.emphasis analysis)

/-- The body of the loop of `analyzeAllTweetsAdvanced`: the analysis of one
tweet is appended to `results`. -/
def analyzeAllTweetsAdvanced.pushAnalysis (stem : CString → CString) (wordPolarity : StrMap)
    (negationWords intensifiers downtoners : StrSet) (ngramPolarity : StrMap)
    (positiveEmojisSlang negativeEmojisSlang : StrSet)
    (results : Option (List AdvancedTweetAnalysis)) (tweet : Tweet) :
    Option (List AdvancedTweetAnalysis) :=
  match results with
  | none => none
  | some results =>
    match analyzeTweetAdvanced stem tweet wordPolarity negationWords intensifiers downtoners
        ngramPolarity positiveEmojisSlang negativeEmojisSlang with
    | none => none
    | some analysis => some (results ++ [analysis])

/-- The function `analyzeAllTweetsAdvanced`; `none` when the analysis of a tweet
fails. -/
def analyzeAllTweetsAdvanced (stem : CString → CString) (tweets : List Tweet)
    (wordPolarity : StrMap) (negationWords intensifiers downtoners : StrSet)
    (ngramPolarity : StrMap) (positiveEmojisSlang negativeEmojisSlang : StrSet) :
    Option (List AdvancedTweetAnalysis) :=
  tweets.foldl
    (analyzeAllTweetsAdvanced.pushAnalysis stem wordPolarity negationWords intensifiers
      downtoners ngramPolarity positiveEmojisSlang negativeEmojisSlang) (some [])

/-! ## The summary by senator -/

/-- The struct `AdvancedSenatorSummary`, with its default member initialisers. -/
structure AdvancedSenatorSummary where
  name : CString := []
  tweetCount : Nat := 0
  avgBaseSentiment : ℚ := 0
  avgAdjustedSentiment : ℚ := 0
  avgPosPercent : ℚ := 0
  avgNegPercent : ℚ := 0
  avgAllCaps : ℚ := 0
  avgExclamations : ℚ := 0
  avgStyleScore : ℚ := 0
  mostPositiveTweet : AdvancedTweetAnalysis := {}
  mostNegativeTweet : AdvancedTweetAnalysis := {}
deriving DecidableEq

/-- A `std::unordered_map<string, vector<AdvancedTweetAnalysis>>`: its entries,
one for each key, in the order of their creation. -/
abbrev GroupMap := List (CString × List AdvancedTweetAnalysis)

/-- The statement `m[key].push_back(analysis)`: `operator[]` finds the entry of
the key, or creates it with an empty vector, and the analysis is appended to
the vector of that entry. -/
def GroupMap.pushBack : GroupMap → CString → AdvancedTweetAnalysis → GroupMap
  | [], key, analysis => [(key, [analysis])]
  | (k, v) :: rest, key, analysis =>
    if k = key then (k, v ++ [analysis]) :: rest
    else (k, v) :: GroupMap.pushBack rest key analysis

/-- An iteration order of an unordered map. The order in which
`for (auto& pair : bySenator)` visits the entries is not specified: it is a
rearrangement of the entries, and nothing else is known of it. -/
structure IterationOrder where
  iterate : GroupMap → GroupMap
  perm : ∀ m, (iterate m).Perm m

/-- The iteration order that visits the entries in the order of their creation. -/
def IterationOrder.creation : IterationOrder where
  iterate := id
  perm := fun m => List.Perm.refl m

/-- The locals of the loop `for (const auto& analysis : pair.second)` of
`summarizeAdvancedBySenator`, with their initial values, and the summary. -/
structure SummaryState where
  summary : AdvancedSenatorSummary
  totalBase : ℚ := 0.0
  totalAdjusted : ℚ := 0.0
  totalPosPercent : ℚ := 0.0
  totalNegPercent : ℚ := 0.0
  totalAllCaps : ℚ := 0.0
  totalExclamations : ℚ := 0.0
  maxAdjusted : ℚ := -1e9
  minAdjusted : ℚ := 1e9

/-- The body of the loop `for (const auto& analysis : pair.second)`, in exact
arithmetic; the two percentage totals with the rounding of the code are
`summarizeAdvancedBySenator.accumulateWith round64`. -/
def summarizeAdvancedBySenator.accumulate (st : SummaryState)
    (analysis : AdvancedTweetAnalysis) : SummaryState :=
  let st :=
    { st with
      totalBase := st.totalBase + analysis.baseSentimentScore
      totalAdjusted := st.totalAdjusted + analysis.adjustedSentimentScore }
  let st :=
    if analysis.totalWords > 0 then
      { st with
        totalPosPercent := st.totalPosPercent +
          100.0 * (analysis.posWordCount : ℚ) / (analysis.totalWords : ℚ)
        totalNegPercent := st.totalNegPercent +
          100.0 * (analysis.negWordCount : ℚ) / (analysis.totalWords : ℚ) }
    else st
  let st :=
    { st with
      totalAllCaps := st.totalAllCaps + (analysis.allCapsWordCount : ℚ)
      totalExclamations := st.totalExclamations + (analysis.exclamationCount : ℚ) }
  let st :=
    if analysis.adjustedSentimentScore > st.maxAdjusted then
      { st with
        maxAdjusted := analysis.adjustedSentimentScore
        summary := { st.summary with mostPositiveTweet := analysis } }
    else st
  if analysis.adjustedSentimentScore < st.minAdjusted then
    { st with
      minAdjusted := analysis.adjustedSentimentScore
      summary := { st.summary with mostNegativeTweet := analysis } }
  else st

/-- The body of the loop `for (auto& pair : bySenator)`: the summary of one
entry of the map, in exact arithmetic; the two percentages with the rounding of
the code are `summarizeAdvancedBySenator.percentages64`. -/
def summarizeAdvancedBySenator.summarize (pair : CString × List AdvancedTweetAnalysis) :
    AdvancedSenatorSummary :=
  let summary : AdvancedSenatorSummary := {}
  let summary := { summary with name := pair.1 }
  let summary := { summary with tweetCount := pair.2.length }
  let st := pair.2.foldl summarizeAdvancedBySenator.accumulate { summary := summary }
  let summary := st.summary
  let count := summary.tweetCount
  let summary := { summary with avgBaseSentiment := st.totalBase / (count : ℚ) }
  let summary := { summary with avgAdjustedSentiment := st.totalAdjusted / (count : ℚ) }
  let summary := { summary with avgPosPercent := st.totalPosPercent / (count : ℚ) }
  let summary := { summary with avgNegPercent := st.totalNegPercent / (count : ℚ) }
  let summary := { summary with avgAllCaps := st.totalAllCaps / (count : ℚ) }
  let summary := { summary with avgExclamations := st.totalExclamations / (count : ℚ) }
  { summary with avgStyleScore := summary.avgExclamations * 2.0 + summary.avgAllCaps * 1.5 }

/-- The first loop of `summarizeAdvancedBySenator`: the map `bySenator`. -/
def summarizeAdvancedBySenator.group (perTweet : List AdvancedTweetAnalysis) : GroupMap :=
  perTweet.foldl (fun bySenator analysis => bySenator.pushBack analysis.senatorName analysis) []

/-- The function `summarizeAdvancedBySenator`; the iteration order of the map
`bySenator` is a parameter. -/
def summarizeAdvancedBySenator (order : IterationOrder)
    (perTweet : List AdvancedTweetAnalysis) : List AdvancedSenatorSummary :=
  let bySenator := summarizeAdvancedBySenator.group perTweet
  (order.iterate bySenator).map summarizeAdvancedBySenator.summarize

/-! ## The percentages of a summary in binary64 -/

/-- The integer nearest to `y`, the even one of the two when `y` lies half-way
between two integers. -/
def nearestEven (y : ℚ) : ℤ :=
  if y - ⌊y⌋ < 1 / 2 then ⌊y⌋
  else if 1 / 2 < y - ⌊y⌋ then ⌊y⌋ + 1
  else if ⌊y⌋ % 2 = 0 then ⌊y⌋ else ⌊y⌋ + 1

/-- The multiple of `2^(e - 52)` nearest to `x`, ties to the even multiple: the
binary64 value nearest to a positive `x` with `2^e ≤ x < 2^(e + 1)`, whose
significand has 53 bits. -/
def roundAt (e : ℤ) (x : ℚ) : ℚ := nearestEven (x / 2 ^ (e - 52)) * 2 ^ (e - 52)

/-- The rounding of binary64 arithmetic (to nearest, ties to even): the `double`
that an operation returns when its exact result is `x`. The range of the
exponent is not bounded here; the values of the percentages lie between `2^-31`
and `2^38`, far from overflow and from the subnormal numbers. -/
def round64 (x : ℚ) : ℚ :=
  if 0 < x then roundAt (Int.log 2 x) x
  else if x < 0 then -roundAt (Int.log 2 (-x)) (-x)
  else 0

/-- The term `100.0 * analysis.posWordCount / analysis.totalWords` of
`summarizeAdvancedBySenator`, with the rounding `fl` applied to the result of
each operation: the two `int` operands are converted to `double`, then the
product is taken, and then the quotient. -/
def summarizeAdvancedBySenator.percentWith (fl : ℚ → ℚ) (count totalWords : Nat) : ℚ :=
  fl (fl (100 * fl (count : ℚ)) / fl (totalWords : ℚ))

/-- The updates of `totalPosPercent` and `totalNegPercent` for one post of the
group, under `if (analysis.totalWords > 0)`, with the rounding `fl` applied to
the result of each operation. -/
def summarizeAdvancedBySenator.accumulateWith (fl : ℚ → ℚ) (totals : ℚ × ℚ)
    (analysis : AdvancedTweetAnalysis) : ℚ × ℚ :=
  if analysis.totalWords > 0 then
    (fl (totals.1 +
        summarizeAdvancedBySenator.percentWith fl analysis.posWordCount analysis.totalWords),
     fl (totals.2 +
        summarizeAdvancedBySenator.percentWith fl analysis.negWordCount analysis.totalWords))
  else totals

/-- The fields `avgPosPercent` and `avgNegPercent` of the summary of a group of
posts as `summarizeAdvancedBySenator` computes them, with the rounding `fl`
applied to the result of each operation: the two totals start at `0.0`, take the
percentages of the posts in their order, and are divided by `count`, the number
of posts converted to `double`. With the identity as rounding these are the two
fields of `summarizeAdvancedBySenator.summarize`. -/
def summarizeAdvancedBySenator.percentagesWith (fl : ℚ → ℚ)
    (posts : List AdvancedTweetAnalysis) : ℚ × ℚ :=
  let totals := posts.foldl (summarizeAdvancedBySenator.accumulateWith fl) (0, 0)
  (fl (totals.1 / fl (posts.length : ℚ)), fl (totals.2 / fl (posts.length : ℚ)))

/-- The fields `avgPosPercent` and `avgNegPercent` of the summary of a group of
posts in binary64, as the code computes them. -/
def summarizeAdvancedBySenator.percentages64 (posts : List AdvancedTweetAnalysis) : ℚ × ℚ :=
  summarizeAdvancedBySenator.percentagesWith round64 posts

/-! ## The rules of the scorer in the words of the specification

The definitions of this section do not translate source code: they restate the
rules of the specification, and the theorems below compare them with the
translated functions. -/

/-- Whether one of the normalized tokens at `i - 1`, `i - 2` (those that exist)
is in the set `s`: the look-back window of the specification. -/
def windowHas (s : StrSet) (normalizedTokens : List CString) (i : Nat) : Bool :=
  (decide (1 ≤ i) && s.count (normalizedTokens.getD (i - 1) [])) ||
    (decide (2 ≤ i) && s.count (normalizedTokens.getD (i - 2) []))

/-- The weight of the phrase matched at index `i`, if there is one: the trigram
of the tokens `i, i+1, i+2` when they exist and their space-joined forms are a
key, otherwise the bigram of the tokens `i, i+1`. -/
def phraseWeight (ngramPolarity : StrMap) (normalizedTokens : List CString) (i : Nat) :
    Option ℚ :=
  let tok := fun k => normalizedTokens.getD k []
  let trigram :=
    if i + 2 < normalizedTokens.length then
      ngramPolarity.at (tok i ++ " ".toList ++ tok (i + 1) ++ " ".toList ++ tok (i + 2))
    else none
  match trigram with
  | some w => some w
  | none =>
    if i + 1 < normalizedTokens.length then
      ngramPolarity.at (tok i ++ " ".toList ++ tok (i + 1))
    else none

/-- The weight of a polarity word after the modifiers of its look-back window:
`base × n × t × d` with `n = -0.7`, `t = 1.5`, `d = 0.5` when a negator, an
intensifier, a downtoner is in the window, and `1` otherwise. -/
def adjustedPolarity (negationWords intensifiers downtoners : StrSet)
    (normalizedTokens : List CString) (i : Nat) (base : ℚ) : ℚ :=
  base * (if windowHas negationWords normalizedTokens i then -0.7 else 1)
    * (if windowHas intensifiers normalizedTokens i then 1.5 else 1)
    * (if windowHas downtoners normalizedTokens i then 0.5 else 1)

/-- The contribution of the token at index `i` to the adjusted score before the
exclamation multiplier, rule by rule: nothing for an empty token, `±1` for an
emoji or slang token, the weight of the phrase for a phrase match, the adjusted
weight for a polarity word, nothing for any other word. -/
def tokenContribution (wordPolarity : StrMap) (negationWords intensifiers downtoners : StrSet)
    (ngramPolarity : StrMap) (positiveEmojisSlang negativeEmojisSlang : StrSet)
    (rawTokens normalizedTokens : List CString) (i : Nat) : ℚ :=
  let token := normalizedTokens.getD i []
  let lowerRaw := toLowerStr (rawTokens.getD i [])
  if token = [] then 0
  else if positiveEmojisSlang.count lowerRaw then 1
  else if negativeEmojisSlang.count lowerRaw then -1
  else
    match phraseWeight ngramPolarity normalizedTokens i with
    | some w => w
    | none =>
      match wordPolarity.at token with
      | some base =>
        adjustedPolarity negationWords intensifiers downtoners normalizedTokens i base
      | none => 0

/-- The all-caps condition in the words of the specification: at least one
alphabetic character, and every alphabetic character uppercase. -/
def specAllCaps (word : CString) : Prop :=
  (∃ c ∈ word, isalpha c = true) ∧ ∀ c ∈ word, isalpha c = true → isupper c = true

instance specAllCaps.decidable (word : CString) : Decidable (specAllCaps word) :=
  inferInstanceAs
    (Decidable ((∃ c ∈ word, isalpha c = true) ∧ ∀ c ∈ word, isalpha c = true → isupper c = true))

/-- The effect of a phrase match of weight `w` in the words of the
specification: the weight is added to the adjusted score and the hit is
classified by the sign of the weight. -/
def ngramUpdate (analysis : AdvancedTweetAnalysis) (w : ℚ) : AdvancedTweetAnalysis :=
  if w > 0 then
    { analysis with
      adjustedSentimentScore := analysis.adjustedSentimentScore + w
      ngramPositiveHits := analysis.ngramPositiveHits + 1 }
  else
    { analysis with
      adjustedSentimentScore := analysis.adjustedSentimentScore + w
      ngramNegativeHits := analysis.ngramNegativeHits + 1 }

/-- The effect of the polarity rule of the specification for a word of weight
`base` at index `i`: `base` goes to the base score, the adjusted weight to the
adjusted score, and the word is classified by the sign of `base`. -/
def polarityUpdate (negationWords intensifiers downtoners : StrSet)
    (normalizedTokens : List CString) (i : Nat) (analysis : AdvancedTweetAnalysis) (base : ℚ) :
    AdvancedTweetAnalysis :=
  let analysis :=
    { analysis with
      baseSentimentScore := analysis.baseSentimentScore + base
      adjustedSentimentScore := analysis.adjustedSentimentScore +
        adjustedPolarity negationWords intensifiers downtoners normalizedTokens i base }
  if base > 0 then { analysis with posWordCount := analysis.posWordCount + 1 }
  else if base < 0 then { analysis with negWordCount := analysis.negWordCount + 1 }
  else analysis

/-- The rules of the scorer at index `i`, in the order of the specification:
empty token, emoji or slang, phrase (trigram before bigram), then the marker
counters followed by the polarity word or the neutral word. -/
def ruleStep (wordPolarity : StrMap) (negationWords intensifiers downtoners : StrSet)
    (ngramPolarity : StrMap) (positiveEmojisSlang negativeEmojisSlang : StrSet)
    (rawTokens normalizedTokens : List CString) (analysis : AdvancedTweetAnalysis) (i : Nat) :
    AdvancedTweetAnalysis :=
  let token := normalizedTokens.getD i []
  let lowerRaw := toLowerStr (rawTokens.getD i [])
  if token = [] then analysis
  else
    let analysis := { analysis with totalWords := analysis.totalWords + 1 }
    if positiveEmojisSlang.count lowerRaw then
      { analysis with
        emojiPositiveCount := analysis.emojiPositiveCount + 1
        adjustedSentimentScore := analysis.adjustedSentimentScore + 1 }
    else if negativeEmojisSlang.count lowerRaw then
      { analysis with
        emojiNegativeCount := analysis.emojiNegativeCount + 1
        adjustedSentimentScore := analysis.adjustedSentimentScore - 1 }
    else
      match phraseWeight ngramPolarity normalizedTokens i with
      | some w => ngramUpdate analysis w
      | none =>
        let analysis :=
          analyzeTweetAdvanced.markers negationWords intensifiers downtoners token analysis
        match wordPolarity.at token with
        | some base =>
          polarityUpdate negationWords intensifiers downtoners normalizedTokens i analysis base
        | none => { analysis with neutralWordCount := analysis.neutralWordCount + 1 }

/-- The positive-word percentage of one post in the words of the
specification: `100 × posWordCount / totalWords`, taken as `0` for a post
without words. -/
def posPercent (analysis : AdvancedTweetAnalysis) : ℚ :=
  if analysis.totalWords = 0 then 0
  else 100 * (analysis.posWordCount : ℚ) / (analysis.totalWords : ℚ)

/-- The negative-word percentage of one post in the words of the
specification. -/
def negPercent (analysis : AdvancedTweetAnalysis) : ℚ :=
  if analysis.totalWords = 0 then 0
  else 100 * (analysis.negWordCount : ℚ) / (analysis.totalWords : ℚ)

/-- The arithmetic mean of the values of `f` over a group of posts. -/
def groupMean (f : AdvancedTweetAnalysis → ℚ) (posts : List AdvancedTweetAnalysis) : ℚ :=
  (posts.map f).sum / (posts.length : ℚ)

/-- The posts of an author in the input, in their input order. -/
def postsOf (perTweet : List AdvancedTweetAnalysis) (name : CString) :
    List AdvancedTweetAnalysis :=
  perTweet.filter (fun a => decide (a.senatorName = name))

/-- The variables `maxAdjusted` and `mostPositiveTweet` along the scan of a
group: a post replaces the current one when its score is strictly greater. -/
def scanMax (posts : List AdvancedTweetAnalysis) (init : ℚ × AdvancedTweetAnalysis) :
    ℚ × AdvancedTweetAnalysis :=
  posts.foldl (fun best a => if a.adjustedSentimentScore > best.1 then
    (a.adjustedSentimentScore, a) else best) init

/-- The variables `minAdjusted` and `mostNegativeTweet` along the scan of a
group: a post replaces the current one when its score is strictly smaller. -/
def scanMin (posts : List AdvancedTweetAnalysis) (init : ℚ × AdvancedTweetAnalysis) :
    ℚ × AdvancedTweetAnalysis :=
  posts.foldl (fun best a => if a.adjustedSentimentScore < best.1 then
    (a.adjustedSentimentScore, a) else best) init

/-- The number of tokens of an analysis that were classified by a rule: the sum
of the emoji counters, the phrase hits and the three word counters. -/
def classifiedWords (analysis : AdvancedTweetAnalysis) : Nat :=
  analysis.emojiPositiveCount + analysis.emojiNegativeCount + analysis.ngramPositiveHits +
    analysis.ngramNegativeHits + analysis.posWordCount + analysis.negWordCount +
    analysis.neutralWordCount

/-! ## Worked inputs -/

/-- Three analyses used as a worked input of the summary: two posts of the
author `A` around one post of the author `B`. -/
def examplePosts : List AdvancedTweetAnalysis :=
  [{ tweetId := "1".toList, senatorName := "A".toList, totalWords := 2, posWordCount := 1,
     baseSentimentScore := 1, adjustedSentimentScore := 3, exclamationCount := 2,
     allCapsWordCount := 1 },
   { tweetId := "2".toList, senatorName := "B".toList, totalWords := 5, posWordCount := 1,
     negWordCount := 2, baseSentimentScore := 5, adjustedSentimentScore := -4,
     exclamationCount := 7 },
   { tweetId := "3".toList, senatorName := "A".toList, totalWords := 4, negWordCount := 1,
     baseSentimentScore := 2, adjustedSentimentScore := 3, exclamationCount := 1,
     allCapsWordCount := 2 }]

/-- A post whose adjusted score is below the initial value `-1e9` of
`maxAdjusted`. -/
def lowPost : AdvancedTweetAnalysis :=
  { tweetId := "1".toList, senatorName := "A".toList, adjustedSentimentScore := -2e9 }

/-- Two posts of one author that share the adjusted score `-2e9`. -/
def lowPosts : List AdvancedTweetAnalysis :=
  [{ tweetId := "1".toList, senatorName := "A".toList, adjustedSentimentScore := -2e9 },
   { tweetId := "2".toList, senatorName := "A".toList, adjustedSentimentScore := -2e9 }]

/-- A stemmer used as a worked input: it takes the suffix off `looking`, as a
suffix-stripping stemmer does, and leaves every other word unchanged. -/
def lookingStem (word : CString) : CString :=
  if word = "looking".toList then "look".toList else word

/-- The ten phrases of the fixed phrase table. -/
def phraseTable : List CString :=
  ["so much fun".toList, "great job".toList, "well done".toList, "thank you".toList,
   "looking forward".toList, "sick of".toList, "waste of time".toList,
   "so tired of".toList, "fed up".toList, "not good".toList]

/-- A post of three words, one positive and two negative, used as a worked
input of the percentages. -/
def thirdsTweet : Tweet := ⟨"7".toList, [], [], "A".toList, "good bad bad".toList⟩

/-! ## Maps, sets and the preparation of a tweet -/

theorem StrMap.lookup_filter_ne (m : StrMap) (k k' : CString) (h : k' ≠ k) :
    List.lookup k' (m.filter (fun e => decide (e.1 ≠ k))) = List.lookup k' m := by
  induction m with
  | nil => rfl
  | cons e es ih =>
    obtain ⟨a, b⟩ := e
    by_cases hak : a = k
    · subst hak
      have hne : (k' == a) = false := by simpa using h
      simp only [List.filter_cons, List.lookup_cons, hne]
      simpa using ih
    · by_cases hk' : k' = a
      · subst hk'
        simp [List.filter_cons, List.lookup_cons, hak]
      · have hne : (k' == a) = false := by simpa using hk'
        have hf : decide ((a, b).1 ≠ k) = true := by simpa using hak
        rw [List.filter_cons, if_pos hf, List.lookup_cons, hne, List.lookup_cons, hne]
        exact ih

theorem StrMap.at_assign (m : StrMap) (k k' : CString) (v : ℚ) :
    (m.assign k v).at k' = if k' = k then some v else m.at k' := by
  unfold StrMap.assign StrMap.at
  by_cases h : k' = k
  · subst h
    simp [List.lookup_cons]
  · have hne : (k' == k) = false := by simpa using h
    rw [List.lookup_cons, hne, if_neg h]
    exact StrMap.lookup_filter_ne m k k' h

theorem StrMap.count_eq_isSome (m : StrMap) (k : CString) : m.count k = (m.at k).isSome := rfl

theorem countPunct_foldl (text : List Char) (analysis : AdvancedTweetAnalysis) :
    text.foldl analyzeTweetAdvanced.countPunct analysis =
      { analysis with
        exclamationCount := analysis.exclamationCount + text.count '!'
        questionCount := analysis.questionCount + text.count '?' } := by
  induction text generalizing analysis with
  | nil => simp
  | cons c cs ih =>
    rw [List.foldl_cons, ih]
    by_cases h1 : c = '!'
    · subst h1
      simp [analyzeTweetAdvanced.countPunct]
      omega
    · by_cases h2 : c = '?'
      · subst h2
        simp [analyzeTweetAdvanced.countPunct]
        omega
      · have h1' : ('!' == c) = false := by simpa using fun h => h1 h.symm
        have h2' : ('?' == c) = false := by simpa using fun h => h2 h.symm
        simp [analyzeTweetAdvanced.countPunct, h1, h2, List.count_cons, h1', h2']

theorem pushToken_foldl (stem : CString → CString) (tokens : List CString) (st : TokenState) :
    tokens.foldl (analyzeTweetAdvanced.pushToken stem) st =
      { rawTokens := st.rawTokens ++ tokens
        normalizedTokens := st.normalizedTokens ++ tokens.map (normalizeWord stem)
        analysis :=
          { st.analysis with
            allCapsWordCount := st.analysis.allCapsWordCount + tokens.countP isAllCaps } } := by
  induction tokens generalizing st with
  | nil => simp
  | cons w ws ih =>
    rw [List.foldl_cons, ih]
    by_cases h : isAllCaps w = true
    · simp [analyzeTweetAdvanced.pushToken, h, List.countP_cons]
      omega
    · simp [analyzeTweetAdvanced.pushToken, h, List.countP_cons]

theorem prepare_eq (stem : CString → CString) (tweet : Tweet) :
    analyzeTweetAdvanced.prepare stem tweet =
      { rawTokens := tokenize tweet.text
        normalizedTokens := (tokenize tweet.text).map (normalizeWord stem)
        analysis :=
          { tweetId := tweet.tweetId, senatorName := tweet.senatorName,
            datetime := tweet.datetime, text := tweet.text,
            exclamationCount := tweet.text.count '!',
            questionCount := tweet.text.count '?',
            allCapsWordCount := (tokenize tweet.text).countP isAllCaps } } := by
  unfold analyzeTweetAdvanced.prepare
  simp only [countPunct_foldl, pushToken_foldl]
  simp

/-! ## The token loop -/

theorem ngramHit_eq (m : StrMap) (key : CString) (analysis : AdvancedTweetAnalysis) :
    analyzeTweetAdvanced.ngramHit m key analysis =
      some (match m.at key with
        | some w => (ngramUpdate analysis w, true)
        | none => (analysis, false)) := by
  unfold analyzeTweetAdvanced.ngramHit
  rw [StrMap.count_eq_isSome]
  cases h : m.at key with
  | none => simp
  | some w =>
    by_cases hw : w > 0 <;> simp [ngramUpdate, hw]

theorem getElem?_eq_some_getD (l : List CString) (i : Nat) (h : i < l.length) :
    l[i]? = some (l.getD i []) := by
  rw [List.getD_eq_getElem?_getD, List.getElem?_eq_getElem h]
  rfl

theorem lookBackBody_eq (negationWords intensifiers downtoners : StrSet)
    (prevToken : CString) (flags : ContextFlags) :
    analyzeTweetAdvanced.lookBackBody negationWords intensifiers downtoners prevToken flags =
      { hasNegation := flags.hasNegation || negationWords.count prevToken
        hasIntensifier := flags.hasIntensifier || intensifiers.count prevToken
        hasDowntoner := flags.hasDowntoner || downtoners.count prevToken } := by
  obtain ⟨f1, f2, f3⟩ := flags
  unfold analyzeTweetAdvanced.lookBackBody
  cases negationWords.count prevToken <;> cases intensifiers.count prevToken <;>
    cases downtoners.count prevToken <;> simp

theorem lookBack_eq (negationWords intensifiers downtoners : StrSet)
    (normalizedTokens : List CString) (i : Nat) (hi : i < normalizedTokens.length) :
    analyzeTweetAdvanced.lookBack negationWords intensifiers downtoners normalizedTokens i 2 1 {} =
      some { hasNegation := windowHas negationWords normalizedTokens i
             hasIntensifier := windowHas intensifiers normalizedTokens i
             hasDowntoner := windowHas downtoners normalizedTokens i } := by
  rcases i with _ | _ | k
  · simp [analyzeTweetAdvanced.lookBack, windowHas]
  · have h0 : normalizedTokens[0]? = some (normalizedTokens.getD 0 []) :=
      getElem?_eq_some_getD _ _ (by omega)
    have e1 : (((0 + 1 : Nat) : Int) - 1).toNat = 0 := by omega
    have c1 : (1 : Int) ≤ 2 ∧ ((0 + 1 : Nat) : Int) - 1 ≥ 0 := by omega
    have c2 : ¬ ((1 + 1 : Int) ≤ 2 ∧ ((0 + 1 : Nat) : Int) - (1 + 1) ≥ 0) := by omega
    have r1 : analyzeTweetAdvanced.readBack normalizedTokens (0 + 1) 1 =
        some (normalizedTokens.getD 0 []) := by
      unfold analyzeTweetAdvanced.readBack
      rw [if_neg (by omega), e1, h0]
    simp only [analyzeTweetAdvanced.lookBack]
    rw [if_pos c1, r1]
    simp only []
    rw [if_neg c2]
    simp [windowHas, lookBackBody_eq]
  · have h0 : normalizedTokens[k]? = some (normalizedTokens.getD k []) :=
      getElem?_eq_some_getD _ _ (by omega)
    have h1 : normalizedTokens[k + 1]? = some (normalizedTokens.getD (k + 1) []) :=
      getElem?_eq_some_getD _ _ (by omega)
    have e1 : (((k + 1 + 1 : Nat) : Int) - 1).toNat = k + 1 := by omega
    have e2 : (((k + 1 + 1 : Nat) : Int) - (1 + 1)).toNat = k := by omega
    have c1 : (1 : Int) ≤ 2 ∧ ((k + 1 + 1 : Nat) : Int) - 1 ≥ 0 := by omega
    have c2 : (1 + 1 : Int) ≤ 2 ∧ ((k + 1 + 1 : Nat) : Int) - (1 + 1) ≥ 0 := by omega
    have r1 : analyzeTweetAdvanced.readBack normalizedTokens (k + 1 + 1) 1 =
        some (normalizedTokens.getD (k + 1) []) := by
      unfold analyzeTweetAdvanced.readBack
      rw [if_neg (by omega), e1, h1]
    have r2 : analyzeTweetAdvanced.readBack normalizedTokens (k + 1 + 1) (1 + 1) =
        some (normalizedTokens.getD k []) := by
      unfold analyzeTweetAdvanced.readBack
      rw [if_neg (by omega), e2, h0]
    simp only [analyzeTweetAdvanced.lookBack]
    rw [if_pos c1, r1]
    simp only []
    rw [if_pos c2, r2]
    simp [windowHas, lookBackBody_eq]

theorem applyModifiers_eq (negationWords intensifiers downtoners : StrSet)
    (normalizedTokens : List CString) (i : Nat) (base : ℚ) :
    analyzeTweetAdvanced.applyModifiers
        { hasNegation := windowHas negationWords normalizedTokens i
          hasIntensifier := windowHas intensifiers normalizedTokens i
          hasDowntoner := windowHas downtoners normalizedTokens i } base =
      adjustedPolarity negationWords intensifiers downtoners normalizedTokens i base := by
  unfold analyzeTweetAdvanced.applyModifiers adjustedPolarity
  cases windowHas negationWords normalizedTokens i <;>
    cases windowHas intensifiers normalizedTokens i <;>
    cases windowHas downtoners normalizedTokens i <;> simp

theorem sentimentWord_eq (wordPolarity : StrMap) (negationWords intensifiers downtoners : StrSet)
    (normalizedTokens : List CString) (i : Nat) (hi : i < normalizedTokens.length)
    (token : CString) (analysis : AdvancedTweetAnalysis) :
    analyzeTweetAdvanced.sentimentWord wordPolarity negationWords intensifiers downtoners
        normalizedTokens i token analysis =
      some (match wordPolarity.at token with
        | some base =>
          polarityUpdate negationWords intensifiers downtoners normalizedTokens i analysis base
        | none => { analysis with neutralWordCount := analysis.neutralWordCount + 1 }) := by
  unfold analyzeTweetAdvanced.sentimentWord
  rw [StrMap.count_eq_isSome, lookBack_eq _ _ _ _ _ hi]
  cases h : wordPolarity.at token with
  | none => simp
  | some base =>
    simp only [Option.isSome_some, if_true, applyModifiers_eq, polarityUpdate]
    by_cases h1 : base > 0
    · simp [h1]
    · by_cases h2 : base < 0 <;> simp [h1, h2]

theorem processToken_eq (wordPolarity : StrMap)
    (negationWords intensifiers downtoners : StrSet) (ngramPolarity : StrMap)
    (positiveEmojisSlang negativeEmojisSlang : StrSet)
    (rawTokens normalizedTokens : List CString)
    (analysis : AdvancedTweetAnalysis) (i : Nat) (hi : i < normalizedTokens.length)
    (hir : i < rawTokens.length) :
    analyzeTweetAdvanced.processToken wordPolarity negationWords intensifiers downtoners
        ngramPolarity positiveEmojisSlang negativeEmojisSlang rawTokens normalizedTokens
        analysis i =
      some (ruleStep wordPolarity negationWords intensifiers downtoners ngramPolarity
        positiveEmojisSlang negativeEmojisSlang rawTokens normalizedTokens analysis i) := by
  have h0 := getElem?_eq_some_getD normalizedTokens i hi
  have hr := getElem?_eq_some_getD rawTokens i hir
  unfold analyzeTweetAdvanced.processToken ruleStep
  rw [h0, hr]
  simp only []
  by_cases hempty : normalizedTokens.getD i [] = []
  · rw [if_pos hempty, if_pos hempty]
  rw [if_neg hempty, if_neg hempty]
  by_cases hp : positiveEmojisSlang.count (toLowerStr (rawTokens.getD i [])) = true
  · rw [if_pos hp, if_pos hp]
  rw [if_neg hp, if_neg hp]
  by_cases hn : negativeEmojisSlang.count (toLowerStr (rawTokens.getD i [])) = true
  · rw [if_pos hn, if_pos hn]
  rw [if_neg hn, if_neg hn]
  unfold analyzeTweetAdvanced.trigramStep analyzeTweetAdvanced.bigramStep phraseWeight
  simp only [sentimentWord_eq _ _ _ _ _ _ hi, ngramHit_eq]
  by_cases h2 : i + 2 < normalizedTokens.length
  · have g1 := getElem?_eq_some_getD normalizedTokens (i + 1) (by omega)
    have g2 := getElem?_eq_some_getD normalizedTokens (i + 2) h2
    have h1 : i + 1 < normalizedTokens.length := by omega
    rw [if_pos h2, if_pos h2, h0, g1, g2]
    simp only []
    cases ht : ngramPolarity.at (normalizedTokens.getD i [] ++ " ".toList ++
        normalizedTokens.getD (i + 1) [] ++ " ".toList ++ normalizedTokens.getD (i + 2) []) with
    | some w => simp
    | none =>
      simp only [h1, and_self, if_true]
      cases hb : ngramPolarity.at (normalizedTokens.getD i [] ++ " ".toList ++
          normalizedTokens.getD (i + 1) []) with
      | some w => simp
      | none => simp
  · rw [if_neg h2, if_neg h2]
    simp only []
    by_cases h1 : i + 1 < normalizedTokens.length
    · have g1 := getElem?_eq_some_getD normalizedTokens (i + 1) h1
      simp only [h1, and_self, if_true, h0, g1]
      cases hb : ngramPolarity.at (normalizedTokens.getD i [] ++ " ".toList ++
          normalizedTokens.getD (i + 1) []) with
      | some w => simp
      | none => simp
    · simp [h1]

theorem tokenLoop_eq (wordPolarity : StrMap)
    (negationWords intensifiers downtoners : StrSet) (ngramPolarity : StrMap)
    (positiveEmojisSlang negativeEmojisSlang : StrSet)
    (rawTokens normalizedTokens : List CString)
    (hlen : rawTokens.length = normalizedTokens.length) :
    ∀ (k i : Nat) (analysis : AdvancedTweetAnalysis), i + k = normalizedTokens.length →
      analyzeTweetAdvanced.tokenLoop
          (analyzeTweetAdvanced.processToken wordPolarity negationWords intensifiers downtoners
            ngramPolarity positiveEmojisSlang negativeEmojisSlang rawTokens normalizedTokens)
          k i analysis =
        some ((List.range' i k).foldl
          (ruleStep wordPolarity negationWords intensifiers downtoners ngramPolarity
            positiveEmojisSlang negativeEmojisSlang rawTokens normalizedTokens) analysis) := by
  intro k
  induction k with
  | zero => intro i analysis _; rfl
  | succ k ih =>
    intro i analysis hik
    unfold analyzeTweetAdvanced.tokenLoop
    rw [processToken_eq _ _ _ _ _ _ _ _ _ _ _ (by omega) (by omega)]
    simp only []
    rw [ih (i + 1) _ (by omega)]
    rfl

/-- The analysis of a tweet never fails: it is the punctuation emphasis applied
to the fold of the rules over the indices of the token list. -/
theorem analyzeTweetAdvanced_eq (stem : CString → CString) (tweet : Tweet)
    (wordPolarity : StrMap) (negationWords intensifiers downtoners : StrSet)
    (ngramPolarity : StrMap) (positiveEmojisSlang negativeEmojisSlang : StrSet) :
    analyzeTweetAdvanced stem tweet wordPolarity negationWords intensifiers downtoners
        ngramPolarity positiveEmojisSlang negativeEmojisSlang =
      some (analyzeTweetAdvanced.emphasis
        ((List.range' 0 (tokenize tweet.text).length).foldl
          (ruleStep wordPolarity negationWords intensifiers downtoners ngramPolarity
            positiveEmojisSlang negativeEmojisSlang (tokenize tweet.text)
            ((tokenize tweet.text).map (normalizeWord stem)))
          (analyzeTweetAdvanced.prepare stem tweet).analysis)) := by
  unfold analyzeTweetAdvanced
  simp only []
  rw [tokenLoop_eq _ _ _ _ _ _ _ _ _ (by simp [prepare_eq]) _ _ _ (by simp)]
  simp [prepare_eq]

theorem markers_eq (negationWords intensifiers downtoners : StrSet) (token : CString)
    (analysis : AdvancedTweetAnalysis) :
    analyzeTweetAdvanced.markers negationWords intensifiers downtoners token analysis =
      { analysis with
        negationHits := analysis.negationHits + (if negationWords.count token then 1 else 0)
        intensifierHits :=
          analysis.intensifierHits + (if intensifiers.count token then 1 else 0)
        downtonerHits := analysis.downtonerHits + (if downtoners.count token then 1 else 0) } := by
  unfold analyzeTweetAdvanced.markers
  cases negationWords.count token <;> cases intensifiers.count token <;>
    cases downtoners.count token <;> simp

theorem map_getD_range' {α : Type} (l : List α) (d : α) :
    ∀ (k i : Nat), i + k = l.length → (List.range' i k).map (fun j => l.getD j d) = l.drop i := by
  intro k
  induction k with
  | zero =>
    intro i hi
    have : l.length ≤ i := by omega
    simp [List.drop_eq_nil_of_le this]
  | succ k ih =>
    intro i hi
    have hlt : i < l.length := by omega
    rw [List.range'_succ, List.map_cons, ih (i + 1) (by omega), List.drop_eq_getElem_cons hlt,
      List.getD_eq_getElem _ _ hlt]

theorem ngramUpdate_fields (analysis : AdvancedTweetAnalysis) (w : ℚ) :
    (ngramUpdate analysis w).adjustedSentimentScore = analysis.adjustedSentimentScore + w ∧
    (ngramUpdate analysis w).totalWords = analysis.totalWords ∧
    (ngramUpdate analysis w).exclamationCount = analysis.exclamationCount ∧
    (ngramUpdate analysis w).allCapsWordCount = analysis.allCapsWordCount := by
  unfold ngramUpdate
  by_cases hw : w > 0 <;> simp [hw]

theorem polarityUpdate_fields (negationWords intensifiers downtoners : StrSet)
    (normalizedTokens : List CString) (i : Nat) (analysis : AdvancedTweetAnalysis) (base : ℚ) :
    (polarityUpdate negationWords intensifiers downtoners normalizedTokens i analysis
        base).adjustedSentimentScore =
      analysis.adjustedSentimentScore +
        adjustedPolarity negationWords intensifiers downtoners normalizedTokens i base ∧
    (polarityUpdate negationWords intensifiers downtoners normalizedTokens i analysis
        base).baseSentimentScore = analysis.baseSentimentScore + base ∧
    (polarityUpdate negationWords intensifiers downtoners normalizedTokens i analysis
        base).totalWords = analysis.totalWords ∧
    (polarityUpdate negationWords intensifiers downtoners normalizedTokens i analysis
        base).exclamationCount = analysis.exclamationCount ∧
    (polarityUpdate negationWords intensifiers downtoners normalizedTokens i analysis
        base).allCapsWordCount = analysis.allCapsWordCount := by
  unfold polarityUpdate
  by_cases h1 : base > 0
  · simp [h1]
  · by_cases h2 : base < 0 <;> simp [h1, h2]

/-- What one step of the rules does to the fields read by the final
adjustment and by the word count. -/
theorem ruleStep_fields (wordPolarity : StrMap)
    (negationWords intensifiers downtoners : StrSet) (ngramPolarity : StrMap)
    (positiveEmojisSlang negativeEmojisSlang : StrSet)
    (rawTokens normalizedTokens : List CString) (analysis : AdvancedTweetAnalysis) (i : Nat) :
    (ruleStep wordPolarity negationWords intensifiers downtoners ngramPolarity
        positiveEmojisSlang negativeEmojisSlang rawTokens normalizedTokens
        analysis i).adjustedSentimentScore =
      analysis.adjustedSentimentScore +
        tokenContribution wordPolarity negationWords intensifiers downtoners ngramPolarity
          positiveEmojisSlang negativeEmojisSlang rawTokens normalizedTokens i ∧
    (ruleStep wordPolarity negationWords intensifiers downtoners ngramPolarity
        positiveEmojisSlang negativeEmojisSlang rawTokens normalizedTokens
        analysis i).totalWords =
      analysis.totalWords + (if normalizedTokens.getD i [] = [] then 0 else 1) ∧
    (ruleStep wordPolarity negationWords intensifiers downtoners ngramPolarity
        positiveEmojisSlang negativeEmojisSlang rawTokens normalizedTokens
        analysis i).exclamationCount = analysis.exclamationCount ∧
    (ruleStep wordPolarity negationWords intensifiers downtoners ngramPolarity
        positiveEmojisSlang negativeEmojisSlang rawTokens normalizedTokens
        analysis i).allCapsWordCount = analysis.allCapsWordCount := by
  unfold ruleStep tokenContribution
  simp only []
  by_cases hempty : normalizedTokens.getD i [] = []
  · simp only [if_pos hempty]
    simp
  simp only [if_neg hempty]
  by_cases hp : positiveEmojisSlang.count (toLowerStr (rawTokens.getD i [])) = true
  · simp only [if_pos hp]
    simp
  simp only [if_neg hp]
  by_cases hn : negativeEmojisSlang.count (toLowerStr (rawTokens.getD i [])) = true
  · simp only [if_pos hn]
    simp
    ring
  simp only [if_neg hn]
  cases hpw : phraseWeight ngramPolarity normalizedTokens i with
  | some w =>
    simp only []
    obtain ⟨p1, p2, p3, p4⟩ :=
      ngramUpdate_fields { analysis with totalWords := analysis.totalWords + 1 } w
    rw [p1, p2, p3, p4]
    exact ⟨rfl, rfl, rfl, rfl⟩
  | none =>
    simp only []
    cases hat : StrMap.at wordPolarity (normalizedTokens.getD i []) with
    | some base =>
      simp only []
      obtain ⟨p1, _, p3, p4, p5⟩ :=
        polarityUpdate_fields negationWords intensifiers downtoners normalizedTokens i
          (analyzeTweetAdvanced.markers negationWords intensifiers downtoners
            (normalizedTokens.getD i []) { analysis with totalWords := analysis.totalWords + 1 })
          base
      rw [p1, p3, p4, p5, markers_eq]
      exact ⟨rfl, rfl, rfl, rfl⟩
    | none =>
      simp [markers_eq]

theorem foldl_ruleStep_fields (wordPolarity : StrMap)
    (negationWords intensifiers downtoners : StrSet) (ngramPolarity : StrMap)
    (positiveEmojisSlang negativeEmojisSlang : StrSet)
    (rawTokens normalizedTokens : List CString) :
    ∀ (k i : Nat) (analysis : AdvancedTweetAnalysis),
      ((List.range' i k).foldl
          (ruleStep wordPolarity negationWords intensifiers downtoners ngramPolarity
            positiveEmojisSlang negativeEmojisSlang rawTokens normalizedTokens)
          analysis).adjustedSentimentScore =
        analysis.adjustedSentimentScore +
          ((List.range' i k).map
            (tokenContribution wordPolarity negationWords intensifiers downtoners ngramPolarity
              positiveEmojisSlang negativeEmojisSlang rawTokens normalizedTokens)).sum ∧
      ((List.range' i k).foldl
          (ruleStep wordPolarity negationWords intensifiers downtoners ngramPolarity
            positiveEmojisSlang negativeEmojisSlang rawTokens normalizedTokens)
          analysis).totalWords =
        analysis.totalWords +
          ((List.range' i k).map (fun j => normalizedTokens.getD j [])).countP
            (fun w => decide (w ≠ [])) ∧
      ((List.range' i k).foldl
          (ruleStep wordPolarity negationWords intensifiers downtoners ngramPolarity
            positiveEmojisSlang negativeEmojisSlang rawTokens normalizedTokens)
          analysis).exclamationCount = analysis.exclamationCount ∧
      ((List.range' i k).foldl
          (ruleStep wordPolarity negationWords intensifiers downtoners ngramPolarity
            positiveEmojisSlang negativeEmojisSlang rawTokens normalizedTokens)
          analysis).allCapsWordCount = analysis.allCapsWordCount := by
  intro k
  induction k with
  | zero => intro i analysis; simp
  | succ k ih =>
    intro i analysis
    obtain ⟨h1, h2, h3, h4⟩ := ruleStep_fields wordPolarity negationWords intensifiers downtoners
      ngramPolarity positiveEmojisSlang negativeEmojisSlang rawTokens normalizedTokens analysis i
    obtain ⟨g1, g2, g3, g4⟩ := ih (i + 1)
      (ruleStep wordPolarity negationWords intensifiers downtoners ngramPolarity
        positiveEmojisSlang negativeEmojisSlang rawTokens normalizedTokens analysis i)
    rw [List.range'_succ, List.foldl_cons, List.map_cons, List.map_cons, List.sum_cons,
      List.countP_cons, g1, g2, g3, g4, h1, h2, h3, h4]
    refine ⟨by ring, ?_, rfl, rfl⟩
    by_cases hempty : normalizedTokens.getD i [] = []
    · have hd : decide (normalizedTokens.getD i [] ≠ []) = false :=
        decide_eq_false (not_not.mpr hempty)
      rw [if_pos hempty]
      simp only [hd]
      simp
    · have hd : decide (normalizedTokens.getD i [] ≠ []) = true := decide_eq_true hempty
      rw [if_neg hempty]
      simp only [hd]
      simp
      omega

theorem emphasis_fields (analysis : AdvancedTweetAnalysis) :
    (analyzeTweetAdvanced.emphasis analysis).adjustedSentimentScore =
      analysis.adjustedSentimentScore * (1 + 0.05 * (analysis.exclamationCount : ℚ)) ∧
    (analyzeTweetAdvanced.emphasis analysis).totalWords = analysis.totalWords ∧
    (analyzeTweetAdvanced.emphasis analysis).exclamationCount = analysis.exclamationCount ∧
    (analyzeTweetAdvanced.emphasis analysis).allCapsWordCount = analysis.allCapsWordCount := by
  unfold analyzeTweetAdvanced.emphasis
  by_cases h : analysis.exclamationCount > 0
  · simp only [h, if_true, and_self, and_true]
    norm_num
  · have h0 : analysis.exclamationCount = 0 := by omega
    simp [h0]

/-- The adjusted score of a tweet: the sum of the per-token contributions,
scaled once by the exclamation marks of the text. -/
theorem analyzeTweetAdvanced_adjusted (stem : CString → CString) (tweet : Tweet)
    (wordPolarity : StrMap) (negationWords intensifiers downtoners : StrSet)
    (ngramPolarity : StrMap) (positiveEmojisSlang negativeEmojisSlang : StrSet) :
    ∃ analysis,
      analyzeTweetAdvanced stem tweet wordPolarity negationWords intensifiers downtoners
        ngramPolarity positiveEmojisSlang negativeEmojisSlang = some analysis ∧
      analysis.exclamationCount = tweet.text.count '!' ∧
      analysis.adjustedSentimentScore =
        ((List.range' 0 (tokenize tweet.text).length).map
          (tokenContribution wordPolarity negationWords intensifiers downtoners ngramPolarity
            positiveEmojisSlang negativeEmojisSlang (tokenize tweet.text)
            ((tokenize tweet.text).map (normalizeWord stem)))).sum *
          (1 + 0.05 * (tweet.text.count '!' : ℚ)) := by
  refine ⟨_, analyzeTweetAdvanced_eq stem tweet wordPolarity negationWords intensifiers
    downtoners ngramPolarity positiveEmojisSlang negativeEmojisSlang, ?_, ?_⟩
  · rw [(emphasis_fields _).2.2.1, (foldl_ruleStep_fields _ _ _ _ _ _ _ _ _ _ _ _).2.2.1,
      prepare_eq]
  · rw [(emphasis_fields _).1, (foldl_ruleStep_fields _ _ _ _ _ _ _ _ _ _ _ _).1,
      (foldl_ruleStep_fields _ _ _ _ _ _ _ _ _ _ _ _).2.2.1, prepare_eq]
    simp

/-! ## The claims -/

/-- C3: for every post and every choice of lexicons, `analyzeTweetAdvanced`
returns an analysis whose `totalWords` is the number of whitespace-delimited
tokens of the text whose `normalizeWord` form is non-empty, whatever rule each
token matches. -/
theorem totalWords_counts_nonempty_tokens (stem : CString → CString) (tweet : Tweet)
    (wordPolarity : StrMap) (negationWords intensifiers downtoners : StrSet)
    (ngramPolarity : StrMap) (positiveEmojisSlang negativeEmojisSlang : StrSet) :
    ∃ analysis,
      analyzeTweetAdvanced stem tweet wordPolarity negationWords intensifiers downtoners
        ngramPolarity positiveEmojisSlang negativeEmojisSlang = some analysis ∧
      analysis.totalWords =
        ((tokenize tweet.text).filter (fun w => decide (normalizeWord stem w ≠ []))).length := by
  refine ⟨_, analyzeTweetAdvanced_eq stem tweet wordPolarity negationWords intensifiers
    downtoners ngramPolarity positiveEmojisSlang negativeEmojisSlang, ?_⟩
  rw [(emphasis_fields _).2.1, (foldl_ruleStep_fields _ _ _ _ _ _ _ _ _ _ _ _).2.1,
    map_getD_range' _ _ _ 0 (by simp), prepare_eq, List.drop_zero, List.countP_map]
  simp only [Nat.zero_add]
  rw [List.countP_eq_length_filter]
  rfl

/-- C4: for every post, `analyzeTweetAdvanced` returns an analysis whose
`adjustedSentimentScore` is `S × (1 + 0.05 × exclamationCount)`, where `S` is
the sum over the token indices of the per-token contributions and
`exclamationCount` is the number of `!` characters of the text. -/
theorem adjusted_score_is_scaled_sum (stem : CString → CString) (tweet : Tweet)
    (wordPolarity : StrMap) (negationWords intensifiers downtoners : StrSet)
    (ngramPolarity : StrMap) (positiveEmojisSlang negativeEmojisSlang : StrSet) :
    ∃ analysis,
      analyzeTweetAdvanced stem tweet wordPolarity negationWords intensifiers downtoners
        ngramPolarity positiveEmojisSlang negativeEmojisSlang = some analysis ∧
      analysis.exclamationCount = tweet.text.count '!' ∧
      analysis.adjustedSentimentScore =
        ((List.range (tokenize tweet.text).length).map
          (tokenContribution wordPolarity negationWords intensifiers downtoners ngramPolarity
            positiveEmojisSlang negativeEmojisSlang (tokenize tweet.text)
            ((tokenize tweet.text).map (normalizeWord stem)))).sum *
          (1 + 0.05 * (tweet.text.count '!' : ℚ)) := by
  obtain ⟨analysis, h, hexc, hadj⟩ := analyzeTweetAdvanced_adjusted stem tweet wordPolarity
    negationWords intensifiers downtoners ngramPolarity positiveEmojisSlang negativeEmojisSlang
  refine ⟨analysis, h, hexc, ?_⟩
  rw [hadj, List.range_eq_range']

/-- C5: a token with a non-empty normalized form whose lower-cased raw form is
in the positive or the negative emoji/slang set increments `totalWords` and the
matching emoji counter by one, changes the running adjusted score by `+1` (the
positive set, which is tested first) or `-1` (the negative set), and leaves the
word counters, the phrase hits, the marker hits and the base score unchanged,
whatever the other lexicons contain. -/
theorem emoji_token_effect (wordPolarity : StrMap)
    (negationWords intensifiers downtoners : StrSet) (ngramPolarity : StrMap)
    (positiveEmojisSlang negativeEmojisSlang : StrSet)
    (rawTokens normalizedTokens : List CString) (analysis : AdvancedTweetAnalysis) (i : Nat)
    (rawToken token : CString)
    (hraw : rawTokens[i]? = some rawToken) (hnorm : normalizedTokens[i]? = some token)
    (hne : token ≠ [])
    (hemoji : positiveEmojisSlang.count (toLowerStr rawToken) = true ∨
      negativeEmojisSlang.count (toLowerStr rawToken) = true) :
    ∃ result,
      analyzeTweetAdvanced.processToken wordPolarity negationWords intensifiers downtoners
        ngramPolarity positiveEmojisSlang negativeEmojisSlang rawTokens normalizedTokens
        analysis i = some result ∧
      result.totalWords = analysis.totalWords + 1 ∧
      (positiveEmojisSlang.count (toLowerStr rawToken) = true →
        result.emojiPositiveCount = analysis.emojiPositiveCount + 1 ∧
        result.emojiNegativeCount = analysis.emojiNegativeCount ∧
        result.adjustedSentimentScore = analysis.adjustedSentimentScore + 1) ∧
      (positiveEmojisSlang.count (toLowerStr rawToken) = false →
        result.emojiNegativeCount = analysis.emojiNegativeCount + 1 ∧
        result.emojiPositiveCount = analysis.emojiPositiveCount ∧
        result.adjustedSentimentScore = analysis.adjustedSentimentScore - 1) ∧
      result.posWordCount = analysis.posWordCount ∧
      result.negWordCount = analysis.negWordCount ∧
      result.neutralWordCount = analysis.neutralWordCount ∧
      result.ngramPositiveHits = analysis.ngramPositiveHits ∧
      result.ngramNegativeHits = analysis.ngramNegativeHits ∧
      result.negationHits = analysis.negationHits ∧
      result.intensifierHits = analysis.intensifierHits ∧
      result.downtonerHits = analysis.downtonerHits ∧
      result.baseSentimentScore = analysis.baseSentimentScore := by
  unfold analyzeTweetAdvanced.processToken
  rw [hnorm, hraw]
  simp only [if_neg hne]
  by_cases hp : positiveEmojisSlang.count (toLowerStr rawToken) = true
  · rw [if_pos hp]
    exact ⟨_, rfl, rfl, fun _ => ⟨rfl, rfl, rfl⟩, fun h => by simp [hp] at h,
      rfl, rfl, rfl, rfl, rfl, rfl, rfl, rfl, rfl⟩
  · have hn : negativeEmojisSlang.count (toLowerStr rawToken) = true := by
      rcases hemoji with h | h
      · exact absurd h hp
      · exact h
    rw [if_neg hp, if_pos hn]
    exact ⟨_, rfl, rfl, fun h => absurd h hp, fun _ => ⟨rfl, rfl, rfl⟩,
      rfl, rfl, rfl, rfl, rfl, rfl, rfl, rfl, rfl⟩

/-- A post of one token, the slang word `lol`, which is at the same time a
positive polarity word, a negator and an entry of the positive slang set. -/
theorem emoji_token_effect_witness :
    ∃ result,
      analyzeTweetAdvanced.processToken [("lol".toList, 1)] ["lol".toList] [] [] []
        ["lol".toList] [] ["LOL".toList] ["lol".toList] {} 0 = some result ∧
      result.totalWords = 1 ∧ result.emojiPositiveCount = 1 ∧
      result.adjustedSentimentScore = 1 ∧ result.posWordCount = 0 ∧
      result.negationHits = 0 ∧ result.baseSentimentScore = 0 := by
  obtain ⟨result, h, h1, h2, _, h4, _, _, _, _, h9, _, _, h12⟩ :=
    emoji_token_effect [("lol".toList, 1)] ["lol".toList] [] [] [] ["lol".toList] []
      ["LOL".toList] ["lol".toList] {} 0 "LOL".toList "lol".toList rfl rfl (by decide)
      (Or.inl (by decide))
  obtain ⟨e1, _, e3⟩ := h2 (by decide)
  exact ⟨result, h, by simpa using h1, by simpa using e1, by simpa using e3,
    by simpa using h4, by simpa using h9, by simpa using h12⟩

/-- C6: for a token at index `i` that reaches the polarity rule (non-empty, not an
emoji or slang entry, no phrase matched at `i`) with polarity weight `base`, the
step adds `base` to `baseSentimentScore` and `base × n × t × d` to the adjusted
score, where `n = -0.7`, `t = 1.5`, `d = 0.5` when the tokens at `i-1`, `i-2`
(those that exist) contain a negator, an intensifier, a downtoner, and `1`
otherwise. In particular, with a negator at `i-1` and neither intensifier nor
downtoner in the window, the contribution is `base × (-0.7)`, whatever the
token at `i-2` is. -/
theorem polarity_rule_effect (wordPolarity : StrMap)
    (negationWords intensifiers downtoners : StrSet) (ngramPolarity : StrMap)
    (positiveEmojisSlang negativeEmojisSlang : StrSet)
    (rawTokens normalizedTokens : List CString) (analysis : AdvancedTweetAnalysis) (i : Nat)
    (rawToken token : CString) (base : ℚ)
    (hraw : rawTokens[i]? = some rawToken) (hnorm : normalizedTokens[i]? = some token)
    (hne : token ≠ [])
    (hpos : positiveEmojisSlang.count (toLowerStr rawToken) = false)
    (hneg : negativeEmojisSlang.count (toLowerStr rawToken) = false)
    (hphrase : phraseWeight ngramPolarity normalizedTokens i = none)
    (hbase : wordPolarity.at token = some base) :
    ∃ result,
      analyzeTweetAdvanced.processToken wordPolarity negationWords intensifiers downtoners
        ngramPolarity positiveEmojisSlang negativeEmojisSlang rawTokens normalizedTokens
        analysis i = some result ∧
      result.baseSentimentScore = analysis.baseSentimentScore + base ∧
      result.adjustedSentimentScore = analysis.adjustedSentimentScore +
        base * (if windowHas negationWords normalizedTokens i then -0.7 else 1)
          * (if windowHas intensifiers normalizedTokens i then 1.5 else 1)
          * (if windowHas downtoners normalizedTokens i then 0.5 else 1) ∧
      (1 ≤ i → negationWords.count (normalizedTokens.getD (i - 1) []) = true →
        windowHas intensifiers normalizedTokens i = false →
        windowHas downtoners normalizedTokens i = false →
        result.adjustedSentimentScore = analysis.adjustedSentimentScore + base * (-0.7)) := by
  have hi : i < normalizedTokens.length := by
    by_contra hcon
    rw [List.getElem?_eq_none (by omega)] at hnorm
    exact Option.noConfusion hnorm
  have hir : i < rawTokens.length := by
    by_contra hcon
    rw [List.getElem?_eq_none (by omega)] at hraw
    exact Option.noConfusion hraw
  have htok : normalizedTokens.getD i [] = token := by
    rw [List.getD_eq_getElem?_getD, hnorm]
    rfl
  have hrw : rawTokens.getD i [] = rawToken := by
    rw [List.getD_eq_getElem?_getD, hraw]
    rfl
  have hstep : ruleStep wordPolarity negationWords intensifiers downtoners ngramPolarity
      positiveEmojisSlang negativeEmojisSlang rawTokens normalizedTokens analysis i =
      polarityUpdate negationWords intensifiers downtoners normalizedTokens i
        (analyzeTweetAdvanced.markers negationWords intensifiers downtoners token
          { analysis with totalWords := analysis.totalWords + 1 }) base := by
    unfold ruleStep
    simp only [htok, hrw, if_neg hne, hpos, hneg, hphrase, hbase]
    simp
  obtain ⟨p1, p2, _⟩ := polarityUpdate_fields negationWords intensifiers downtoners
    normalizedTokens i
    (analyzeTweetAdvanced.markers negationWords intensifiers downtoners token
      { analysis with totalWords := analysis.totalWords + 1 }) base
  have hadj : (ruleStep wordPolarity negationWords intensifiers downtoners ngramPolarity
      positiveEmojisSlang negativeEmojisSlang rawTokens normalizedTokens analysis
      i).adjustedSentimentScore = analysis.adjustedSentimentScore +
        adjustedPolarity negationWords intensifiers downtoners normalizedTokens i base := by
    rw [hstep, p1, markers_eq]
  refine ⟨_, processToken_eq wordPolarity negationWords intensifiers downtoners ngramPolarity
    positiveEmojisSlang negativeEmojisSlang rawTokens normalizedTokens analysis i hi hir,
    ?_, ?_, ?_⟩
  · rw [hstep, p2, markers_eq]
  · rw [hadj]
    unfold adjustedPolarity
    norm_num
  · intro h1 hn hint hdown
    have hwin : windowHas negationWords normalizedTokens i = true := by
      unfold windowHas
      rw [hn]
      simp [h1]
    rw [hadj]
    unfold adjustedPolarity
    rw [hwin, hint, hdown]
    norm_num

/-- The third token of `never not good`, with `good` of weight `+1` and two
negators in its window: the contribution is `-0.7`, once. -/
theorem polarity_rule_effect_witness :
    ∃ result,
      analyzeTweetAdvanced.processToken [("good".toList, 1)] ["not".toList, "never".toList]
        [] [] [] [] [] ["never".toList, "not".toList, "good".toList]
        ["never".toList, "not".toList, "good".toList] {} 2 = some result ∧
      result.baseSentimentScore = 1 ∧ result.adjustedSentimentScore = -0.7 := by
  obtain ⟨result, h, h1, _, h3⟩ :=
    polarity_rule_effect [("good".toList, 1)] ["not".toList, "never".toList] [] [] [] [] []
      ["never".toList, "not".toList, "good".toList]
      ["never".toList, "not".toList, "good".toList] {} 2 "good".toList "good".toList 1
      rfl rfl (by decide) rfl rfl rfl rfl
  refine ⟨result, h, by simpa using h1, ?_⟩
  have := h3 (by decide) (by decide) (by decide) (by decide)
  simpa using this

theorem isAllCaps_loop_eq (cs : List Char) (alphaCount : Nat) :
    isAllCaps.loop cs alphaCount =
      if ∀ c ∈ cs, isalpha c = true → isupper c = true then
        some (alphaCount + cs.countP isalpha)
      else none := by
  induction cs generalizing alphaCount with
  | nil => simp [isAllCaps.loop]
  | cons c cs ih =>
    unfold isAllCaps.loop
    by_cases ha : isalpha c = true
    · by_cases hu : isupper c = true
      · rw [if_pos ha, if_neg (by simp [hu]), ih]
        by_cases hall : ∀ c ∈ cs, isalpha c = true → isupper c = true
        · have hall' : ∀ x ∈ c :: cs, isalpha x = true → isupper x = true := by
            intro x hx
            rcases List.mem_cons.mp hx with rfl | hx
            · exact fun _ => hu
            · exact hall x hx
          rw [if_pos hall, if_pos hall', List.countP_cons, if_pos ha]
          congr 1
          omega
        · have hall' : ¬ ∀ x ∈ c :: cs, isalpha x = true → isupper x = true :=
            fun h => hall (fun x hx => h x (List.mem_cons_of_mem _ hx))
          rw [if_neg hall, if_neg hall']
      · have hu' : isupper c = false := by simpa using hu
        have hall' : ¬ ∀ x ∈ c :: cs, isalpha x = true → isupper x = true :=
          fun h => hu (h c (List.mem_cons_self _ _) ha)
        rw [if_pos ha, if_pos hu', if_neg hall']
    · rw [if_neg ha, ih]
      by_cases hall : ∀ c ∈ cs, isalpha c = true → isupper c = true
      · have hall' : ∀ x ∈ c :: cs, isalpha x = true → isupper x = true := by
          intro x hx
          rcases List.mem_cons.mp hx with rfl | hx
          · exact fun h => absurd h ha
          · exact hall x hx
        rw [if_pos hall, if_pos hall', List.countP_cons, if_neg ha]
        rfl
      · have hall' : ¬ ∀ x ∈ c :: cs, isalpha x = true → isupper x = true :=
          fun h => hall (fun x hx => h x (List.mem_cons_of_mem _ hx))
        rw [if_neg hall, if_neg hall']

theorem isAllCaps_iff (word : CString) :
    isAllCaps word = true ↔ 2 ≤ word.length ∧ specAllCaps word := by
  unfold isAllCaps specAllCaps
  rw [isAllCaps_loop_eq]
  by_cases hlen : word.length ≤ 1
  · rw [if_pos hlen]
    constructor
    · intro h
      exact Bool.noConfusion h
    · intro h
      omega
  · rw [if_neg hlen]
    by_cases hall : ∀ c ∈ word, isalpha c = true → isupper c = true
    · rw [if_pos hall]
      simp only [Nat.zero_add, gt_iff_lt, decide_eq_true_eq, List.countP_pos_iff]
      constructor
      · intro h
        exact ⟨by omega, h, hall⟩
      · intro h
        exact h.2.1
    · rw [if_neg hall]
      constructor
      · intro h
        exact Bool.noConfusion h
      · intro h
        exact absurd h.2.2 hall

/-- C7, as amended: `isAllCaps` returns true exactly when the token has at least
two characters, contains an alphabetic character and has every alphabetic
character uppercase; `allCapsWordCount` of a post is the number of its
whitespace-delimited raw tokens satisfying that condition. -/
theorem isAllCaps_iff_and_allCapsWordCount (stem : CString → CString) (tweet : Tweet)
    (wordPolarity : StrMap) (negationWords intensifiers downtoners : StrSet)
    (ngramPolarity : StrMap) (positiveEmojisSlang negativeEmojisSlang : StrSet)
    (word : CString) :
    (isAllCaps word = true ↔ 2 ≤ word.length ∧ specAllCaps word) ∧
    ∃ analysis,
      analyzeTweetAdvanced stem tweet wordPolarity negationWords intensifiers downtoners
        ngramPolarity positiveEmojisSlang negativeEmojisSlang = some analysis ∧
      analysis.allCapsWordCount =
        (tokenize tweet.text).countP (fun w => decide (2 ≤ w.length ∧ specAllCaps w)) := by
  refine ⟨isAllCaps_iff word, _, analyzeTweetAdvanced_eq stem tweet wordPolarity negationWords
    intensifiers downtoners ngramPolarity positiveEmojisSlang negativeEmojisSlang, ?_⟩
  rw [(emphasis_fields _).2.2.2, (foldl_ruleStep_fields _ _ _ _ _ _ _ _ _ _ _ _).2.2.2,
    prepare_eq]
  apply List.countP_congr
  intro w _
  rw [isAllCaps_iff, decide_eq_true_eq]

/-- C7, as stated, fails on the one-letter token `I`: it has an alphabetic
character and all its alphabetic characters are uppercase, yet `isAllCaps`
returns false, and the post `I` has `allCapsWordCount = 0`. -/
theorem isAllCaps_single_letter_counterexample :
    specAllCaps "I".toList ∧ isAllCaps "I".toList = false ∧
    (analyzeTweetAdvanced id ⟨[], [], [], [], "I".toList⟩ [] [] [] [] [] [] []).map
      (fun analysis => analysis.allCapsWordCount) = some 0 ∧
    (tokenize "I".toList).countP (fun w => decide (specAllCaps w)) = 1 := by
  refine ⟨by decide, by decide, ?_, by decide⟩
  rfl

/-- C9: whatever the two word lists, when the stems of the six strong words are
pairwise distinct the map of `buildWordPolarityMap` gives `+2` to the stems of
`love`, `amazing`, `excellent` and `-2` to the stems of `hate`, `terrible`,
`horrible`. -/
theorem strong_words_override (stem : CString → CString) (posWords negWords : List CString)
    (hdistinct : [stem "love".toList, stem "amazing".toList, stem "excellent".toList,
      stem "hate".toList, stem "terrible".toList, stem "horrible".toList].Nodup) :
    (buildWordPolarityMap stem posWords negWords).at (stem "love".toList) = some 2 ∧
    (buildWordPolarityMap stem posWords negWords).at (stem "amazing".toList) = some 2 ∧
    (buildWordPolarityMap stem posWords negWords).at (stem "excellent".toList) = some 2 ∧
    (buildWordPolarityMap stem posWords negWords).at (stem "hate".toList) = some (-2) ∧
    (buildWordPolarityMap stem posWords negWords).at (stem "terrible".toList) = some (-2) ∧
    (buildWordPolarityMap stem posWords negWords).at (stem "horrible".toList) = some (-2) := by
  simp only [List.nodup_cons, List.mem_cons, List.mem_singleton, not_or, List.not_mem_nil,
    not_false_eq_true, List.nodup_nil, and_true] at hdistinct
  obtain ⟨⟨h12, h13, h14, h15, h16⟩, ⟨h23, h24, h25, h26⟩, ⟨h34, h35, h36⟩, ⟨h45, h46⟩, h56⟩ :=
    hdistinct
  unfold buildWordPolarityMap
  simp only [StrMap.at_assign]
  refine ⟨?_, ?_, ?_, ?_, ?_, ?_⟩
  · rw [if_neg h16, if_neg h15, if_neg h14, if_neg h13, if_neg h12, if_pos trivial]
  · rw [if_neg h26, if_neg h25, if_neg h24, if_neg h23, if_pos trivial]
  · rw [if_neg h36, if_neg h35, if_neg h34, if_pos trivial]
  · rw [if_neg h46, if_neg h45, if_pos trivial]
  · rw [if_neg h56, if_pos trivial]
  · rw [if_pos trivial]

/-- With the identity as stemmer and word lists that contain strong words on the
wrong side, the six strong entries are still `±2`. -/
theorem strong_words_override_witness :
    (buildWordPolarityMap id ["hate".toList, "love".toList] ["love".toList]).at
        (id "love".toList) = some 2 ∧
    (buildWordPolarityMap id ["hate".toList, "love".toList] ["love".toList]).at
        (id "hate".toList) = some (-2) :=
  have h := strong_words_override id ["hate".toList, "love".toList] ["love".toList]
    (by decide)
  ⟨h.1, h.2.2.2.1⟩

theorem addNegative_foldl_at (stem : CString → CString) (w : CString) (hne : stem w ≠ []) :
    ∀ (negWords : List CString) (m : StrMap),
      (w ∈ negWords ∨ m.at (stem w) = some (-1)) →
      (negWords.foldl (buildWordPolarityMap.addNegative stem) m).at (stem w) = some (-1) := by
  intro negWords
  induction negWords with
  | nil =>
    intro m h
    rcases h with h | h
    · exact absurd h (List.not_mem_nil _)
    · exact h
  | cons w' ws ih =>
    intro m h
    rw [List.foldl_cons]
    apply ih
    by_cases hmem : w ∈ ws
    · exact Or.inl hmem
    · right
      unfold buildWordPolarityMap.addNegative
      by_cases hww : w = w'
      · subst hww
        simp only [hne, ne_eq, not_false_eq_true, if_true]
        rw [StrMap.at_assign, if_pos rfl]
      · have hm : m.at (stem w) = some (-1) := by
          rcases h with h | h
          · rcases List.mem_cons.mp h with h | h
            · exact absurd h hww
            · exact absurd h hmem
          · exact h
        by_cases hw' : stem w' = []
        · simp only [hw', ne_eq, not_true_eq_false, if_false]
          exact hm
        · simp only [hw', ne_eq, not_false_eq_true, if_true]
          rw [StrMap.at_assign]
          by_cases he : stem w = stem w'
          · rw [if_pos he]
          · rw [if_neg he]
            exact hm

/-- C10: a word that appears in both word lists, whose stem is non-empty and is
not the stem of one of the six strong words, has its stem mapped to `-1` by
`buildWordPolarityMap`, wherever it stands in the two lists. -/
theorem both_lists_word_is_negative (stem : CString → CString)
    (posWords negWords : List CString) (w : CString)
    (_hpos : w ∈ posWords) (hneg : w ∈ negWords) (hne : stem w ≠ [])
    (hstrong : stem w ∉ [stem "love".toList, stem "amazing".toList, stem "excellent".toList,
      stem "hate".toList, stem "terrible".toList, stem "horrible".toList]) :
    (buildWordPolarityMap stem posWords negWords).at (stem w) = some (-1) := by
  simp only [List.mem_cons, List.mem_singleton, not_or, List.not_mem_nil, or_false] at hstrong
  obtain ⟨h1, h2, h3, h4, h5, h6⟩ := hstrong
  unfold buildWordPolarityMap
  simp only [StrMap.at_assign]
  rw [if_neg h6, if_neg h5, if_neg h4, if_neg h3, if_neg h2, if_neg h1]
  exact addNegative_foldl_at stem w hne negWords _ (Or.inl hneg)

/-- The word `fine` is last in the positive list and first in the negative
list: its weight is `-1`. -/
theorem both_lists_word_is_negative_witness :
    (buildWordPolarityMap id ["good".toList, "fine".toList] ["fine".toList, "bad".toList]).at
      (id "fine".toList) = some (-1) :=
  both_lists_word_is_negative id ["good".toList, "fine".toList] ["fine".toList, "bad".toList]
    "fine".toList (by decide) (by decide) (by decide) (by decide)

/-! ## The normalisation of a token -/

theorem charAt_mid (pre : List Char) (c : Char) (rest : List Char) :
    charAt (pre ++ c :: rest) (pre.length : Int) = c := by
  unfold charAt
  rw [Int.toNat_ofNat, List.getD_eq_getElem?_getD, List.getElem?_append_right (le_refl _)]
  simp

theorem scanStart_spec (p : List Char) :
    (∀ c ∈ p, isalnum c = false) →
    ∀ (pre rest : List Char) (fuel : Nat) (e : Int),
      p.length ≤ fuel → ((pre.length + p.length : Nat) : Int) ≤ e + 1 →
      (e < ((pre.length + p.length : Nat) : Int) ∨
        ∃ c rest', rest = c :: rest' ∧ isalnum c = true) →
      normalizeWord.scanStart (pre ++ p ++ rest) e fuel (pre.length : Int) =
        ((pre.length + p.length : Nat) : Int) := by
  induction p with
  | nil =>
    intro _ pre rest fuel e _ _ hstop
    cases fuel with
    | zero => simp [normalizeWord.scanStart]
    | succ f =>
      unfold normalizeWord.scanStart
      have hcond : ¬ ((pre.length : Int) ≤ e ∧
          isalnum (charAt (pre ++ [] ++ rest) (pre.length : Int)) = false) := by
        rintro ⟨h1, h2⟩
        rcases hstop with h | ⟨c, rest', hr, hc⟩
        · simp at h
          omega
        · subst hr
          rw [List.append_nil, charAt_mid] at h2
          rw [hc] at h2
          exact Bool.noConfusion h2
      rw [if_neg hcond]
      simp
  | cons c p ih =>
    intro hp pre rest fuel e hfuel he hstop
    cases fuel with
    | zero => simp at hfuel
    | succ f =>
      unfold normalizeWord.scanStart
      have hc : isalnum c = false := hp c (List.mem_cons_self _ _)
      have hcond : (pre.length : Int) ≤ e ∧
          isalnum (charAt (pre ++ c :: p ++ rest) (pre.length : Int)) = false := by
        constructor
        · simp at he
          omega
        · rw [List.append_assoc, List.cons_append, charAt_mid]
          exact hc
      rw [if_pos hcond]
      have hraw : pre ++ c :: p ++ rest = (pre ++ [c]) ++ p ++ rest := by simp
      have hlen : ((pre.length : Int) + 1) = ((pre ++ [c]).length : Int) := by simp
      rw [hraw, hlen, ih (fun x hx => hp x (List.mem_cons_of_mem _ hx)) (pre ++ [c]) rest f e
        (by simp at hfuel; omega) (by simp at he ⊢; omega)
        (by
          rcases hstop with h | h
          · left
            simp at h ⊢
            omega
          · exact Or.inr h)]
      simp
      omega

theorem scanEnd_spec (s : List Char) :
    (∀ c ∈ s, isalnum c = false) →
    ∀ (front post : List Char) (fuel : Nat) (start : Int),
      s.length ≤ fuel → start ≤ (front.length : Int) →
      ((front.length : Int) - 1 < start ∨
        ∃ front' z, front = front' ++ [z] ∧ isalnum z = true) →
      normalizeWord.scanEnd (front ++ s ++ post) start fuel
          (((front.length + s.length : Nat) : Int) - 1) =
        (front.length : Int) - 1 := by
  induction s using List.reverseRecOn with
  | nil =>
    intro _ front post fuel start _ _ hstop
    cases fuel with
    | zero => simp [normalizeWord.scanEnd]
    | succ f =>
      unfold normalizeWord.scanEnd
      have hcond : ¬ ((((front.length + ([] : List Char).length : Nat) : Int) - 1) ≥ start ∧
          isalnum (charAt (front ++ [] ++ post)
            (((front.length + ([] : List Char).length : Nat) : Int) - 1)) = false) := by
        rintro ⟨h1, h2⟩
        rcases hstop with h | ⟨front', z, hf, hz⟩
        · simp at h1
          omega
        · subst hf
          have hidx : (((front' ++ [z]).length + ([] : List Char).length : Nat) : Int) - 1 =
              (front'.length : Int) := by
            simp
          rw [hidx, List.append_nil, List.append_assoc, List.singleton_append, charAt_mid,
            hz] at h2
          exact Bool.noConfusion h2
      rw [if_neg hcond]
      simp
  | append_singleton s c ih =>
    intro hs front post fuel start hfuel hstart hstop
    cases fuel with
    | zero => simp at hfuel
    | succ f =>
      unfold normalizeWord.scanEnd
      have hc : isalnum c = false := hs c (by simp)
      have hidx : (((front.length + (s ++ [c]).length : Nat) : Int) - 1) =
          ((front ++ s).length : Int) := by
        simp
        omega
      have hraw : front ++ (s ++ [c]) ++ post = (front ++ s) ++ c :: post := by simp
      have hcond : (((front.length + (s ++ [c]).length : Nat) : Int) - 1) ≥ start ∧
          isalnum (charAt (front ++ (s ++ [c]) ++ post)
            (((front.length + (s ++ [c]).length : Nat) : Int) - 1)) = false := by
        constructor
        · rw [hidx]
          simp
          omega
        · rw [hidx, hraw, charAt_mid]
          exact hc
      rw [if_pos hcond]
      have hidx' : (((front.length + (s ++ [c]).length : Nat) : Int) - 1) - 1 =
          (((front.length + s.length : Nat) : Int) - 1) := by
        simp
        omega
      have hraw' : front ++ (s ++ [c]) ++ post = front ++ s ++ (c :: post) := by simp
      rw [hidx', hraw']
      exact ih (fun x hx => hs x (by simp [hx])) front (c :: post) f start
        (by simp at hfuel; omega) hstart hstop

theorem normalizeWord_no_alnum (stem : CString → CString) (raw : CString)
    (h : ∀ c ∈ raw, isalnum c = false) : normalizeWord stem raw = [] := by
  unfold normalizeWord
  by_cases hraw : raw = []
  · rw [if_pos hraw]
  · rw [if_neg hraw]
    have hpos : 0 < raw.length := List.length_pos.mpr hraw
    have hstart : normalizeWord.scanStart raw ((raw.length : Int) - 1) raw.length 0 =
        (raw.length : Int) := by
      have := scanStart_spec raw h [] [] raw.length ((raw.length : Int) - 1) (le_refl _)
        (by simp) (Or.inl (by simp))
      simpa using this
    have hend : normalizeWord.scanEnd raw (raw.length : Int) raw.length
        ((raw.length : Int) - 1) = (raw.length : Int) - 1 := by
      have := scanEnd_spec [] (by simp) raw [] raw.length (raw.length : Int) (by simp)
        (le_refl _) (Or.inl (by omega))
      simpa using this
    simp only [hstart, hend]
    rw [if_pos (by omega)]

theorem normalizeWord_decomp (stem : CString → CString) (p w s : List Char)
    (hp : ∀ c ∈ p, isalnum c = false) (hs : ∀ c ∈ s, isalnum c = false)
    (hw1 : ∃ a w', w = a :: w' ∧ isalnum a = true)
    (hw2 : ∃ w' z, w = w' ++ [z] ∧ isalnum z = true) :
    normalizeWord stem (p ++ w ++ s) = stem (toLowerStr w) := by
  obtain ⟨a, w1, hw1e, ha⟩ := hw1
  obtain ⟨w2, z, hw2e, hz⟩ := hw2
  have hwpos : 0 < w.length := by rw [hw1e]; simp
  unfold normalizeWord
  have hraw : p ++ w ++ s ≠ [] := by
    rw [hw1e]
    simp
  rw [if_neg hraw]
  have hstart : normalizeWord.scanStart (p ++ w ++ s) (((p ++ w ++ s).length : Int) - 1)
      (p ++ w ++ s).length 0 = (p.length : Int) := by
    have := scanStart_spec p hp [] (w ++ s) (p ++ w ++ s).length
      (((p ++ w ++ s).length : Int) - 1) (by simp) (by simp; omega)
      (Or.inr ⟨a, w1 ++ s, by rw [hw1e]; simp, ha⟩)
    simpa using this
  have hend : normalizeWord.scanEnd (p ++ w ++ s) (p.length : Int) (p ++ w ++ s).length
      (((p ++ w ++ s).length : Int) - 1) = ((p ++ w).length : Int) - 1 := by
    have := scanEnd_spec s hs (p ++ w) [] (p ++ w ++ s).length (p.length : Int)
      (by simp; omega) (by simp)
      (Or.inr ⟨p ++ w2, z, by rw [hw2e]; simp, hz⟩)
    have hidx : ((((p ++ w).length + s.length : Nat) : Int) - 1) =
        (((p ++ w ++ s).length : Int) - 1) := by simp; omega
    rw [hidx, List.append_nil] at this
    exact this
  simp only [hstart, hend]
  rw [if_neg (by simp; omega)]
  have hn : (((p ++ w).length : Int) - 1 - (p.length : Int) + 1).toNat = w.length := by
    simp
    omega
  rw [hn, Int.toNat_ofNat]
  unfold substr
  rw [List.append_assoc, List.drop_left, List.take_left]

theorem dropWhile_append_of_all (q : Char → Bool) (p rest : List Char)
    (hp : ∀ c ∈ p, q c = true) : (p ++ rest).dropWhile q = rest.dropWhile q := by
  induction p with
  | nil => rfl
  | cons c p ih =>
    rw [List.cons_append, List.dropWhile_cons, if_pos (hp c (List.mem_cons_self _ _))]
    exact ih (fun x hx => hp x (List.mem_cons_of_mem _ hx))

theorem stripCore_decomp (p w s : List Char)
    (hp : ∀ c ∈ p, isalnum c = false) (hs : ∀ c ∈ s, isalnum c = false)
    (hw1 : ∃ a w', w = a :: w' ∧ isalnum a = true)
    (hw2 : ∃ w' z, w = w' ++ [z] ∧ isalnum z = true) :
    stripCore (p ++ w ++ s) = w := by
  obtain ⟨a, w1, hw1e, ha⟩ := hw1
  obtain ⟨w2, z, hw2e, hz⟩ := hw2
  unfold stripCore
  rw [List.append_assoc, dropWhile_append_of_all _ p (w ++ s) (by simpa using hp)]
  have h1 : (w ++ s).dropWhile (fun c => !isalnum c) = w ++ s := by
    rw [hw1e, List.cons_append, List.dropWhile_cons, if_neg (by simp [ha])]
  rw [h1, List.reverse_append,
    dropWhile_append_of_all _ s.reverse w.reverse (by simpa using hs)]
  have h2 : w.reverse.dropWhile (fun c => !isalnum c) = w.reverse := by
    rw [hw2e, List.reverse_append, List.reverse_singleton, List.singleton_append,
      List.dropWhile_cons, if_neg (by simp [hz])]
  rw [h2, List.reverse_reverse]

theorem dropWhile_head (q : Char → Bool) (l : List Char) (a : Char) (l' : List Char)
    (h : l.dropWhile q = a :: l') : q a = false := by
  induction l with
  | nil => exact List.noConfusion h
  | cons c l ih =>
    rw [List.dropWhile_cons] at h
    by_cases hc : q c = true
    · rw [if_pos hc] at h
      exact ih h
    · rw [if_neg hc] at h
      have hca : c = a := (List.cons.inj h).1
      rw [← hca]
      simpa using hc

theorem token_decomposition (raw : List Char) :
    (∀ c ∈ raw, isalnum c = false) ∨
    ∃ p w s, raw = p ++ w ++ s ∧ (∀ c ∈ p, isalnum c = false) ∧
      (∀ c ∈ s, isalnum c = false) ∧ (∃ a w', w = a :: w' ∧ isalnum a = true) ∧
      (∃ w' z, w = w' ++ [z] ∧ isalnum z = true) := by
  have hsplit : raw.takeWhile (fun c => !isalnum c) ++ raw.dropWhile (fun c => !isalnum c) = raw :=
    List.takeWhile_append_dropWhile _ raw
  have hp : ∀ c ∈ raw.takeWhile (fun c => !isalnum c), isalnum c = false := by
    intro c hc
    simpa using List.mem_takeWhile_imp hc
  cases hrest : raw.dropWhile (fun c => !isalnum c) with
  | nil =>
    left
    rw [hrest, List.append_nil] at hsplit
    rw [← hsplit]
    exact hp
  | cons a rest' =>
    right
    have ha : isalnum a = true := by
      simpa using dropWhile_head _ raw a rest' hrest
    have hsplit2 : (a :: rest').reverse.takeWhile (fun c => !isalnum c) ++
        (a :: rest').reverse.dropWhile (fun c => !isalnum c) = (a :: rest').reverse :=
      List.takeWhile_append_dropWhile _ _
    have hs : ∀ c ∈ ((a :: rest').reverse.takeWhile (fun c => !isalnum c)).reverse,
        isalnum c = false := by
      intro c hc
      simpa using List.mem_takeWhile_imp (List.mem_reverse.mp hc)
    cases hw : (a :: rest').reverse.dropWhile (fun c => !isalnum c) with
    | nil =>
      exfalso
      rw [hw, List.append_nil] at hsplit2
      have hmem : a ∈ (a :: rest').reverse.takeWhile (fun c => !isalnum c) := by
        rw [hsplit2]
        simp
      have := List.mem_takeWhile_imp hmem
      simp [ha] at this
    | cons z wrev =>
      have hz : isalnum z = true := by
        simpa using dropWhile_head _ _ z wrev hw
      have hrest2 : a :: rest' = (wrev.reverse ++ [z]) ++
          ((a :: rest').reverse.takeWhile (fun c => !isalnum c)).reverse := by
        have := congrArg List.reverse hsplit2
        rw [List.reverse_reverse, hw, List.reverse_append, List.reverse_cons] at this
        exact this.symm
      refine ⟨raw.takeWhile (fun c => !isalnum c), wrev.reverse ++ [z],
        ((a :: rest').reverse.takeWhile (fun c => !isalnum c)).reverse, ?_, hp, hs, ?_,
        ⟨wrev.reverse, z, rfl, hz⟩⟩
      · rw [List.append_assoc, ← hrest2, ← hrest, hsplit]
      · cases hwr : wrev.reverse with
        | nil =>
          rw [hwr] at hrest2
          have hza : a = z := (List.cons.inj hrest2).1
          exact ⟨z, [], rfl, hz⟩
        | cons a' w'' =>
          rw [hwr] at hrest2
          have haa : a = a' := (List.cons.inj hrest2).1
          exact ⟨a', w'' ++ [z], rfl, haa ▸ ha⟩

theorem normalizeWord_eq_spec (stem : CString → CString) (raw : CString) :
    normalizeWord stem raw = normalizeWordSpec stem raw := by
  unfold normalizeWordSpec
  rcases token_decomposition raw with h | ⟨p, w, s, hraw, hp, hs, hw1, hw2⟩
  · have hany : raw.any isalnum = false := by
      rw [List.any_eq_false]
      intro c hc
      simp [h c hc]
    rw [normalizeWord_no_alnum stem raw h, hany]
    rfl
  · obtain ⟨a, w1, hw1e, ha⟩ := hw1
    have hany : raw.any isalnum = true := by
      rw [List.any_eq_true]
      exact ⟨a, by rw [hraw, hw1e]; simp, ha⟩
    rw [hany, if_pos rfl, hraw, normalizeWord_decomp stem p w s hp hs ⟨a, w1, hw1e, ha⟩ hw2,
      stripCore_decomp p w s hp hs ⟨a, w1, hw1e, ha⟩ hw2]

theorem isalnum_iff (c : Char) :
    isalnum c = true ↔
      (48 ≤ c.toNat ∧ c.toNat ≤ 57) ∨ (65 ≤ c.toNat ∧ c.toNat ≤ 90) ∨
        (97 ≤ c.toNat ∧ c.toNat ≤ 122) := by
  simp only [isalnum, isalpha, isupper, islower, isdigit, Bool.or_eq_true, Bool.and_eq_true,
    decide_eq_true_eq]
  tauto

/-- C8, with alphanumeric read as the code reads it: a character is
alphanumeric exactly when it is an ASCII letter or digit, so every other
character, a letter outside ASCII included, is not. `normalizeWord` returns the
empty string when the token has no alphanumeric character and otherwise
`stem(lower(core))`, where `core` is the token without its longest prefix and
longest suffix of non-alphanumeric characters; consequently non-alphanumeric
characters put around a token `w` that starts and ends with an alphanumeric
character do not change the result. -/
theorem normalizeWord_strips_and_stems (stem : CString → CString) (raw p w s : CString)
    (hp : ∀ c ∈ p, isalnum c = false) (hs : ∀ c ∈ s, isalnum c = false)
    (hfirst : ∃ a, w.head? = some a ∧ isalnum a = true)
    (hlast : ∃ z, w.getLast? = some z ∧ isalnum z = true) :
    ((∀ c ∈ raw, isalnum c = false) → normalizeWord stem raw = []) ∧
    ((∃ c ∈ raw, isalnum c = true) →
      normalizeWord stem raw = stem (toLowerStr (stripCore raw))) ∧
    normalizeWord stem (p ++ w ++ s) = normalizeWord stem w ∧
    (∀ c : Char, isalnum c = true ↔
      (48 ≤ c.toNat ∧ c.toNat ≤ 57) ∨ (65 ≤ c.toNat ∧ c.toNat ≤ 90) ∨
        (97 ≤ c.toNat ∧ c.toNat ≤ 122)) ∧
    (∀ c : Char, 128 ≤ c.toNat → isalnum c = false) := by
  refine ⟨normalizeWord_no_alnum stem raw, ?_, ?_, isalnum_iff, ?_⟩
  · rintro ⟨c, hc, hcal⟩
    have hany : raw.any isalnum = true := List.any_eq_true.mpr ⟨c, hc, hcal⟩
    rw [normalizeWord_eq_spec, normalizeWordSpec, hany, if_pos rfl]
  · obtain ⟨a, ha, haal⟩ := hfirst
    obtain ⟨z, hz, hzal⟩ := hlast
    have hw1 : ∃ a w', w = a :: w' ∧ isalnum a = true := by
      cases w with
      | nil => exact Option.noConfusion ha
      | cons x w' =>
        simp only [List.head?_cons, Option.some.injEq] at ha
        exact ⟨x, w', rfl, ha ▸ haal⟩
    have hw2 : ∃ w' z, w = w' ++ [z] ∧ isalnum z = true := by
      rcases List.eq_nil_or_concat w with hnil | ⟨w', y, hy⟩
      · rw [hnil] at hz
        exact Option.noConfusion hz
      · subst hy
        have hyz : y = z := by simpa using hz
        exact ⟨w', y, by simp, hyz ▸ hzal⟩
    have h1 := normalizeWord_decomp stem p w s hp hs hw1 hw2
    have h2 := normalizeWord_decomp stem [] w [] (by simp) (by simp) hw1 hw2
    rw [List.nil_append, List.append_nil] at h2
    rw [h1, h2]
  · intro c hc
    cases h : isalnum c with
    | false => rfl
    | true =>
      have := (isalnum_iff c).mp h
      omega

/-- The token `(Don't!)`: the core is `Don't`, with its inner apostrophe. -/
theorem normalizeWord_strips_and_stems_witness :
    normalizeWord id "(Don't!)".toList = "don't".toList ∧
    normalizeWord id ("(".toList ++ "Don't".toList ++ "!)".toList) =
      normalizeWord id "Don't".toList := by
  have h := normalizeWord_strips_and_stems id "(Don't!)".toList "(".toList "Don't".toList
    "!)".toList (by decide) (by decide) ⟨'D', rfl, by decide⟩ ⟨'t', rfl, by decide⟩
  exact ⟨(h.2.1 ⟨'D', by decide, by decide⟩).trans (by decide), h.2.2.1⟩

/-- C8 as the specification words it, with alphanumeric read as Unicode letters
and digits, fails. The token `café` has the letter `é` at its end, so nothing
is stripped and the specification gives `café` (with the identity as stemmer);
`normalizeWord` strips `é` and returns `caf`. The token `é` has a letter, so the
specification gives `é`; `normalizeWord` returns the empty string. -/
theorem normalizeWord_unicode_counterexample :
    (∃ c ∈ "café".toList, isUnicodeAlnum c = true) ∧
    unicodeCore "café".toList = "café".toList ∧
    normalizeWordUnicode id "café".toList = "café".toList ∧
    normalizeWord id "café".toList = "caf".toList ∧
    normalizeWord id "café".toList ≠ id (toLowerStr (unicodeCore "café".toList)) ∧
    (∃ c ∈ "é".toList, isUnicodeAlnum c = true) ∧
    normalizeWordUnicode id "é".toList = "é".toList ∧
    normalizeWord id "é".toList = [] ∧
    normalizeWord id "é".toList ≠ id (toLowerStr (unicodeCore "é".toList)) := by
  refine ⟨⟨'é', by decide, by decide⟩, by decide, by decide, by decide, by decide,
    ⟨'é', by decide, by decide⟩, by decide, by decide, by decide⟩

/-! ## Two worked posts -/

theorem normalizeWord_plain (stem : CString → CString) (w : CString)
    (hw : w ≠ []) (hall : ∀ c ∈ w, isalnum c = true ∧ tolower c = c) :
    normalizeWord stem w = stem w := by
  have hw1 : ∃ a w', w = a :: w' ∧ isalnum a = true := by
    cases w with
    | nil => exact absurd rfl hw
    | cons a w' => exact ⟨a, w', rfl, (hall a (List.mem_cons_self _ _)).1⟩
  have hw2 : ∃ w' z, w = w' ++ [z] ∧ isalnum z = true := by
    rcases List.eq_nil_or_concat w with hnil | ⟨w', z, hz⟩
    · exact absurd hnil hw
    · subst hz
      exact ⟨w', z, by simp, (hall z (by simp)).1⟩
  have h := normalizeWord_decomp stem [] w [] (by simp) (by simp) hw1 hw2
  rw [List.nil_append, List.append_nil] at h
  rw [h]
  congr 1
  unfold toLowerStr
  conv_rhs => rw [← List.map_id w]
  exact List.map_congr_left (fun c hc => (hall c hc).2)

/-- The analysis of the post `not good`: the bigram rule at `not`, then the
polarity rule at `good` with the negator in its window. -/
theorem not_good_analysis (stem : CString → CString) (tweet : Tweet)
    (wordPolarity : StrMap) (negationWords intensifiers downtoners : StrSet)
    (ngramPolarity : StrMap) (positiveEmojisSlang negativeEmojisSlang : StrSet)
    (htext : tweet.text = "not good".toList)
    (hnot : stem "not".toList = "not".toList) (hgood : stem "good".toList = "good".toList)
    (hpol : wordPolarity.at "good".toList = some 1)
    (hneg : negationWords.count "not".toList = true)
    (hphrase : ngramPolarity.at "not good".toList = some (-1.5))
    (hemoji : ∀ t ∈ ["not".toList, "good".toList],
      positiveEmojisSlang.count t = false ∧ negativeEmojisSlang.count t = false)
    (hint : intensifiers.count "not".toList = false)
    (hdown : downtoners.count "not".toList = false) :
    tokenContribution wordPolarity negationWords intensifiers downtoners ngramPolarity
      positiveEmojisSlang negativeEmojisSlang (tokenize tweet.text)
      ((tokenize tweet.text).map (normalizeWord stem)) 0 = -1.5 ∧
    tokenContribution wordPolarity negationWords intensifiers downtoners ngramPolarity
      positiveEmojisSlang negativeEmojisSlang (tokenize tweet.text)
      ((tokenize tweet.text).map (normalizeWord stem)) 1 = -0.7 ∧
    ∃ analysis,
      analyzeTweetAdvanced stem tweet wordPolarity negationWords intensifiers downtoners
        ngramPolarity positiveEmojisSlang negativeEmojisSlang = some analysis ∧
      analysis.adjustedSentimentScore = -2.2 := by
  have htok : tokenize tweet.text = ["not".toList, "good".toList] := by
    rw [htext]
    rfl
  have hn1 : normalizeWord stem "not".toList = "not".toList := by
    rw [normalizeWord_plain stem _ (by decide) (by decide), hnot]
  have hn2 : normalizeWord stem "good".toList = "good".toList := by
    rw [normalizeWord_plain stem _ (by decide) (by decide), hgood]
  have hnorm : (tokenize tweet.text).map (normalizeWord stem) =
      ["not".toList, "good".toList] := by
    rw [htok, List.map_cons, List.map_cons, List.map_nil, hn1, hn2]
  have he1 := hemoji "not".toList (by simp)
  have he2 := hemoji "good".toList (by simp)
  have hl1 : toLowerStr "not".toList = "not".toList := by decide
  have hl2 : toLowerStr "good".toList = "good".toList := by decide
  have hkey : "not".toList ++ " ".toList ++ "good".toList = "not good".toList := by decide
  have hc0 : tokenContribution wordPolarity negationWords intensifiers downtoners ngramPolarity
      positiveEmojisSlang negativeEmojisSlang (tokenize tweet.text)
      ((tokenize tweet.text).map (normalizeWord stem)) 0 = -1.5 := by
    rw [hnorm, htok]
    unfold tokenContribution phraseWeight
    have g0 : ["not".toList, "good".toList].getD 0 [] = "not".toList := rfl
    have g1 : ["not".toList, "good".toList].getD (0 + 1) [] = "good".toList := rfl
    simp only [g0, g1, hl1, he1.1, he1.2, hkey, hphrase]
    simp
  have hc1 : tokenContribution wordPolarity negationWords intensifiers downtoners ngramPolarity
      positiveEmojisSlang negativeEmojisSlang (tokenize tweet.text)
      ((tokenize tweet.text).map (normalizeWord stem)) 1 = -0.7 := by
    rw [hnorm, htok]
    unfold tokenContribution phraseWeight adjustedPolarity windowHas
    have g0 : ["not".toList, "good".toList].getD (1 - 1) [] = "not".toList := rfl
    have g1 : ["not".toList, "good".toList].getD 1 [] = "good".toList := rfl
    have hne : ¬ "good".toList = [] := by decide
    simp only [g0, g1, hl2, he2.1, he2.2, hpol, hneg, hint, hdown, if_neg hne]
    norm_num
  refine ⟨hc0, hc1, ?_⟩
  obtain ⟨analysis, h, _, hadj⟩ := analyzeTweetAdvanced_adjusted stem tweet wordPolarity
    negationWords intensifiers downtoners ngramPolarity positiveEmojisSlang negativeEmojisSlang
  refine ⟨analysis, h, ?_⟩
  have hrange : List.range' 0 (tokenize tweet.text).length = [0, 1] := by
    rw [htok]
    rfl
  have hcount : tweet.text.count '!' = 0 := by
    rw [htext]
    decide
  rw [hadj, hrange, List.map_cons, List.map_cons, List.map_nil, hc0, hc1, hcount]
  norm_num

/-- C1, as amended: for the post `not good`, with `good` of weight `+1`, `not` a
negator (and neither an intensifier nor a downtoner), the phrase `not good` of
weight `-1.5` and neither word an emoji or slang entry, the bigram rule applies
at `not` and contributes `-1.5`; the scan then moves on by one token, and the
polarity rule applies at `good` and contributes `-0.7`; the adjusted score is
`-2.2`. -/
theorem not_good_scores_phrase_then_polarity (stem : CString → CString) (tweet : Tweet)
    (wordPolarity : StrMap) (negationWords intensifiers downtoners : StrSet)
    (ngramPolarity : StrMap) (positiveEmojisSlang negativeEmojisSlang : StrSet)
    (htext : tweet.text = "not good".toList)
    (hnot : stem "not".toList = "not".toList) (hgood : stem "good".toList = "good".toList)
    (hpol : wordPolarity.at "good".toList = some 1)
    (hneg : negationWords.count "not".toList = true)
    (hphrase : ngramPolarity.at "not good".toList = some (-1.5))
    (hemoji : ∀ t ∈ ["not".toList, "good".toList],
      positiveEmojisSlang.count t = false ∧ negativeEmojisSlang.count t = false)
    (hint : intensifiers.count "not".toList = false)
    (hdown : downtoners.count "not".toList = false) :
    tokenContribution wordPolarity negationWords intensifiers downtoners ngramPolarity
      positiveEmojisSlang negativeEmojisSlang (tokenize tweet.text)
      ((tokenize tweet.text).map (normalizeWord stem)) 0 = -1.5 ∧
    tokenContribution wordPolarity negationWords intensifiers downtoners ngramPolarity
      positiveEmojisSlang negativeEmojisSlang (tokenize tweet.text)
      ((tokenize tweet.text).map (normalizeWord stem)) 1 = -0.7 ∧
    ∃ analysis,
      analyzeTweetAdvanced stem tweet wordPolarity negationWords intensifiers downtoners
        ngramPolarity positiveEmojisSlang negativeEmojisSlang = some analysis ∧
      analysis.adjustedSentimentScore = -2.2 :=
  not_good_analysis stem tweet wordPolarity negationWords intensifiers downtoners ngramPolarity
    positiveEmojisSlang negativeEmojisSlang htext hnot hgood hpol hneg hphrase hemoji hint hdown

/-- The post `not good` with the lexicons built by the builders for the positive
word list `good`, the identity as stemmer and no emoji or slang entry. -/
theorem not_good_scores_phrase_then_polarity_witness :
    ∃ analysis,
      analyzeTweetAdvanced id ⟨[], [], [], [], "not good".toList⟩
        (buildWordPolarityMap id ["good".toList] []) (buildNegationWords id)
        (buildIntensifiers id) (buildDowntoners id) buildNgramPolarity [] [] = some analysis ∧
      analysis.adjustedSentimentScore = -2.2 :=
  (not_good_scores_phrase_then_polarity id ⟨[], [], [], [], "not good".toList⟩
    (buildWordPolarityMap id ["good".toList] []) (buildNegationWords id)
    (buildIntensifiers id) (buildDowntoners id) buildNgramPolarity [] []
    rfl rfl rfl (by simp [buildWordPolarityMap, buildWordPolarityMap.addPositive,
      StrMap.at_assign]) (by decide)
    (by simp [buildNgramPolarity, StrMap.at_assign])
    (fun _ _ => ⟨rfl, rfl⟩) (by decide) (by decide)).2.2

/-- C1, as stated, fails: with the identity as stemmer, `good` of weight `+1`,
`not` a negator and the phrase `not good` of weight `-1.5`, the adjusted score
of the post `not good` is `-2.2` and not `-1.5`. -/
theorem not_good_counterexample :
    ∃ analysis,
      analyzeTweetAdvanced id ⟨[], [], [], [], "not good".toList⟩ [("good".toList, 1)]
        ["not".toList] [] [] [("not good".toList, -1.5)] [] [] = some analysis ∧
      analysis.adjustedSentimentScore = -2.2 ∧ analysis.adjustedSentimentScore ≠ -1.5 := by
  obtain ⟨_, _, analysis, h, hadj⟩ :=
    not_good_analysis id ⟨[], [], [], [], "not good".toList⟩ [("good".toList, 1)]
      ["not".toList] [] [] [("not good".toList, -1.5)] [] [] rfl rfl rfl rfl rfl rfl
      (fun _ _ => ⟨rfl, rfl⟩) rfl rfl
  refine ⟨analysis, h, hadj, ?_⟩
  rw [hadj]
  norm_num

theorem tokenContribution_no_match (wordPolarity : StrMap)
    (negationWords intensifiers downtoners : StrSet) (ngramPolarity : StrMap)
    (positiveEmojisSlang negativeEmojisSlang : StrSet)
    (rawTokens normalizedTokens : List CString) (i : Nat)
    (hpos : positiveEmojisSlang.count (toLowerStr (rawTokens.getD i [])) = false)
    (hneg : negativeEmojisSlang.count (toLowerStr (rawTokens.getD i [])) = false)
    (hphrase : phraseWeight ngramPolarity normalizedTokens i = none)
    (hpol : wordPolarity.at (normalizedTokens.getD i []) = none) :
    tokenContribution wordPolarity negationWords intensifiers downtoners ngramPolarity
      positiveEmojisSlang negativeEmojisSlang rawTokens normalizedTokens i = 0 := by
  unfold tokenContribution
  simp only [hpos, hneg, hphrase, hpol]
  simp

/-- The analysis of the post `I love this SO MUCH!!!`: the only scoring token
is `love`, whose look-back window holds the single token `I`. -/
theorem love_so_much_analysis (stem : CString → CString) (tweet : Tweet)
    (wordPolarity : StrMap) (negationWords intensifiers downtoners : StrSet)
    (ngramPolarity : StrMap) (positiveEmojisSlang negativeEmojisSlang : StrSet)
    (htext : tweet.text = "I love this SO MUCH!!!".toList)
    (hlove : wordPolarity.at (stem "love".toList) = some 2)
    (hlove_ne : stem "love".toList ≠ [])
    (_hso : intensifiers.count (stem "so".toList) = true)
    (hother : ∀ t ∈ ["i".toList, "this".toList, "so".toList, "much".toList],
      wordPolarity.at (stem t) = none)
    (hwindow : negationWords.count (stem "i".toList) = false ∧
      intensifiers.count (stem "i".toList) = false ∧
      downtoners.count (stem "i".toList) = false)
    (hemoji : ∀ r ∈ ["i".toList, "love".toList, "this".toList, "so".toList, "much!!!".toList],
      positiveEmojisSlang.count r = false ∧ negativeEmojisSlang.count r = false)
    (hphrase : ∀ i, phraseWeight ngramPolarity
      ((tokenize tweet.text).map (normalizeWord stem)) i = none) :
    tokenContribution wordPolarity negationWords intensifiers downtoners ngramPolarity
      positiveEmojisSlang negativeEmojisSlang (tokenize tweet.text)
      ((tokenize tweet.text).map (normalizeWord stem)) 1 = 2 ∧
    ∃ analysis,
      analyzeTweetAdvanced stem tweet wordPolarity negationWords intensifiers downtoners
        ngramPolarity positiveEmojisSlang negativeEmojisSlang = some analysis ∧
      analysis.adjustedSentimentScore = 2.3 := by
  have htok : tokenize tweet.text = ["I".toList, "love".toList, "this".toList, "SO".toList,
      "MUCH!!!".toList] := by
    rw [htext]
    rfl
  have hnorm : (tokenize tweet.text).map (normalizeWord stem) =
      [stem "i".toList, stem "love".toList, stem "this".toList, stem "so".toList,
        stem "much".toList] := by
    rw [htok]
    rfl
  have hzero : ∀ i, i ≠ 1 → i < 5 →
      tokenContribution wordPolarity negationWords intensifiers downtoners ngramPolarity
        positiveEmojisSlang negativeEmojisSlang (tokenize tweet.text)
        ((tokenize tweet.text).map (normalizeWord stem)) i = 0 := by
    intro i hi1 hi5
    apply tokenContribution_no_match
    · rw [htok]
      have : i = 0 ∨ i = 2 ∨ i = 3 ∨ i = 4 := by omega
      rcases this with rfl | rfl | rfl | rfl
      · exact (hemoji "i".toList (by simp)).1
      · exact (hemoji "this".toList (by simp)).1
      · exact (hemoji "so".toList (by simp)).1
      · exact (hemoji "much!!!".toList (by simp)).1
    · rw [htok]
      have : i = 0 ∨ i = 2 ∨ i = 3 ∨ i = 4 := by omega
      rcases this with rfl | rfl | rfl | rfl
      · exact (hemoji "i".toList (by simp)).2
      · exact (hemoji "this".toList (by simp)).2
      · exact (hemoji "so".toList (by simp)).2
      · exact (hemoji "much!!!".toList (by simp)).2
    · exact hphrase i
    · rw [hnorm]
      have : i = 0 ∨ i = 2 ∨ i = 3 ∨ i = 4 := by omega
      rcases this with rfl | rfl | rfl | rfl
      · exact hother "i".toList (by simp)
      · exact hother "this".toList (by simp)
      · exact hother "so".toList (by simp)
      · exact hother "much".toList (by simp)
  have hc1 : tokenContribution wordPolarity negationWords intensifiers downtoners ngramPolarity
      positiveEmojisSlang negativeEmojisSlang (tokenize tweet.text)
      ((tokenize tweet.text).map (normalizeWord stem)) 1 = 2 := by
    have hp := hphrase 1
    have he := hemoji "love".toList (by simp)
    rw [hnorm] at hp ⊢
    rw [htok]
    unfold tokenContribution adjustedPolarity windowHas
    have g0 : [stem "i".toList, stem "love".toList, stem "this".toList, stem "so".toList,
        stem "much".toList].getD (1 - 1) [] = stem "i".toList := rfl
    have g1 : [stem "i".toList, stem "love".toList, stem "this".toList, stem "so".toList,
        stem "much".toList].getD 1 [] = stem "love".toList := rfl
    have gr : toLowerStr (["I".toList, "love".toList, "this".toList, "SO".toList,
        "MUCH!!!".toList].getD 1 []) = "love".toList := rfl
    simp only [g0, g1, gr, he.1, he.2, hp, hlove, hwindow.1, hwindow.2.1, hwindow.2.2,
      if_neg hlove_ne]
    norm_num
  refine ⟨hc1, ?_⟩
  obtain ⟨analysis, h, _, hadj⟩ := analyzeTweetAdvanced_adjusted stem tweet wordPolarity
    negationWords intensifiers downtoners ngramPolarity positiveEmojisSlang negativeEmojisSlang
  refine ⟨analysis, h, ?_⟩
  have hrange : List.range' 0 (tokenize tweet.text).length = [0, 1, 2, 3, 4] := by
    rw [htok]
    rfl
  have hcount : tweet.text.count '!' = 3 := by
    rw [htext]
    decide
  rw [hadj, hrange]
  simp only [List.map_cons, List.map_nil, List.sum_cons, List.sum_nil]
  rw [hc1, hzero 0 (by omega) (by omega), hzero 2 (by omega) (by omega),
    hzero 3 (by omega) (by omega), hzero 4 (by omega) (by omega), hcount]
  norm_num

theorem phraseWeight_of_length_le (ngramPolarity : StrMap) (normalizedTokens : List CString)
    (i : Nat) (h : normalizedTokens.length ≤ i + 1) :
    phraseWeight ngramPolarity normalizedTokens i = none := by
  unfold phraseWeight
  have h2 : ¬ i + 2 < normalizedTokens.length := by omega
  have h1 : ¬ i + 1 < normalizedTokens.length := by omega
  simp only [if_neg h2, if_neg h1]

theorem phraseWeight_nil (normalizedTokens : List CString) (i : Nat) :
    phraseWeight [] normalizedTokens i = none := by
  unfold phraseWeight
  simp [StrMap.at]

/-- C2, as amended: for the post `I love this SO MUCH!!!`, with the normalized
`love` a non-empty key of weight `+2` of the polarity map, the normalized `so`
an intensifier and no other token matching a lexicon or a phrase, the adjusted
contribution of `love` is `+2.0` (the look-back window of `love` holds only `I`;
`so` stands after `love`), and the adjusted score is `2.0 × 1.15 = 2.3`. -/
theorem love_so_much_scores_without_intensifier (stem : CString → CString) (tweet : Tweet)
    (wordPolarity : StrMap) (negationWords intensifiers downtoners : StrSet)
    (ngramPolarity : StrMap) (positiveEmojisSlang negativeEmojisSlang : StrSet)
    (htext : tweet.text = "I love this SO MUCH!!!".toList)
    (hlove : wordPolarity.at (stem "love".toList) = some 2)
    (hlove_ne : stem "love".toList ≠ [])
    (hso : intensifiers.count (stem "so".toList) = true)
    (hother : ∀ t ∈ ["i".toList, "this".toList, "so".toList, "much".toList],
      wordPolarity.at (stem t) = none)
    (hwindow : negationWords.count (stem "i".toList) = false ∧
      intensifiers.count (stem "i".toList) = false ∧
      downtoners.count (stem "i".toList) = false)
    (hemoji : ∀ r ∈ ["i".toList, "love".toList, "this".toList, "so".toList, "much!!!".toList],
      positiveEmojisSlang.count r = false ∧ negativeEmojisSlang.count r = false)
    (hphrase : ∀ i, phraseWeight ngramPolarity
      ((tokenize tweet.text).map (normalizeWord stem)) i = none) :
    tokenContribution wordPolarity negationWords intensifiers downtoners ngramPolarity
      positiveEmojisSlang negativeEmojisSlang (tokenize tweet.text)
      ((tokenize tweet.text).map (normalizeWord stem)) 1 = 2 ∧
    ∃ analysis,
      analyzeTweetAdvanced stem tweet wordPolarity negationWords intensifiers downtoners
        ngramPolarity positiveEmojisSlang negativeEmojisSlang = some analysis ∧
      analysis.adjustedSentimentScore = 2.3 :=
  love_so_much_analysis stem tweet wordPolarity negationWords intensifiers downtoners
    ngramPolarity positiveEmojisSlang negativeEmojisSlang htext hlove hlove_ne hso hother
    hwindow hemoji hphrase

/-- The post `I love this SO MUCH!!!` with the lexicons built by the builders,
the identity as stemmer and no emoji or slang entry. -/
theorem love_so_much_scores_without_intensifier_witness :
    ∃ analysis,
      analyzeTweetAdvanced id ⟨[], [], [], [], "I love this SO MUCH!!!".toList⟩
        (buildWordPolarityMap id [] []) (buildNegationWords id) (buildIntensifiers id)
        (buildDowntoners id) buildNgramPolarity [] [] = some analysis ∧
      analysis.adjustedSentimentScore = 2.3 :=
  (love_so_much_scores_without_intensifier id ⟨[], [], [], [], "I love this SO MUCH!!!".toList⟩
    (buildWordPolarityMap id [] []) (buildNegationWords id) (buildIntensifiers id)
    (buildDowntoners id) buildNgramPolarity [] []
    rfl (by simp [buildWordPolarityMap, StrMap.at_assign]) (by decide) (by decide)
    (by
      intro t ht
      simp only [List.mem_cons, List.mem_singleton, List.not_mem_nil, or_false] at ht
      rcases ht with rfl | rfl | rfl | rfl <;> rfl)
    (by decide) (fun _ _ => ⟨rfl, rfl⟩)
    (by
      intro i
      by_cases hi : i < 4
      · have : i = 0 ∨ i = 1 ∨ i = 2 ∨ i = 3 := by omega
        rcases this with rfl | rfl | rfl | rfl <;> rfl
      · exact phraseWeight_of_length_le _ _ _ (by
          have : ((tokenize "I love this SO MUCH!!!".toList).map (normalizeWord id)).length = 5 :=
            rfl
          simp only [this]
          omega))).2

/-- C2, as stated, fails: with the identity as stemmer, `love` of weight `+2`
and `so` the only intensifier, the contribution of `love` in the post
`I love this SO MUCH!!!` is `2.0`, not `3.0`, and the adjusted score is `2.3`,
not `3.45`. -/
theorem love_so_much_counterexample :
    tokenContribution [("love".toList, 2)] [] ["so".toList] [] [] [] []
      (tokenize "I love this SO MUCH!!!".toList)
      ((tokenize "I love this SO MUCH!!!".toList).map (normalizeWord id)) 1 = 2 ∧
    ∃ analysis,
      analyzeTweetAdvanced id ⟨[], [], [], [], "I love this SO MUCH!!!".toList⟩
        [("love".toList, 2)] [] ["so".toList] [] [] [] [] = some analysis ∧
      analysis.adjustedSentimentScore = 2.3 ∧ analysis.adjustedSentimentScore ≠ 3.45 := by
  obtain ⟨hc, analysis, h, hadj⟩ :=
    love_so_much_analysis id ⟨[], [], [], [], "I love this SO MUCH!!!".toList⟩
      [("love".toList, 2)] [] ["so".toList] [] [] [] [] rfl rfl (by decide) rfl
      (by
        intro t ht
        simp only [List.mem_cons, List.mem_singleton, List.not_mem_nil, or_false] at ht
        rcases ht with rfl | rfl | rfl | rfl <;> rfl)
      ⟨rfl, rfl, rfl⟩ (fun _ _ => ⟨rfl, rfl⟩) (fun i => phraseWeight_nil _ i)
  refine ⟨hc, analysis, h, hadj, ?_⟩
  rw [hadj]
  norm_num

/-! ## The rounding of binary64 -/

theorem nearestEven_near (y : ℚ) (N : ℤ) (h : |y - N| < 1 / 2) : nearestEven y = N := by
  rw [abs_lt] at h
  obtain ⟨h1, h2⟩ := h
  have hfl : (⌊y⌋ : ℚ) ≤ y := Int.floor_le y
  have hlt : y < ⌊y⌋ + 1 := Int.lt_floor_add_one y
  unfold nearestEven
  by_cases c1 : y - ⌊y⌋ < 1 / 2
  · rw [if_pos c1]
    have a1 : ((⌊y⌋ : ℤ) : ℚ) < N + 1 := by linarith
    have a2 : (N : ℚ) < ⌊y⌋ + 1 := by linarith
    have a1' : ⌊y⌋ < N + 1 := by exact_mod_cast a1
    have a2' : N < ⌊y⌋ + 1 := by exact_mod_cast a2
    omega
  · rw [if_neg c1]
    have c1' : 1 / 2 ≤ y - ⌊y⌋ := not_lt.mp c1
    have a1 : ((⌊y⌋ : ℤ) : ℚ) + 1 < N + 1 := by linarith
    have a2 : (N : ℚ) < ⌊y⌋ + 1 + 1 := by linarith
    have a1' : ⌊y⌋ + 1 < N + 1 := by exact_mod_cast a1
    have a2' : N < ⌊y⌋ + 1 + 1 := by exact_mod_cast a2
    have hN : N = ⌊y⌋ + 1 := by omega
    by_cases c2 : 1 / 2 < y - ⌊y⌋
    · rw [if_pos c2, hN]
    · exfalso
      have hN' : (N : ℚ) = ⌊y⌋ + 1 := by exact_mod_cast hN
      have c2' : y - ⌊y⌋ ≤ 1 / 2 := not_lt.mp c2
      linarith

theorem nearestEven_le (y : ℚ) (N : ℤ) (h : y ≤ N) : nearestEven y ≤ N := by
  have hfl : (⌊y⌋ : ℚ) ≤ y := Int.floor_le y
  have hfN : ⌊y⌋ ≤ N := by
    have : ((⌊y⌋ : ℤ) : ℚ) ≤ N := le_trans hfl h
    exact_mod_cast this
  have hstep : 0 < y - ⌊y⌋ → ⌊y⌋ + 1 ≤ N := by
    intro hpos
    have : ((⌊y⌋ : ℤ) : ℚ) < N := by linarith
    have : ⌊y⌋ < N := by exact_mod_cast this
    omega
  unfold nearestEven
  by_cases c1 : y - ⌊y⌋ < 1 / 2
  · rw [if_pos c1]
    exact hfN
  · rw [if_neg c1]
    have c1' : 1 / 2 ≤ y - ⌊y⌋ := not_lt.mp c1
    have hpos : 0 < y - ⌊y⌋ := by linarith
    by_cases c2 : 1 / 2 < y - ⌊y⌋
    · rw [if_pos c2]
      exact hstep hpos
    · rw [if_neg c2]
      by_cases c3 : ⌊y⌋ % 2 = 0
      · rw [if_pos c3]
        exact hfN
      · rw [if_neg c3]
        exact hstep hpos

theorem nearestEven_nonneg (y : ℚ) (h : 0 ≤ y) : 0 ≤ nearestEven y := by
  have hf : 0 ≤ ⌊y⌋ := Int.floor_nonneg.mpr h
  unfold nearestEven
  split_ifs <;> omega

theorem two_zpow_pos (k : ℤ) : (0 : ℚ) < 2 ^ k := zpow_pos (by norm_num) k

theorem roundAt_nonneg (e : ℤ) (x : ℚ) (h : 0 ≤ x) : 0 ≤ roundAt e x := by
  unfold roundAt
  have hy : 0 ≤ x / 2 ^ (e - 52) := div_nonneg h (le_of_lt (two_zpow_pos _))
  have hn : (0 : ℚ) ≤ (nearestEven (x / 2 ^ (e - 52)) : ℤ) := by
    exact_mod_cast nearestEven_nonneg _ hy
  exact mul_nonneg hn (le_of_lt (two_zpow_pos _))

theorem round64_nonneg (x : ℚ) (h : 0 ≤ x) : 0 ≤ round64 x := by
  unfold round64
  by_cases hx : 0 < x
  · rw [if_pos hx]
    exact roundAt_nonneg _ _ h
  · rw [if_neg hx, if_neg (by linarith)]

/-- The rounding at an exponent of a value within half a unit of an integer
multiple. -/
theorem roundAt_near (e : ℤ) (x : ℚ) (N : ℤ) (h : |x / 2 ^ (e - 52) - N| < 1 / 2) :
    roundAt e x = N * 2 ^ (e - 52) := by
  unfold roundAt
  rw [nearestEven_near _ N h]

theorem log_eq_of_bounds (x : ℚ) (e : ℤ) (h1 : 2 ^ e ≤ x) (h2 : x < 2 ^ (e + 1)) :
    Int.log 2 x = e := by
  have hx : 0 < x := lt_of_lt_of_le (two_zpow_pos e) h1
  have a : e ≤ Int.log 2 x := by
    apply (Int.zpow_le_iff_le_log (by norm_num) hx).mp
    simpa using h1
  have b : Int.log 2 x < e + 1 := by
    apply (Int.lt_zpow_iff_log_lt (by norm_num) hx).mp
    simpa using h2
  omega

theorem round64_near (x : ℚ) (e : ℤ) (N : ℤ) (h1 : 2 ^ e ≤ x) (h2 : x < 2 ^ (e + 1))
    (h : |x / 2 ^ (e - 52) - N| < 1 / 2) : round64 x = N * 2 ^ (e - 52) := by
  have hx : 0 < x := lt_of_lt_of_le (two_zpow_pos e) h1
  unfold round64
  rw [if_pos hx, log_eq_of_bounds x e h1 h2, roundAt_near e x N h]

/-- Rounding does not cross a natural number below `2^53`, which is a binary64
value. -/
theorem round64_le_nat (x : ℚ) (c : ℕ) (hc : c < 2 ^ 53) (h0 : 0 ≤ x) (h : x ≤ c) :
    round64 x ≤ c := by
  unfold round64
  by_cases hx : 0 < x
  · rw [if_pos hx]
    have hlog1 : (2 : ℚ) ^ Int.log 2 x ≤ x := by
      simpa using Int.zpow_log_le_self (b := 2) (by norm_num) hx
    have hc' : (c : ℚ) < 2 ^ (53 : ℤ) := by
      calc (c : ℚ) < ((2 ^ 53 : ℕ) : ℚ) := by exact_mod_cast hc
        _ = 2 ^ (53 : ℤ) := by norm_num
    have hlt : Int.log 2 x < 53 := by
      apply (Int.lt_zpow_iff_log_lt (b := 2) (by norm_num) hx).mp
      have : x < 2 ^ (53 : ℤ) := lt_of_le_of_lt h hc'
      simpa using this
    obtain ⟨k, hk⟩ : ∃ k : ℕ, Int.log 2 x - 52 = -(k : ℤ) :=
      ⟨(52 - Int.log 2 x).toNat, by omega⟩
    unfold roundAt
    rw [hk]
    have hpow : (2 : ℚ) ^ (-(k : ℤ)) = 1 / 2 ^ k := by
      rw [zpow_neg, zpow_natCast, one_div]
    rw [hpow]
    have hpk : (0 : ℚ) < 2 ^ k := pow_pos (by norm_num) k
    have hy : x / (1 / 2 ^ k) ≤ ((c * 2 ^ k : ℕ) : ℤ) := by
      rw [div_div_eq_mul_div, div_one]
      push_cast
      exact mul_le_mul_of_nonneg_right h (le_of_lt hpk)
    have hn := nearestEven_le _ _ hy
    have hn' : ((nearestEven (x / (1 / 2 ^ k)) : ℤ) : ℚ) ≤ (c : ℚ) * 2 ^ k := by
      have : ((nearestEven (x / (1 / 2 ^ k)) : ℤ) : ℚ) ≤ (((c * 2 ^ k : ℕ) : ℤ) : ℚ) := by
        exact_mod_cast hn
      simpa using this
    calc ((nearestEven (x / (1 / 2 ^ k)) : ℤ) : ℚ) * (1 / 2 ^ k)
        ≤ ((c : ℚ) * 2 ^ k) * (1 / 2 ^ k) :=
          mul_le_mul_of_nonneg_right hn' (by positivity)
      _ = c := by field_simp
  · rw [if_neg hx, if_neg (by linarith)]
    exact Nat.cast_nonneg c

/-- A natural number below `2^53` is a binary64 value. -/
theorem round64_nat (c : ℕ) (hc : c < 2 ^ 53) : round64 (c : ℚ) = c := by
  rcases Nat.eq_zero_or_pos c with h0 | hpos
  · subst h0
    simp [round64]
  · have hx : (0 : ℚ) < c := by exact_mod_cast hpos
    unfold round64
    rw [if_pos hx]
    have hc' : (c : ℚ) < 2 ^ (53 : ℤ) := by
      calc (c : ℚ) < ((2 ^ 53 : ℕ) : ℚ) := by exact_mod_cast hc
        _ = 2 ^ (53 : ℤ) := by norm_num
    have hlt : Int.log 2 (c : ℚ) < 53 := by
      apply (Int.lt_zpow_iff_log_lt (b := 2) (by norm_num) hx).mp
      simpa using hc'
    obtain ⟨k, hk⟩ : ∃ k : ℕ, Int.log 2 (c : ℚ) - 52 = -(k : ℤ) :=
      ⟨(52 - Int.log 2 (c : ℚ)).toNat, by omega⟩
    rw [roundAt_near _ _ ((c * 2 ^ k : ℕ) : ℤ)]
    · rw [hk, zpow_neg, zpow_natCast]
      push_cast
      field_simp
    · rw [hk, zpow_neg, zpow_natCast]
      push_cast
      rw [div_inv_eq_mul, sub_self, abs_zero]
      norm_num

/-- A number with a significand of 53 bits is a binary64 value. -/
theorem round64_dyadic (N e : ℤ) (h1 : 2 ^ 52 ≤ N) (h2 : N < 2 ^ 53) :
    round64 (N * 2 ^ (e - 52)) = N * 2 ^ (e - 52) := by
  have hp : (0 : ℚ) < 2 ^ (e - 52) := two_zpow_pos _
  have h1' : ((2 : ℚ) ^ (52 : ℤ)) ≤ (N : ℚ) := by
    have : (((2 ^ 52 : ℤ)) : ℚ) ≤ (N : ℚ) := by exact_mod_cast h1
    calc (2 : ℚ) ^ (52 : ℤ) = (((2 ^ 52 : ℤ)) : ℚ) := by norm_num
      _ ≤ N := this
  have h2' : (N : ℚ) < (2 : ℚ) ^ (53 : ℤ) := by
    have : (N : ℚ) < (((2 ^ 53 : ℤ)) : ℚ) := by exact_mod_cast h2
    calc (N : ℚ) < (((2 ^ 53 : ℤ)) : ℚ) := this
      _ = (2 : ℚ) ^ (53 : ℤ) := by norm_num
  have e1 : (2 : ℚ) ^ e = 2 ^ (52 : ℤ) * 2 ^ (e - 52) := by
    rw [← zpow_add₀ (by norm_num : (2 : ℚ) ≠ 0)]
    congr 1
    ring
  have e2 : (2 : ℚ) ^ (e + 1) = 2 ^ (53 : ℤ) * 2 ^ (e - 52) := by
    rw [← zpow_add₀ (by norm_num : (2 : ℚ) ≠ 0)]
    congr 1
    ring
  apply round64_near _ e N
  · rw [e1]
    exact mul_le_mul_of_nonneg_right h1' (le_of_lt hp)
  · rw [e2]
    exact mul_lt_mul_of_pos_right h2' hp
  · rw [mul_div_assoc, div_self (ne_of_gt hp), mul_one, sub_self, abs_zero]
    norm_num

/-! ## The percentages of a summary in binary64 -/

theorem percent64_eq (c t : ℕ) (hc : c ≤ t) (ht : t < 2 ^ 31) :
    summarizeAdvancedBySenator.percentWith round64 c t = round64 (100 * (c : ℚ) / (t : ℚ)) := by
  unfold summarizeAdvancedBySenator.percentWith
  have h1 : round64 (c : ℚ) = c := round64_nat c (by omega)
  have h2 : round64 (t : ℚ) = t := round64_nat t (by omega)
  have h3 : round64 (100 * (c : ℚ)) = 100 * c := by
    have := round64_nat (100 * c) (by omega)
    push_cast at this
    exact this
  rw [h1, h2, h3]

theorem percent64_bounds (c t : ℕ) (h0 : 0 < t) (hc : c ≤ t) (ht : t < 2 ^ 31) :
    0 ≤ summarizeAdvancedBySenator.percentWith round64 c t ∧
      summarizeAdvancedBySenator.percentWith round64 c t ≤ 100 := by
  rw [percent64_eq c t hc ht]
  have hpos : (0 : ℚ) < t := by exact_mod_cast h0
  have hle : (c : ℚ) ≤ t := by exact_mod_cast hc
  have hx0 : 0 ≤ 100 * (c : ℚ) / t := by positivity
  have hx1 : 100 * (c : ℚ) / t ≤ ((100 : ℕ) : ℚ) := by
    rw [div_le_iff₀ hpos]
    push_cast
    nlinarith
  refine ⟨round64_nonneg _ hx0, ?_⟩
  have := round64_le_nat _ 100 (by norm_num) hx0 hx1
  simpa using this

theorem accumulate64_foldl (posts : List AdvancedTweetAnalysis) :
    (∀ a ∈ posts, a.posWordCount + a.negWordCount ≤ a.totalWords) →
    (∀ a ∈ posts, a.totalWords < 2 ^ 31) →
    ∀ (k : ℕ) (totals : ℚ × ℚ), k + posts.length < 2 ^ 31 →
      0 ≤ totals.1 → totals.1 ≤ ((100 * k : ℕ) : ℚ) →
      0 ≤ totals.2 → totals.2 ≤ ((100 * k : ℕ) : ℚ) →
      0 ≤ (posts.foldl (summarizeAdvancedBySenator.accumulateWith round64) totals).1 ∧
      (posts.foldl (summarizeAdvancedBySenator.accumulateWith round64) totals).1 ≤
        ((100 * (k + posts.length) : ℕ) : ℚ) ∧
      0 ≤ (posts.foldl (summarizeAdvancedBySenator.accumulateWith round64) totals).2 ∧
      (posts.foldl (summarizeAdvancedBySenator.accumulateWith round64) totals).2 ≤
        ((100 * (k + posts.length) : ℕ) : ℚ) := by
  induction posts with
  | nil =>
    intro _ _ k totals _ a1 a2 b1 b2
    exact ⟨a1, by simpa using a2, b1, by simpa using b2⟩
  | cons a rest ih =>
    intro hle hwords k totals hk a1 a2 b1 b2
    have hk' : k + 1 + rest.length < 2 ^ 31 := by
      rw [List.length_cons] at hk
      omega
    have hstep : 0 ≤ (summarizeAdvancedBySenator.accumulateWith round64 totals a).1 ∧
        (summarizeAdvancedBySenator.accumulateWith round64 totals a).1 ≤ ((100 * (k + 1) : ℕ) : ℚ) ∧
        0 ≤ (summarizeAdvancedBySenator.accumulateWith round64 totals a).2 ∧
        (summarizeAdvancedBySenator.accumulateWith round64 totals a).2 ≤ ((100 * (k + 1) : ℕ) : ℚ) := by
      have hmono : ((100 * k : ℕ) : ℚ) ≤ ((100 * (k + 1) : ℕ) : ℚ) := by
        push_cast
        linarith
      unfold summarizeAdvancedBySenator.accumulateWith
      by_cases h0 : a.totalWords > 0
      · rw [if_pos h0]
        have hsum := hle a (List.mem_cons_self _ _)
        have hw := hwords a (List.mem_cons_self _ _)
        obtain ⟨p1, p2⟩ := percent64_bounds a.posWordCount a.totalWords h0 (by omega) hw
        obtain ⟨n1, n2⟩ := percent64_bounds a.negWordCount a.totalWords h0 (by omega) hw
        have hc : 100 * (k + 1) < 2 ^ 53 := by omega
        refine ⟨round64_nonneg _ (by linarith),
          round64_le_nat _ _ hc (by linarith) (by push_cast at a2 ⊢; linarith),
          round64_nonneg _ (by linarith),
          round64_le_nat _ _ hc (by linarith) (by push_cast at b2 ⊢; linarith)⟩
      · rw [if_neg h0]
        exact ⟨a1, le_trans a2 hmono, b1, le_trans b2 hmono⟩
    obtain ⟨s1, s2, s3, s4⟩ := hstep
    have := ih (fun x hx => hle x (List.mem_cons_of_mem _ hx))
      (fun x hx => hwords x (List.mem_cons_of_mem _ hx)) (k + 1) _ hk' s1 s2 s3 s4
    rw [List.foldl_cons, List.length_cons]
    have hidx : k + (rest.length + 1) = k + 1 + rest.length := by omega
    rw [hidx]
    exact this

theorem percentages64_bounds (posts : List AdvancedTweetAnalysis)
    (hle : ∀ a ∈ posts, a.posWordCount + a.negWordCount ≤ a.totalWords)
    (hwords : ∀ a ∈ posts, a.totalWords < 2 ^ 31) (hlen : posts.length < 2 ^ 31) :
    0 ≤ (summarizeAdvancedBySenator.percentages64 posts).1 ∧
    (summarizeAdvancedBySenator.percentages64 posts).1 ≤ 100 ∧
    0 ≤ (summarizeAdvancedBySenator.percentages64 posts).2 ∧
    (summarizeAdvancedBySenator.percentages64 posts).2 ≤ 100 := by
  obtain ⟨s1, s2, s3, s4⟩ := accumulate64_foldl posts hle hwords 0 (0, 0) (by omega)
    (le_refl _) (by simp) (le_refl _) (by simp)
  rw [Nat.zero_add] at s2 s4
  push_cast at s2 s4
  have hn : round64 (posts.length : ℚ) = posts.length := round64_nat _ (by omega)
  have hn0 : (0 : ℚ) ≤ (posts.length : ℚ) := Nat.cast_nonneg _
  have hdiv : ∀ x : ℚ, 0 ≤ x → x ≤ 100 * (posts.length : ℚ) →
      0 ≤ round64 (x / (posts.length : ℚ)) ∧ round64 (x / (posts.length : ℚ)) ≤ 100 := by
    intro x hx0 hx1
    have q0 : 0 ≤ x / (posts.length : ℚ) := div_nonneg hx0 hn0
    have q1 : x / (posts.length : ℚ) ≤ ((100 : ℕ) : ℚ) := by
      by_cases h0 : (posts.length : ℚ) = 0
      · rw [h0, div_zero]
        norm_num
      · have hpos : (0 : ℚ) < (posts.length : ℚ) := lt_of_le_of_ne hn0 (Ne.symm h0)
        rw [div_le_iff₀ hpos]
        push_cast
        exact hx1
    refine ⟨round64_nonneg _ q0, ?_⟩
    have := round64_le_nat _ 100 (by norm_num) q0 q1
    simpa using this
  unfold summarizeAdvancedBySenator.percentages64 summarizeAdvancedBySenator.percentagesWith
  simp only [hn]
  exact ⟨(hdiv _ s1 s2).1, (hdiv _ s1 s2).2, (hdiv _ s3 s4).1, (hdiv _ s3 s4).2⟩

/-- The binary64 percentages of a group of one post of three words, one positive
and two negative: `100 / 3` and `200 / 3` are both rounded up. -/
theorem percentages64_thirds (a : AdvancedTweetAnalysis) (h3 : a.totalWords = 3)
    (h1 : a.posWordCount = 1) (h2 : a.negWordCount = 2) :
    summarizeAdvancedBySenator.percentages64 [a] =
      (4691249611844267 / 2 ^ 47, 4691249611844267 / 2 ^ 46) := by
  have d1 : round64 ((4691249611844267 : ℤ) * 2 ^ ((5 : ℤ) - 52)) =
      (4691249611844267 : ℤ) * 2 ^ ((5 : ℤ) - 52) :=
    round64_dyadic _ _ (by norm_num) (by norm_num)
  have d2 : round64 ((4691249611844267 : ℤ) * 2 ^ ((6 : ℤ) - 52)) =
      (4691249611844267 : ℤ) * 2 ^ ((6 : ℤ) - 52) :=
    round64_dyadic _ _ (by norm_num) (by norm_num)
  have v1 : ((4691249611844267 : ℤ) : ℚ) * 2 ^ ((5 : ℤ) - 52) =
      4691249611844267 / 2 ^ 47 := by norm_num
  have v2 : ((4691249611844267 : ℤ) : ℚ) * 2 ^ ((6 : ℤ) - 52) =
      4691249611844267 / 2 ^ 46 := by norm_num
  rw [v1] at d1
  rw [v2] at d2
  have r1 : round64 (100 * ((1 : ℕ) : ℚ) / ((3 : ℕ) : ℚ)) = 4691249611844267 / 2 ^ 47 := by
    rw [round64_near _ 5 4691249611844267 (by norm_num) (by norm_num)
      (by rw [abs_lt]; constructor <;> norm_num)]
    norm_num
  have r2 : round64 (100 * ((2 : ℕ) : ℚ) / ((3 : ℕ) : ℚ)) = 4691249611844267 / 2 ^ 46 := by
    rw [round64_near _ 6 4691249611844267 (by norm_num) (by norm_num)
      (by rw [abs_lt]; constructor <;> norm_num)]
    norm_num
  have one : round64 ((1 : ℕ) : ℚ) = (1 : ℕ) := round64_nat 1 (by norm_num)
  unfold summarizeAdvancedBySenator.percentages64 summarizeAdvancedBySenator.percentagesWith
  simp only [List.foldl_cons, List.foldl_nil, List.length_singleton]
  unfold summarizeAdvancedBySenator.accumulateWith
  rw [if_pos (by omega), h1, h2, h3, percent64_eq 1 3 (by norm_num) (by norm_num),
    percent64_eq 2 3 (by norm_num) (by norm_num), r1, r2, one]
  simp only [zero_add, Nat.cast_one, div_one]
  rw [d1, d2, d1, d2]

/-- The binary64 percentages of a group of two posts, one positive word of two
and no positive word of four: every operation is exact. -/
theorem percentages64_half (a b : AdvancedTweetAnalysis)
    (ha : a.totalWords = 2 ∧ a.posWordCount = 1 ∧ a.negWordCount = 0)
    (hb : b.totalWords = 4 ∧ b.posWordCount = 0 ∧ b.negWordCount = 0) :
    summarizeAdvancedBySenator.percentages64 [a, b] = (25, 0) := by
  obtain ⟨a1, a2, a3⟩ := ha
  obtain ⟨b1, b2, b3⟩ := hb
  have n0 : round64 0 = 0 := by simpa using round64_nat 0 (by norm_num)
  have n2 : round64 2 = 2 := by simpa using round64_nat 2 (by norm_num)
  have n25 : round64 25 = 25 := by simpa using round64_nat 25 (by norm_num)
  have n50 : round64 50 = 50 := by simpa using round64_nat 50 (by norm_num)
  have p50 : summarizeAdvancedBySenator.percentWith round64 1 2 = 50 := by
    rw [percent64_eq 1 2 (by norm_num) (by norm_num)]
    norm_num
    exact n50
  have p0 : ∀ t : ℕ, t < 2 ^ 31 → summarizeAdvancedBySenator.percentWith round64 0 t = 0 := by
    intro t ht
    rw [percent64_eq 0 t (by omega) ht]
    simpa using n0
  unfold summarizeAdvancedBySenator.percentages64 summarizeAdvancedBySenator.percentagesWith
  simp only [List.foldl_cons, List.foldl_nil, List.length_cons, List.length_nil]
  unfold summarizeAdvancedBySenator.accumulateWith
  rw [if_pos (by omega), if_pos (by omega), a1, a2, a3, b1, b2, b3, p50,
    p0 2 (by norm_num), p0 4 (by norm_num)]
  norm_num
  rw [n0, n50]
  rw [n0, n50, n2]
  norm_num
  exact ⟨n25, n0⟩

/-! ## The grouping by senator -/

theorem GroupMap.pushBack_keys (m : GroupMap) (key : CString) (a : AdvancedTweetAnalysis) :
    (m.pushBack key a).map Prod.fst =
      if key ∈ m.map Prod.fst then m.map Prod.fst else m.map Prod.fst ++ [key] := by
  induction m with
  | nil => simp [GroupMap.pushBack]
  | cons e rest ih =>
    obtain ⟨k, v⟩ := e
    unfold GroupMap.pushBack
    by_cases hk : k = key
    · subst hk
      simp
    · have hk' : ¬ key = k := fun h => hk h.symm
      rw [if_neg hk, List.map_cons, ih]
      by_cases hmem : key ∈ rest.map Prod.fst
      · have hmem' : key ∈ ((k, v) :: rest).map Prod.fst := by
          rw [List.map_cons]
          exact List.mem_cons_of_mem _ hmem
        rw [if_pos hmem, if_pos hmem']
        rfl
      · have hmem' : ¬ key ∈ ((k, v) :: rest).map Prod.fst := by
          rw [List.map_cons, List.mem_cons]
          rintro (h | h)
          · exact hk' h
          · exact hmem h
        rw [if_neg hmem, if_neg hmem']
        rfl

theorem GroupMap.pushBack_lookup (m : GroupMap) (key : CString) (a : AdvancedTweetAnalysis)
    (k' : CString) :
    List.lookup k' (m.pushBack key a) =
      if k' = key then some ((List.lookup key m).getD [] ++ [a]) else List.lookup k' m := by
  induction m with
  | nil =>
    unfold GroupMap.pushBack
    by_cases h : k' = key
    · subst h
      simp [List.lookup_cons]
    · have hne : (k' == key) = false := by simpa using h
      rw [if_neg h, List.lookup_cons, hne]
  | cons e rest ih =>
    obtain ⟨k, v⟩ := e
    unfold GroupMap.pushBack
    by_cases hk : k = key
    · subst hk
      rw [if_pos rfl]
      by_cases h : k' = k
      · subst h
        simp [List.lookup_cons]
      · have hne : (k' == k) = false := by simpa using h
        rw [if_neg h, List.lookup_cons, hne, List.lookup_cons, hne]
    · rw [if_neg hk]
      by_cases h : k' = key
      · subst h
        have hne : (k' == k) = false := by simpa using fun h' : k' = k => hk h'.symm
        rw [if_pos rfl, List.lookup_cons, hne, ih, if_pos rfl, List.lookup_cons, hne]
      · rw [if_neg h]
        by_cases h2 : k' = k
        · subst h2
          simp [List.lookup_cons]
        · have hne : (k' == k) = false := by simpa using h2
          rw [List.lookup_cons, hne, ih, if_neg h, List.lookup_cons, hne]

theorem GroupMap.pushBack_sum_length (m : GroupMap) (key : CString)
    (a : AdvancedTweetAnalysis) :
    ((m.pushBack key a).map (fun e => e.2.length)).sum =
      (m.map (fun e => e.2.length)).sum + 1 := by
  induction m with
  | nil => simp [GroupMap.pushBack]
  | cons e rest ih =>
    obtain ⟨k, v⟩ := e
    unfold GroupMap.pushBack
    by_cases hk : k = key
    · rw [if_pos hk]
      simp
      omega
    · rw [if_neg hk, List.map_cons, List.sum_cons, ih, List.map_cons, List.sum_cons]
      omega

theorem GroupMap.lookup_eq_none_iff (m : GroupMap) (k : CString) :
    List.lookup k m = none ↔ k ∉ m.map Prod.fst := by
  induction m with
  | nil => simp
  | cons e rest ih =>
    obtain ⟨k', v⟩ := e
    by_cases h : k = k'
    · subst h
      simp [List.lookup_cons]
    · have hne : (k == k') = false := by simpa using h
      rw [List.lookup_cons, hne, List.map_cons, List.mem_cons, ih]
      simp [h]

theorem GroupMap.mem_iff_lookup (m : GroupMap) (hnodup : (m.map Prod.fst).Nodup)
    (k : CString) (v : List AdvancedTweetAnalysis) :
    (k, v) ∈ m ↔ List.lookup k m = some v := by
  induction m with
  | nil => simp
  | cons e rest ih =>
    obtain ⟨k', v'⟩ := e
    rw [List.map_cons, List.nodup_cons] at hnodup
    by_cases h : k = k'
    · subst h
      have hnot : ∀ w, (k, w) ∉ rest := fun w hw =>
        hnodup.1 (List.mem_map.mpr ⟨(k, w), hw, rfl⟩)
      rw [List.lookup_cons, beq_self_eq_true, List.mem_cons]
      constructor
      · rintro (h | h)
        · rw [(Prod.mk.inj h).2]
        · exact absurd h (hnot v)
      · intro h
        left
        rw [Option.some.inj h]
    · have hne : (k == k') = false := by simpa using h
      rw [List.lookup_cons, hne, List.mem_cons, ← ih hnodup.2]
      constructor
      · rintro (h' | h')
        · exact absurd (Prod.mk.inj h').1 h
        · exact h'
      · exact fun h' => Or.inr h'

theorem group_foldl_keys_nodup (l : List AdvancedTweetAnalysis) :
    ∀ (m : GroupMap), (m.map Prod.fst).Nodup →
      ((l.foldl (fun (bySenator : GroupMap) analysis => bySenator.pushBack analysis.senatorName analysis)
        m).map Prod.fst).Nodup := by
  induction l with
  | nil => exact fun m h => h
  | cons a l ih =>
    intro m h
    rw [List.foldl_cons]
    apply ih
    rw [GroupMap.pushBack_keys]
    by_cases hmem : a.senatorName ∈ m.map Prod.fst
    · rw [if_pos hmem]
      exact h
    · rw [if_neg hmem]
      exact List.Nodup.append h (List.nodup_singleton _) (by
        intro x hx hx'
        rw [List.mem_singleton] at hx'
        exact hmem (hx' ▸ hx))

theorem group_foldl_mem_keys (l : List AdvancedTweetAnalysis) (k : CString) :
    ∀ (m : GroupMap),
      k ∈ (l.foldl (fun (bySenator : GroupMap) analysis => bySenator.pushBack analysis.senatorName analysis)
        m).map Prod.fst ↔ k ∈ m.map Prod.fst ∨ ∃ a ∈ l, a.senatorName = k := by
  induction l with
  | nil => intro m; simp
  | cons a l ih =>
    intro m
    rw [List.foldl_cons, ih, GroupMap.pushBack_keys]
    by_cases hmem : a.senatorName ∈ m.map Prod.fst
    · rw [if_pos hmem]
      constructor
      · rintro (h | ⟨x, hx, hxk⟩)
        · exact Or.inl h
        · exact Or.inr ⟨x, List.mem_cons_of_mem _ hx, hxk⟩
      · rintro (h | ⟨x, hx, hxk⟩)
        · exact Or.inl h
        · rcases List.mem_cons.mp hx with rfl | hx
          · exact Or.inl (hxk ▸ hmem)
          · exact Or.inr ⟨x, hx, hxk⟩
    · rw [if_neg hmem, List.mem_append, List.mem_singleton]
      constructor
      · rintro ((h | h) | ⟨x, hx, hxk⟩)
        · exact Or.inl h
        · exact Or.inr ⟨a, List.mem_cons_self _ _, h.symm⟩
        · exact Or.inr ⟨x, List.mem_cons_of_mem _ hx, hxk⟩
      · rintro (h | ⟨x, hx, hxk⟩)
        · exact Or.inl (Or.inl h)
        · rcases List.mem_cons.mp hx with rfl | hx
          · exact Or.inl (Or.inr hxk.symm)
          · exact Or.inr ⟨x, hx, hxk⟩

theorem group_foldl_lookup (l : List AdvancedTweetAnalysis) (k : CString) :
    ∀ (m : GroupMap),
      (List.lookup k
        (l.foldl (fun (bySenator : GroupMap) analysis => bySenator.pushBack analysis.senatorName analysis)
          m)).getD [] =
        (List.lookup k m).getD [] ++ l.filter (fun a => decide (a.senatorName = k)) := by
  induction l with
  | nil => intro m; simp
  | cons a l ih =>
    intro m
    rw [List.foldl_cons, ih, GroupMap.pushBack_lookup]
    by_cases h : a.senatorName = k
    · have hd : decide (a.senatorName = k) = true := decide_eq_true h
      rw [if_pos h.symm, List.filter_cons, if_pos hd, h]
      simp
    · have hd : ¬ decide (a.senatorName = k) = true := by simpa using h
      rw [if_neg (fun h' => h h'.symm), List.filter_cons, if_neg hd]

theorem group_foldl_sum_length (l : List AdvancedTweetAnalysis) :
    ∀ (m : GroupMap),
      ((l.foldl (fun (bySenator : GroupMap) analysis => bySenator.pushBack analysis.senatorName analysis)
        m).map (fun e => e.2.length)).sum = (m.map (fun e => e.2.length)).sum + l.length := by
  induction l with
  | nil => intro m; simp
  | cons a l ih =>
    intro m
    rw [List.foldl_cons, ih, GroupMap.pushBack_sum_length, List.length_cons]
    omega

/-- The entries of the map `bySenator`: one for each name that occurs in the
input, holding the analyses of that name in their input order. -/
theorem group_entry_iff (perTweet : List AdvancedTweetAnalysis) (k : CString)
    (v : List AdvancedTweetAnalysis) :
    (k, v) ∈ summarizeAdvancedBySenator.group perTweet ↔
      (∃ a ∈ perTweet, a.senatorName = k) ∧
        v = perTweet.filter (fun a => decide (a.senatorName = k)) := by
  unfold summarizeAdvancedBySenator.group
  rw [GroupMap.mem_iff_lookup _ (group_foldl_keys_nodup perTweet [] (by simp))]
  have hget := group_foldl_lookup perTweet k []
  have hkeys := group_foldl_mem_keys perTweet k []
  simp only [List.lookup_nil, Option.getD_none, List.nil_append, List.map_nil,
    List.not_mem_nil, false_or] at hget hkeys
  constructor
  · intro h
    rw [h] at hget
    refine ⟨hkeys.mp ?_, hget⟩
    by_contra hcon
    rw [(GroupMap.lookup_eq_none_iff _ k).mpr hcon] at h
    exact Option.noConfusion h
  · rintro ⟨hex, hv⟩
    have hmem := hkeys.mpr hex
    cases hl : List.lookup k (List.foldl
        (fun (bySenator : GroupMap) analysis =>
          bySenator.pushBack analysis.senatorName analysis) [] perTweet) with
    | none => exact absurd hmem ((GroupMap.lookup_eq_none_iff _ k).mp hl)
    | some w =>
      rw [hl] at hget
      rw [hv, ← hget]
      rfl

/-- The summaries returned by `summarizeAdvancedBySenator`, whatever the
iteration order: the summaries of the groups of the names of the input. -/
theorem mem_summarize_iff (order : IterationOrder) (perTweet : List AdvancedTweetAnalysis)
    (s : AdvancedSenatorSummary) :
    s ∈ summarizeAdvancedBySenator order perTweet ↔
      ∃ k, (∃ a ∈ perTweet, a.senatorName = k) ∧
        s = summarizeAdvancedBySenator.summarize
          (k, perTweet.filter (fun a => decide (a.senatorName = k))) := by
  unfold summarizeAdvancedBySenator
  simp only [List.mem_map]
  constructor
  · rintro ⟨⟨k, v⟩, hmem, hs⟩
    have hmem' := (order.perm _).mem_iff.mp hmem
    obtain ⟨hex, hv⟩ := (group_entry_iff perTweet k v).mp hmem'
    exact ⟨k, hex, by rw [← hs, hv]⟩
  · rintro ⟨k, hex, hs⟩
    refine ⟨(k, perTweet.filter (fun a => decide (a.senatorName = k))), ?_, hs.symm⟩
    exact (order.perm _).mem_iff.mpr ((group_entry_iff perTweet k _).mpr ⟨hex, rfl⟩)

/-! ## The summary of one group -/

theorem accumulate_fields (st : SummaryState) (a : AdvancedTweetAnalysis) :
    (summarizeAdvancedBySenator.accumulate st a).totalBase =
      st.totalBase + a.baseSentimentScore ∧
    (summarizeAdvancedBySenator.accumulate st a).totalAdjusted =
      st.totalAdjusted + a.adjustedSentimentScore ∧
    (summarizeAdvancedBySenator.accumulate st a).totalPosPercent =
      st.totalPosPercent + posPercent a ∧
    (summarizeAdvancedBySenator.accumulate st a).totalNegPercent =
      st.totalNegPercent + negPercent a ∧
    (summarizeAdvancedBySenator.accumulate st a).totalAllCaps =
      st.totalAllCaps + (a.allCapsWordCount : ℚ) ∧
    (summarizeAdvancedBySenator.accumulate st a).totalExclamations =
      st.totalExclamations + (a.exclamationCount : ℚ) ∧
    ((summarizeAdvancedBySenator.accumulate st a).maxAdjusted,
      (summarizeAdvancedBySenator.accumulate st a).summary.mostPositiveTweet) =
      (if a.adjustedSentimentScore > st.maxAdjusted then (a.adjustedSentimentScore, a)
        else (st.maxAdjusted, st.summary.mostPositiveTweet)) ∧
    ((summarizeAdvancedBySenator.accumulate st a).minAdjusted,
      (summarizeAdvancedBySenator.accumulate st a).summary.mostNegativeTweet) =
      (if a.adjustedSentimentScore < st.minAdjusted then (a.adjustedSentimentScore, a)
        else (st.minAdjusted, st.summary.mostNegativeTweet)) ∧
    (summarizeAdvancedBySenator.accumulate st a).summary.name = st.summary.name ∧
    (summarizeAdvancedBySenator.accumulate st a).summary.tweetCount = st.summary.tweetCount := by
  unfold summarizeAdvancedBySenator.accumulate posPercent negPercent
  by_cases hw : a.totalWords > 0
  · have hw0 : ¬ a.totalWords = 0 := by omega
    by_cases h1 : a.adjustedSentimentScore > st.maxAdjusted <;>
      by_cases h2 : a.adjustedSentimentScore < st.minAdjusted <;>
      simp [hw, hw0, h1, h2] <;> norm_num
  · have hw0 : a.totalWords = 0 := by omega
    by_cases h1 : a.adjustedSentimentScore > st.maxAdjusted <;>
      by_cases h2 : a.adjustedSentimentScore < st.minAdjusted <;>
      simp [hw0, h1, h2]

theorem accumulate_foldl (v : List AdvancedTweetAnalysis) :
    ∀ (st : SummaryState),
      (v.foldl summarizeAdvancedBySenator.accumulate st).totalBase =
        st.totalBase + (v.map (fun a => a.baseSentimentScore)).sum ∧
      (v.foldl summarizeAdvancedBySenator.accumulate st).totalAdjusted =
        st.totalAdjusted + (v.map (fun a => a.adjustedSentimentScore)).sum ∧
      (v.foldl summarizeAdvancedBySenator.accumulate st).totalPosPercent =
        st.totalPosPercent + (v.map posPercent).sum ∧
      (v.foldl summarizeAdvancedBySenator.accumulate st).totalNegPercent =
        st.totalNegPercent + (v.map negPercent).sum ∧
      (v.foldl summarizeAdvancedBySenator.accumulate st).totalAllCaps =
        st.totalAllCaps + (v.map (fun a => (a.allCapsWordCount : ℚ))).sum ∧
      (v.foldl summarizeAdvancedBySenator.accumulate st).totalExclamations =
        st.totalExclamations + (v.map (fun a => (a.exclamationCount : ℚ))).sum ∧
      ((v.foldl summarizeAdvancedBySenator.accumulate st).maxAdjusted,
        (v.foldl summarizeAdvancedBySenator.accumulate st).summary.mostPositiveTweet) =
        scanMax v (st.maxAdjusted, st.summary.mostPositiveTweet) ∧
      ((v.foldl summarizeAdvancedBySenator.accumulate st).minAdjusted,
        (v.foldl summarizeAdvancedBySenator.accumulate st).summary.mostNegativeTweet) =
        scanMin v (st.minAdjusted, st.summary.mostNegativeTweet) ∧
      (v.foldl summarizeAdvancedBySenator.accumulate st).summary.name = st.summary.name ∧
      (v.foldl summarizeAdvancedBySenator.accumulate st).summary.tweetCount =
        st.summary.tweetCount := by
  induction v with
  | nil =>
    intro st
    simp [scanMax, scanMin]
  | cons a v ih =>
    intro st
    obtain ⟨h1, h2, h3, h4, h5, h6, h7, h8, h9, h10⟩ := accumulate_fields st a
    obtain ⟨g1, g2, g3, g4, g5, g6, g7, g8, g9, g10⟩ :=
      ih (summarizeAdvancedBySenator.accumulate st a)
    rw [List.foldl_cons, g1, g2, g3, g4, g5, g6, g7, g8, g9, g10, h1, h2, h3, h4, h5, h6, h7,
      h8, h9, h10]
    simp only [List.map_cons, List.sum_cons, scanMax, scanMin, List.foldl_cons]
    refine ⟨by ring, by ring, by ring, by ring, by ring, by ring, ?_⟩
    simp

/-- The summary of one entry of the map, field by field. -/
theorem summarize_fields (k : CString) (v : List AdvancedTweetAnalysis) :
    (summarizeAdvancedBySenator.summarize (k, v)).name = k ∧
    (summarizeAdvancedBySenator.summarize (k, v)).tweetCount = v.length ∧
    (summarizeAdvancedBySenator.summarize (k, v)).avgBaseSentiment =
      groupMean (fun a => a.baseSentimentScore) v ∧
    (summarizeAdvancedBySenator.summarize (k, v)).avgAdjustedSentiment =
      groupMean (fun a => a.adjustedSentimentScore) v ∧
    (summarizeAdvancedBySenator.summarize (k, v)).avgPosPercent = groupMean posPercent v ∧
    (summarizeAdvancedBySenator.summarize (k, v)).avgNegPercent = groupMean negPercent v ∧
    (summarizeAdvancedBySenator.summarize (k, v)).avgAllCaps =
      groupMean (fun a => (a.allCapsWordCount : ℚ)) v ∧
    (summarizeAdvancedBySenator.summarize (k, v)).avgExclamations =
      groupMean (fun a => (a.exclamationCount : ℚ)) v ∧
    (summarizeAdvancedBySenator.summarize (k, v)).avgStyleScore =
      groupMean (fun a => (a.exclamationCount : ℚ)) v * 2.0 +
        groupMean (fun a => (a.allCapsWordCount : ℚ)) v * 1.5 ∧
    (summarizeAdvancedBySenator.summarize (k, v)).mostPositiveTweet =
      (scanMax v (-1e9, {})).2 ∧
    (summarizeAdvancedBySenator.summarize (k, v)).mostNegativeTweet =
      (scanMin v (1e9, {})).2 := by
  obtain ⟨g1, g2, g3, g4, g5, g6, g7, g8, g9, g10⟩ := accumulate_foldl v
    { summary := { name := k, tweetCount := v.length } }
  have g7' := congrArg Prod.snd g7
  have g8' := congrArg Prod.snd g8
  simp only at g7' g8' g9 g10
  unfold summarizeAdvancedBySenator.summarize groupMean
  simp only [g1, g2, g3, g4, g5, g6, g7', g8', g9, g10]
  norm_num

theorem summarize_names (order : IterationOrder) (perTweet : List AdvancedTweetAnalysis) :
    (summarizeAdvancedBySenator order perTweet).map (fun s => s.name) =
      (order.iterate (summarizeAdvancedBySenator.group perTweet)).map Prod.fst := by
  unfold summarizeAdvancedBySenator
  rw [List.map_map]
  apply List.map_congr_left
  rintro ⟨k, v⟩ _
  exact (summarize_fields k v).1

theorem summarize_counts (order : IterationOrder) (perTweet : List AdvancedTweetAnalysis) :
    (summarizeAdvancedBySenator order perTweet).map (fun s => s.tweetCount) =
      (order.iterate (summarizeAdvancedBySenator.group perTweet)).map
        (fun e => e.2.length) := by
  unfold summarizeAdvancedBySenator
  rw [List.map_map]
  apply List.map_congr_left
  rintro ⟨k, v⟩ _
  exact (summarize_fields k v).2.1

/-- C11: whatever the iteration order of the map, `summarizeAdvancedBySenator`
returns exactly one summary for each `senatorName` that occurs in the input:
the names of the summaries are pairwise distinct and are the names of the
input; the `tweetCount` of a summary is the number of input analyses with its
name; hence every `tweetCount` is at least `1` and the counts sum to the length
of the input. -/
theorem one_summary_per_senator (order : IterationOrder)
    (perTweet : List AdvancedTweetAnalysis) :
    ((summarizeAdvancedBySenator order perTweet).map (fun s => s.name)).Nodup ∧
    (∀ n, n ∈ (summarizeAdvancedBySenator order perTweet).map (fun s => s.name) ↔
      ∃ a ∈ perTweet, a.senatorName = n) ∧
    (∀ s ∈ summarizeAdvancedBySenator order perTweet,
      s.tweetCount = perTweet.countP (fun a => decide (a.senatorName = s.name))) ∧
    (∀ s ∈ summarizeAdvancedBySenator order perTweet, 1 ≤ s.tweetCount) ∧
    ((summarizeAdvancedBySenator order perTweet).map (fun s => s.tweetCount)).sum =
      perTweet.length := by
  have hcount : ∀ s ∈ summarizeAdvancedBySenator order perTweet,
      s.tweetCount = perTweet.countP (fun a => decide (a.senatorName = s.name)) ∧
      1 ≤ s.tweetCount := by
    intro s hs
    obtain ⟨k, ⟨a, ha, hak⟩, hsk⟩ := (mem_summarize_iff order perTweet s).mp hs
    obtain ⟨hname, hcnt, _⟩ :=
      summarize_fields k (perTweet.filter (fun a => decide (a.senatorName = k)))
    rw [hsk, hname, hcnt, ← List.countP_eq_length_filter]
    refine ⟨rfl, ?_⟩
    exact List.countP_pos_iff.mpr ⟨a, ha, decide_eq_true hak⟩
  refine ⟨?_, ?_, fun s hs => (hcount s hs).1, fun s hs => (hcount s hs).2, ?_⟩
  · rw [summarize_names]
    exact ((order.perm _).map Prod.fst).nodup_iff.mpr
      (group_foldl_keys_nodup perTweet [] (by simp))
  · intro n
    rw [summarize_names, ((order.perm _).map Prod.fst).mem_iff]
    have := group_foldl_mem_keys perTweet n []
    simpa [summarizeAdvancedBySenator.group] using this
  · rw [summarize_counts, ((order.perm _).map (fun e => e.2.length)).sum_eq]
    have := group_foldl_sum_length perTweet []
    simpa [summarizeAdvancedBySenator.group] using this

/-- A summary of the result is the summary of the posts of its name, and that
name occurs in the input. -/
theorem summary_of_mem (order : IterationOrder) (perTweet : List AdvancedTweetAnalysis)
    (s : AdvancedSenatorSummary) (hs : s ∈ summarizeAdvancedBySenator order perTweet) :
    s = summarizeAdvancedBySenator.summarize (s.name, postsOf perTweet s.name) ∧
    ∃ a ∈ perTweet, a.senatorName = s.name := by
  obtain ⟨k, hex, hsk⟩ := (mem_summarize_iff order perTweet s).mp hs
  have hname : s.name = k := by
    rw [hsk]
    exact (summarize_fields k _).1
  rw [hname]
  exact ⟨hsk, hex⟩

/-- The summary of the author `A` is among the summaries of the worked input. -/
theorem example_summary_mem (order : IterationOrder) :
    summarizeAdvancedBySenator.summarize ("A".toList, postsOf examplePosts "A".toList) ∈
      summarizeAdvancedBySenator order examplePosts :=
  (mem_summarize_iff order examplePosts _).mpr
    ⟨"A".toList, ⟨_, List.mem_cons_self _ _, rfl⟩, rfl⟩

theorem example_postsOf :
    postsOf examplePosts "A".toList =
      [{ tweetId := "1".toList, senatorName := "A".toList, totalWords := 2, posWordCount := 1,
         baseSentimentScore := 1, adjustedSentimentScore := 3, exclamationCount := 2,
         allCapsWordCount := 1 },
       { tweetId := "3".toList, senatorName := "A".toList, totalWords := 4, negWordCount := 1,
         baseSentimentScore := 2, adjustedSentimentScore := 3, exclamationCount := 1,
         allCapsWordCount := 2 }] := rfl

/-- Every author of the input has a summary in the result: the summary of the
posts of that author. -/
theorem summary_exists (order : IterationOrder) (perTweet : List AdvancedTweetAnalysis)
    (a : AdvancedTweetAnalysis) (ha : a ∈ perTweet) :
    summarizeAdvancedBySenator.summarize (a.senatorName, postsOf perTweet a.senatorName) ∈
      summarizeAdvancedBySenator order perTweet :=
  (mem_summarize_iff order perTweet _).mpr ⟨a.senatorName, ⟨a, ha, rfl⟩, rfl⟩

/-- C12: for every author group, `avgPosPercent` (and likewise `avgNegPercent`)
is the arithmetic mean over the posts of the group of the per-post percentage
`100 × count / totalWords`, taken as `0` for a post without words. Every author
of the input has such a summary in the result, and every summary of the result
is one. For a group of two posts with positive percentages `50` and `0` the
result holds a summary of the group and its `avgPosPercent` is `25`, which for
the posts `1 of 2` and `0 of 4` is not the pooled ratio `100 × 1 / 6`; for these
two posts the binary64 operations of the code are exact and give `25` too. -/
theorem avgPercent_is_mean_of_percentages (order : IterationOrder)
    (perTweet : List AdvancedTweetAnalysis) :
    (∀ a ∈ perTweet, ∃ s ∈ summarizeAdvancedBySenator order perTweet,
      s.name = a.senatorName ∧
      s.avgPosPercent = groupMean posPercent (postsOf perTweet a.senatorName) ∧
      s.avgNegPercent = groupMean negPercent (postsOf perTweet a.senatorName)) ∧
    (∀ s ∈ summarizeAdvancedBySenator order perTweet,
      (postsOf perTweet s.name) ≠ [] ∧
      s.avgPosPercent = groupMean posPercent (postsOf perTweet s.name) ∧
      s.avgNegPercent = groupMean negPercent (postsOf perTweet s.name)) ∧
    (∀ a b : AdvancedTweetAnalysis, a.senatorName = b.senatorName →
      posPercent a = 50 → posPercent b = 0 →
      (∃ s ∈ summarizeAdvancedBySenator order [a, b],
        s.name = a.senatorName ∧ s.tweetCount = 2 ∧ s.avgPosPercent = 25) ∧
      ∀ s ∈ summarizeAdvancedBySenator order [a, b], s.avgPosPercent = 25) ∧
    (∃ s ∈ summarizeAdvancedBySenator order
        [{ senatorName := "A".toList, totalWords := 2, posWordCount := 1 },
         { senatorName := "A".toList, totalWords := 4, posWordCount := 0 }],
      s.name = "A".toList ∧ s.tweetCount = 2 ∧
      s.avgPosPercent = 25 ∧ s.avgPosPercent ≠ 100 * (1 + 0) / (2 + 4)) ∧
    summarizeAdvancedBySenator.percentages64
        [{ senatorName := "A".toList, totalWords := 2, posWordCount := 1 },
         { senatorName := "A".toList, totalWords := 4, posWordCount := 0 }] = (25, 0) := by
  have hmean : ∀ (l : List AdvancedTweetAnalysis),
      ∀ s ∈ summarizeAdvancedBySenator order l,
      s.avgPosPercent = groupMean posPercent (postsOf l s.name) ∧
      s.avgNegPercent = groupMean negPercent (postsOf l s.name) := by
    intro l s hs
    obtain ⟨heq, _⟩ := summary_of_mem order l s hs
    obtain ⟨_, _, _, _, h5, h6, _⟩ := summarize_fields s.name (postsOf l s.name)
    rw [← heq] at h5 h6
    exact ⟨h5, h6⟩
  have hall : ∀ a b : AdvancedTweetAnalysis, a.senatorName = b.senatorName →
      posPercent a = 50 → posPercent b = 0 →
      ∀ s ∈ summarizeAdvancedBySenator order [a, b], s.tweetCount = 2 ∧ s.avgPosPercent = 25 := by
    intro a b hab ha hb s hs
    obtain ⟨x, hx, hxs⟩ := (summary_of_mem order [a, b] s hs).2
    have hna : a.senatorName = s.name := by
      rcases List.mem_cons.mp hx with rfl | hx
      · exact hxs
      · rw [List.mem_singleton] at hx
        rw [hab, ← hx]
        exact hxs
    have hposts : postsOf [a, b] s.name = [a, b] := by
      unfold postsOf
      rw [List.filter_cons, if_pos (decide_eq_true hna), List.filter_cons,
        if_pos (decide_eq_true (hab ▸ hna)), List.filter_nil]
    have hcount : s.tweetCount = 2 := by
      have h2 := (summarize_fields s.name (postsOf [a, b] s.name)).2.1
      rw [← (summary_of_mem order [a, b] s hs).1, hposts] at h2
      exact h2
    refine ⟨hcount, ?_⟩
    rw [(hmean [a, b] s hs).1, hposts]
    unfold groupMean
    simp only [List.map_cons, List.map_nil, List.sum_cons, List.sum_nil, ha, hb,
      List.length_cons, List.length_nil]
    norm_num
  have htwo : ∀ a b : AdvancedTweetAnalysis, a.senatorName = b.senatorName →
      posPercent a = 50 → posPercent b = 0 →
      (∃ s ∈ summarizeAdvancedBySenator order [a, b],
        s.name = a.senatorName ∧ s.tweetCount = 2 ∧ s.avgPosPercent = 25) ∧
      ∀ s ∈ summarizeAdvancedBySenator order [a, b], s.avgPosPercent = 25 := by
    intro a b hab ha hb
    refine ⟨⟨_, summary_exists order [a, b] a (List.mem_cons_self _ _),
      (summarize_fields _ _).1, ?_⟩, fun s hs => (hall a b hab ha hb s hs).2⟩
    exact hall a b hab ha hb _ (summary_exists order [a, b] a (List.mem_cons_self _ _))
  refine ⟨?_, ?_, htwo, ?_,
    percentages64_half _ _ ⟨rfl, rfl, rfl⟩ ⟨rfl, rfl, rfl⟩⟩
  · intro a ha
    refine ⟨_, summary_exists order perTweet a ha, (summarize_fields _ _).1, ?_⟩
    obtain ⟨_, _, _, _, h5, h6, _⟩ :=
      summarize_fields a.senatorName (postsOf perTweet a.senatorName)
    exact ⟨h5, h6⟩
  · intro s hs
    refine ⟨?_, hmean perTweet s hs⟩
    obtain ⟨x, hx, hxs⟩ := (summary_of_mem order perTweet s hs).2
    intro hnil
    have hmem : x ∈ postsOf perTweet s.name := by
      unfold postsOf
      exact List.mem_filter.mpr ⟨hx, decide_eq_true hxs⟩
    rw [hnil] at hmem
    exact List.not_mem_nil _ hmem
  · obtain ⟨⟨s, hs, hname, hcount, h25⟩, _⟩ :=
      htwo { senatorName := "A".toList, totalWords := 2, posWordCount := 1 }
        { senatorName := "A".toList, totalWords := 4, posWordCount := 0 } rfl
        (by simp [posPercent]; norm_num) (by simp [posPercent])
    refine ⟨s, hs, hname, hcount, h25, ?_⟩
    rw [h25]
    norm_num

/-- The author `A` of the worked input, with the posts `1 of 2` positive and
`1 of 4` negative: the result holds the summary of `A`, with `avgPosPercent`
`(50 + 0) / 2 = 25` and `avgNegPercent` `(0 + 25) / 2 = 12.5`. -/
theorem avgPercent_is_mean_of_percentages_witness :
    ∃ s ∈ summarizeAdvancedBySenator IterationOrder.creation examplePosts,
      s.name = "A".toList ∧ s.avgPosPercent = 25 ∧ s.avgNegPercent = 12.5 := by
  obtain ⟨s, hs, hname, hpos, hneg⟩ :=
    (avgPercent_is_mean_of_percentages IterationOrder.creation examplePosts).1
      { tweetId := "1".toList, senatorName := "A".toList, totalWords := 2, posWordCount := 1,
        baseSentimentScore := 1, adjustedSentimentScore := 3, exclamationCount := 2,
        allCapsWordCount := 1 } (List.mem_cons_self _ _)
  refine ⟨s, hs, hname, ?_, ?_⟩
  · rw [hpos, example_postsOf]
    simp [groupMean, posPercent]
    norm_num
  · rw [hneg, example_postsOf]
    simp [groupMean, negPercent]
    norm_num

/-- C15: for every author group, `avgBaseSentiment` and `avgAdjustedSentiment`
are the sums of `baseSentimentScore` and of `adjustedSentimentScore` over the
posts of the group, divided by the number of posts of the group. -/
theorem avgSentiment_is_sum_over_count (order : IterationOrder)
    (perTweet : List AdvancedTweetAnalysis) (s : AdvancedSenatorSummary)
    (hs : s ∈ summarizeAdvancedBySenator order perTweet) :
    s.avgBaseSentiment =
      ((postsOf perTweet s.name).map (fun a => a.baseSentimentScore)).sum /
        ((postsOf perTweet s.name).length : ℚ) ∧
    s.avgAdjustedSentiment =
      ((postsOf perTweet s.name).map (fun a => a.adjustedSentimentScore)).sum /
        ((postsOf perTweet s.name).length : ℚ) := by
  obtain ⟨heq, _⟩ := summary_of_mem order perTweet s hs
  obtain ⟨_, _, h3, h4, _⟩ := summarize_fields s.name (postsOf perTweet s.name)
  rw [← heq] at h3 h4
  exact ⟨h3, h4⟩

/-- The author `A` of the worked input: base scores `1` and `2`, adjusted
scores `3` and `3`. -/
theorem avgSentiment_is_sum_over_count_witness :
    ∃ s ∈ summarizeAdvancedBySenator IterationOrder.creation examplePosts,
      s.name = "A".toList ∧ s.avgBaseSentiment = 3 / 2 ∧ s.avgAdjustedSentiment = 3 := by
  have hname := (summarize_fields "A".toList (postsOf examplePosts "A".toList)).1
  obtain ⟨h1, h2⟩ := avgSentiment_is_sum_over_count IterationOrder.creation examplePosts _
    (example_summary_mem IterationOrder.creation)
  rw [hname, example_postsOf] at h1 h2
  refine ⟨_, example_summary_mem IterationOrder.creation, hname, ?_, ?_⟩
  · rw [example_postsOf, h1]
    norm_num
  · rw [example_postsOf, h2]
    norm_num

/-- C16: for every author group, `avgStyleScore` is
`2.0 × (sum of exclamationCount / number of posts) +
1.5 × (sum of allCapsWordCount / number of posts)`, the sums being taken over
the raw counts of the posts of the group. -/
theorem avgStyleScore_formula (order : IterationOrder)
    (perTweet : List AdvancedTweetAnalysis) (s : AdvancedSenatorSummary)
    (hs : s ∈ summarizeAdvancedBySenator order perTweet) :
    s.avgStyleScore =
      2.0 * (((postsOf perTweet s.name).map (fun a => (a.exclamationCount : ℚ))).sum /
          ((postsOf perTweet s.name).length : ℚ)) +
        1.5 * (((postsOf perTweet s.name).map (fun a => (a.allCapsWordCount : ℚ))).sum /
          ((postsOf perTweet s.name).length : ℚ)) := by
  obtain ⟨heq, _⟩ := summary_of_mem order perTweet s hs
  obtain ⟨_, _, _, _, _, _, _, _, h9, _⟩ := summarize_fields s.name (postsOf perTweet s.name)
  rw [← heq] at h9
  rw [h9]
  unfold groupMean
  ring

/-- The author `A` of the worked input: `3` exclamation marks and `3` all-caps
words over `2` posts, so the style score is `2.0 × 1.5 + 1.5 × 1.5 = 5.25`. -/
theorem avgStyleScore_formula_witness :
    ∃ s ∈ summarizeAdvancedBySenator IterationOrder.creation examplePosts,
      s.name = "A".toList ∧ s.avgStyleScore = 5.25 := by
  have hname := (summarize_fields "A".toList (postsOf examplePosts "A".toList)).1
  have h := avgStyleScore_formula IterationOrder.creation examplePosts _
    (example_summary_mem IterationOrder.creation)
  rw [hname, example_postsOf] at h
  refine ⟨_, example_summary_mem IterationOrder.creation, hname, ?_⟩
  rw [example_postsOf, h]
  norm_num

/-! ## The most positive and the most negative post of a group -/

theorem scanMax_of_le (v : List AdvancedTweetAnalysis) :
    ∀ (init : ℚ × AdvancedTweetAnalysis),
      (∀ a ∈ v, a.adjustedSentimentScore ≤ init.1) → scanMax v init = init := by
  induction v with
  | nil => intro init _; rfl
  | cons a v ih =>
    intro init h
    have ha : ¬ a.adjustedSentimentScore > init.1 :=
      not_lt.mpr (h a (List.mem_cons_self _ _))
    unfold scanMax
    rw [List.foldl_cons, if_neg ha]
    exact ih init (fun x hx => h x (List.mem_cons_of_mem _ hx))

/-- The scan of a group in which some score is above the initial value of
`maxAdjusted`: the post that is kept belongs to the group, has the greatest
score of the group, and is the first post of the group with that score. -/
theorem scanMax_spec (v : List AdvancedTweetAnalysis) :
    ∀ (init : ℚ × AdvancedTweetAnalysis),
      (∃ a ∈ v, a.adjustedSentimentScore > init.1) →
      (scanMax v init).2 ∈ v ∧
      (scanMax v init).1 = (scanMax v init).2.adjustedSentimentScore ∧
      (∀ a ∈ v, a.adjustedSentimentScore ≤ (scanMax v init).2.adjustedSentimentScore) ∧
      ∃ pre post, v = pre ++ (scanMax v init).2 :: post ∧
        ∀ a ∈ pre, a.adjustedSentimentScore < (scanMax v init).2.adjustedSentimentScore := by
  induction v with
  | nil =>
    rintro init ⟨a, ha, _⟩
    exact absurd ha (List.not_mem_nil _)
  | cons a v ih =>
    intro init hex
    have hstep : scanMax (a :: v) init =
        scanMax v (if a.adjustedSentimentScore > init.1 then (a.adjustedSentimentScore, a)
          else init) := by
      unfold scanMax
      rw [List.foldl_cons]
    rw [hstep]
    by_cases ha : a.adjustedSentimentScore > init.1
    · rw [if_pos ha]
      by_cases hv : ∃ x ∈ v, x.adjustedSentimentScore > a.adjustedSentimentScore
      · obtain ⟨h1, h2, h3, pre, post, h4, h5⟩ := ih (a.adjustedSentimentScore, a) hv
        obtain ⟨x, hx, hxa⟩ := hv
        have hlt : a.adjustedSentimentScore <
            (scanMax v (a.adjustedSentimentScore, a)).2.adjustedSentimentScore :=
          lt_of_lt_of_le hxa (h3 x hx)
        refine ⟨List.mem_cons_of_mem _ h1, h2, ?_, a :: pre, post, ?_, ?_⟩
        · intro y hy
          rcases List.mem_cons.mp hy with rfl | hy
          · exact le_of_lt hlt
          · exact h3 y hy
        · rw [List.cons_append, ← h4]
        · intro y hy
          rcases List.mem_cons.mp hy with rfl | hy
          · exact hlt
          · exact h5 y hy
      · have hall : ∀ x ∈ v, x.adjustedSentimentScore ≤ a.adjustedSentimentScore := by
          intro x hx
          by_contra hcon
          exact hv ⟨x, hx, not_le.mp hcon⟩
        rw [scanMax_of_le v (a.adjustedSentimentScore, a) hall]
        refine ⟨List.mem_cons_self _ _, rfl, ?_, [], v, rfl, ?_⟩
        · intro y hy
          rcases List.mem_cons.mp hy with rfl | hy
          · exact le_refl _
          · exact hall y hy
        · intro y hy
          exact absurd hy (List.not_mem_nil _)
    · rw [if_neg ha]
      have hv : ∃ x ∈ v, x.adjustedSentimentScore > init.1 := by
        obtain ⟨x, hx, hxi⟩ := hex
        rcases List.mem_cons.mp hx with rfl | hx
        · exact absurd hxi ha
        · exact ⟨x, hx, hxi⟩
      obtain ⟨h1, h2, h3, pre, post, h4, h5⟩ := ih init hv
      obtain ⟨x, hx, hxi⟩ := hv
      have hlt : a.adjustedSentimentScore < (scanMax v init).2.adjustedSentimentScore :=
        lt_of_le_of_lt (not_lt.mp ha) (lt_of_lt_of_le hxi (h3 x hx))
      refine ⟨List.mem_cons_of_mem _ h1, h2, ?_, a :: pre, post, ?_, ?_⟩
      · intro y hy
        rcases List.mem_cons.mp hy with rfl | hy
        · exact le_of_lt hlt
        · exact h3 y hy
      · rw [List.cons_append, ← h4]
      · intro y hy
        rcases List.mem_cons.mp hy with rfl | hy
        · exact hlt
        · exact h5 y hy

theorem scanMin_of_ge (v : List AdvancedTweetAnalysis) :
    ∀ (init : ℚ × AdvancedTweetAnalysis),
      (∀ a ∈ v, init.1 ≤ a.adjustedSentimentScore) → scanMin v init = init := by
  induction v with
  | nil => intro init _; rfl
  | cons a v ih =>
    intro init h
    have ha : ¬ a.adjustedSentimentScore < init.1 :=
      not_lt.mpr (h a (List.mem_cons_self _ _))
    unfold scanMin
    rw [List.foldl_cons, if_neg ha]
    exact ih init (fun x hx => h x (List.mem_cons_of_mem _ hx))

/-- The scan of a group in which some score is below the initial value of
`minAdjusted`: the post that is kept belongs to the group, has the least score
of the group, and is the first post of the group with that score. -/
theorem scanMin_spec (v : List AdvancedTweetAnalysis) :
    ∀ (init : ℚ × AdvancedTweetAnalysis),
      (∃ a ∈ v, a.adjustedSentimentScore < init.1) →
      (scanMin v init).2 ∈ v ∧
      (scanMin v init).1 = (scanMin v init).2.adjustedSentimentScore ∧
      (∀ a ∈ v, (scanMin v init).2.adjustedSentimentScore ≤ a.adjustedSentimentScore) ∧
      ∃ pre post, v = pre ++ (scanMin v init).2 :: post ∧
        ∀ a ∈ pre, (scanMin v init).2.adjustedSentimentScore < a.adjustedSentimentScore := by
  induction v with
  | nil =>
    rintro init ⟨a, ha, _⟩
    exact absurd ha (List.not_mem_nil _)
  | cons a v ih =>
    intro init hex
    have hstep : scanMin (a :: v) init =
        scanMin v (if a.adjustedSentimentScore < init.1 then (a.adjustedSentimentScore, a)
          else init) := by
      unfold scanMin
      rw [List.foldl_cons]
    rw [hstep]
    by_cases ha : a.adjustedSentimentScore < init.1
    · rw [if_pos ha]
      by_cases hv : ∃ x ∈ v, x.adjustedSentimentScore < a.adjustedSentimentScore
      · obtain ⟨h1, h2, h3, pre, post, h4, h5⟩ := ih (a.adjustedSentimentScore, a) hv
        obtain ⟨x, hx, hxa⟩ := hv
        have hlt : (scanMin v (a.adjustedSentimentScore, a)).2.adjustedSentimentScore <
            a.adjustedSentimentScore :=
          lt_of_le_of_lt (h3 x hx) hxa
        refine ⟨List.mem_cons_of_mem _ h1, h2, ?_, a :: pre, post, ?_, ?_⟩
        · intro y hy
          rcases List.mem_cons.mp hy with rfl | hy
          · exact le_of_lt hlt
          · exact h3 y hy
        · rw [List.cons_append, ← h4]
        · intro y hy
          rcases List.mem_cons.mp hy with rfl | hy
          · exact hlt
          · exact h5 y hy
      · have hall : ∀ x ∈ v, a.adjustedSentimentScore ≤ x.adjustedSentimentScore := by
          intro x hx
          by_contra hcon
          exact hv ⟨x, hx, not_le.mp hcon⟩
        rw [scanMin_of_ge v (a.adjustedSentimentScore, a) hall]
        refine ⟨List.mem_cons_self _ _, rfl, ?_, [], v, rfl, ?_⟩
        · intro y hy
          rcases List.mem_cons.mp hy with rfl | hy
          · exact le_refl _
          · exact hall y hy
        · intro y hy
          exact absurd hy (List.not_mem_nil _)
    · rw [if_neg ha]
      have hv : ∃ x ∈ v, x.adjustedSentimentScore < init.1 := by
        obtain ⟨x, hx, hxi⟩ := hex
        rcases List.mem_cons.mp hx with rfl | hx
        · exact absurd hxi ha
        · exact ⟨x, hx, hxi⟩
      obtain ⟨h1, h2, h3, pre, post, h4, h5⟩ := ih init hv
      obtain ⟨x, hx, hxi⟩ := hv
      have hlt : (scanMin v init).2.adjustedSentimentScore < a.adjustedSentimentScore :=
        lt_of_lt_of_le (lt_of_le_of_lt (h3 x hx) hxi) (not_lt.mp ha)
      refine ⟨List.mem_cons_of_mem _ h1, h2, ?_, a :: pre, post, ?_, ?_⟩
      · intro y hy
        rcases List.mem_cons.mp hy with rfl | hy
        · exact le_of_lt hlt
        · exact h3 y hy
      · rw [List.cons_append, ← h4]
      · intro y hy
        rcases List.mem_cons.mp hy with rfl | hy
        · exact hlt
        · exact h5 y hy

/-- The most positive post of a summary when some score of the group is above
`-1e9`: a post of the group, of greatest score, the first one with that score
in the input order. -/
theorem mostPositiveTweet_in_range (order : IterationOrder)
    (perTweet : List AdvancedTweetAnalysis) (s : AdvancedSenatorSummary)
    (hs : s ∈ summarizeAdvancedBySenator order perTweet)
    (hex : ∃ a ∈ postsOf perTweet s.name, a.adjustedSentimentScore > -1e9) :
    s.mostPositiveTweet ∈ postsOf perTweet s.name ∧
    (∀ a ∈ postsOf perTweet s.name,
      a.adjustedSentimentScore ≤ s.mostPositiveTweet.adjustedSentimentScore) ∧
    ∃ pre post, postsOf perTweet s.name = pre ++ s.mostPositiveTweet :: post ∧
      ∀ a ∈ pre, a.adjustedSentimentScore < s.mostPositiveTweet.adjustedSentimentScore := by
  obtain ⟨heq, _⟩ := summary_of_mem order perTweet s hs
  have h10 := (summarize_fields s.name (postsOf perTweet s.name)).2.2.2.2.2.2.2.2.2.1
  rw [← heq] at h10
  obtain ⟨h1, _, h3, h4⟩ := scanMax_spec (postsOf perTweet s.name) (-1e9, {}) hex
  rw [h10]
  exact ⟨h1, h3, h4⟩

/-- The most negative post of a summary when some score of the group is below
`1e9`: a post of the group, of least score, the first one with that score in
the input order. -/
theorem mostNegativeTweet_in_range (order : IterationOrder)
    (perTweet : List AdvancedTweetAnalysis) (s : AdvancedSenatorSummary)
    (hs : s ∈ summarizeAdvancedBySenator order perTweet)
    (hex : ∃ a ∈ postsOf perTweet s.name, a.adjustedSentimentScore < 1e9) :
    s.mostNegativeTweet ∈ postsOf perTweet s.name ∧
    (∀ a ∈ postsOf perTweet s.name,
      s.mostNegativeTweet.adjustedSentimentScore ≤ a.adjustedSentimentScore) ∧
    ∃ pre post, postsOf perTweet s.name = pre ++ s.mostNegativeTweet :: post ∧
      ∀ a ∈ pre, s.mostNegativeTweet.adjustedSentimentScore < a.adjustedSentimentScore := by
  obtain ⟨heq, _⟩ := summary_of_mem order perTweet s hs
  have h11 := (summarize_fields s.name (postsOf perTweet s.name)).2.2.2.2.2.2.2.2.2.2
  rw [← heq] at h11
  obtain ⟨h1, _, h3, h4⟩ := scanMin_spec (postsOf perTweet s.name) (1e9, {}) hex
  rw [h11]
  exact ⟨h1, h3, h4⟩

/-- The summaries of an input whose posts all have the same name: one summary,
the one of the whole input. -/
theorem summarize_single_group (order : IterationOrder) (a : AdvancedTweetAnalysis)
    (l : List AdvancedTweetAnalysis) (hl : ∀ x ∈ l, x.senatorName = a.senatorName) :
    summarizeAdvancedBySenator order (a :: l) =
      [summarizeAdvancedBySenator.summarize (a.senatorName, a :: l)] := by
  have hgroup : ∀ (l' : List AdvancedTweetAnalysis) (v : List AdvancedTweetAnalysis),
      (∀ x ∈ l', x.senatorName = a.senatorName) →
      l'.foldl (fun (bySenator : GroupMap) analysis =>
        bySenator.pushBack analysis.senatorName analysis) [(a.senatorName, v)] =
        [(a.senatorName, v ++ l')] := by
    intro l'
    induction l' with
    | nil => intro v _; simp
    | cons x l' ih =>
      intro v h
      have hx : a.senatorName = x.senatorName := (h x (List.mem_cons_self _ _)).symm
      rw [List.foldl_cons]
      have hpush : GroupMap.pushBack [(a.senatorName, v)] x.senatorName x =
          [(a.senatorName, v ++ [x])] := by
        unfold GroupMap.pushBack
        rw [if_pos hx]
      rw [hpush, ih (v ++ [x]) (fun y hy => h y (List.mem_cons_of_mem _ hy))]
      simp
  have hg : summarizeAdvancedBySenator.group (a :: l) = [(a.senatorName, a :: l)] := by
    unfold summarizeAdvancedBySenator.group
    rw [List.foldl_cons]
    have h0 : GroupMap.pushBack [] a.senatorName a = [(a.senatorName, [a])] := rfl
    rw [h0, hgroup l [a] hl]
    rfl
  unfold summarizeAdvancedBySenator
  have hperm := order.perm (summarizeAdvancedBySenator.group (a :: l))
  rw [hg] at hperm ⊢
  simp only []
  rw [List.perm_singleton.mp hperm]
  rfl

/-- C13 at a failing input: the group of the single post `lowPost`, of score
`-2e9`. Its most positive post is the default analysis left by the
initialisation, which is not a post of the group. -/
theorem mostPositiveTweet_below_sentinel (order : IterationOrder) :
    (summarizeAdvancedBySenator order [lowPost]).map
      (fun s => (s.name, s.tweetCount, s.mostPositiveTweet)) = [("A".toList, 1, {})] ∧
    ({} : AdvancedTweetAnalysis) ∉ [lowPost] := by
  constructor
  · rw [summarize_single_group order lowPost [] (fun x hx => absurd hx (List.not_mem_nil _))]
    obtain ⟨h1, h2, _, _, _, _, _, _, _, h10, _⟩ :=
      summarize_fields lowPost.senatorName [lowPost]
    rw [List.map_cons, List.map_nil, h1, h2, h10,
      scanMax_of_le [lowPost] (-1e9, {}) (by
        intro a ha
        rw [List.mem_singleton] at ha
        rw [ha]
        simp only [lowPost]
        norm_num)]
    rfl
  · intro h
    rw [List.mem_singleton] at h
    have := congrArg (fun a => a.tweetId) h
    exact absurd this (by decide)

/-- C14 at a failing input: the group of the two posts of `lowPosts`, which
share the maximal score `-2e9`. Its most positive post is the default analysis
left by the initialisation, not the first post of the group. -/
theorem mostPositiveTweet_tie_below_sentinel (order : IterationOrder) :
    (summarizeAdvancedBySenator order lowPosts).map
      (fun s => (s.name, s.tweetCount, s.mostPositiveTweet)) = [("A".toList, 2, {})] ∧
    lowPosts.map (fun a => a.adjustedSentimentScore) = [-2e9, -2e9] ∧
    lowPosts.head? ≠ some {} := by
  refine ⟨?_, rfl, ?_⟩
  · have hsingle := summarize_single_group order
      { tweetId := "1".toList, senatorName := "A".toList, adjustedSentimentScore := -2e9 }
      [{ tweetId := "2".toList, senatorName := "A".toList, adjustedSentimentScore := -2e9 }]
      (by
        intro x hx
        rw [List.mem_singleton] at hx
        rw [hx])
    obtain ⟨h1, h2, _, _, _, _, _, _, _, h10, _⟩ := summarize_fields "A".toList lowPosts
    unfold lowPosts at h1 h2 h10 ⊢
    rw [hsingle, List.map_cons, List.map_nil, h1, h2, h10,
      scanMax_of_le _ (-1e9, {}) (by
        intro a ha
        simp only [List.mem_cons, List.mem_singleton, List.not_mem_nil, or_false] at ha
        rcases ha with rfl | rfl <;> norm_num)]
    rfl
  · intro h
    have := congrArg (Option.map (fun a => a.tweetId)) h
    exact absurd this (by decide)

/-! ## Posts without words, and the reads of the token loop -/

theorem ruleStep_empty (wordPolarity : StrMap)
    (negationWords intensifiers downtoners : StrSet) (ngramPolarity : StrMap)
    (positiveEmojisSlang negativeEmojisSlang : StrSet)
    (rawTokens normalizedTokens : List CString) (analysis : AdvancedTweetAnalysis) (i : Nat)
    (h : normalizedTokens.getD i [] = []) :
    ruleStep wordPolarity negationWords intensifiers downtoners ngramPolarity
      positiveEmojisSlang negativeEmojisSlang rawTokens normalizedTokens analysis i =
      analysis := by
  unfold ruleStep
  simp only [h, if_true]

theorem getD_of_all_empty (l : List CString) (h : ∀ x ∈ l, x = []) (i : Nat) :
    l.getD i [] = [] := by
  rw [List.getD_eq_getElem?_getD]
  cases hx : l[i]? with
  | none => rfl
  | some x =>
    obtain ⟨hi, hxi⟩ := List.getElem?_eq_some_iff.mp hx
    exact h x (hxi ▸ List.getElem_mem hi)

theorem foldl_ruleStep_of_all_empty (wordPolarity : StrMap)
    (negationWords intensifiers downtoners : StrSet) (ngramPolarity : StrMap)
    (positiveEmojisSlang negativeEmojisSlang : StrSet)
    (rawTokens normalizedTokens : List CString) (h : ∀ x ∈ normalizedTokens, x = [])
    (analysis : AdvancedTweetAnalysis) (indices : List Nat) :
    indices.foldl
      (ruleStep wordPolarity negationWords intensifiers downtoners ngramPolarity
        positiveEmojisSlang negativeEmojisSlang rawTokens normalizedTokens) analysis =
      analysis := by
  induction indices with
  | nil => rfl
  | cons i rest ih =>
    rw [List.foldl_cons, ruleStep_empty _ _ _ _ _ _ _ _ _ _ _ (getD_of_all_empty _ h i)]
    exact ih

/-- C17: for a post none of whose tokens has a non-empty normalized form,
`analyzeTweetAdvanced` returns an analysis (no error) whose word counters,
marker hits, emoji counters and phrase hits are all `0` and whose two scores
are `0`, whatever the number of `!` characters of the text. -/
theorem wordless_post_is_all_zero (stem : CString → CString) (tweet : Tweet)
    (wordPolarity : StrMap) (negationWords intensifiers downtoners : StrSet)
    (ngramPolarity : StrMap) (positiveEmojisSlang negativeEmojisSlang : StrSet)
    (hempty : ∀ w ∈ tokenize tweet.text, normalizeWord stem w = []) :
    ∃ analysis,
      analyzeTweetAdvanced stem tweet wordPolarity negationWords intensifiers downtoners
        ngramPolarity positiveEmojisSlang negativeEmojisSlang = some analysis ∧
      analysis.totalWords = 0 ∧ analysis.posWordCount = 0 ∧ analysis.negWordCount = 0 ∧
      analysis.neutralWordCount = 0 ∧ analysis.negationHits = 0 ∧
      analysis.intensifierHits = 0 ∧ analysis.downtonerHits = 0 ∧
      analysis.emojiPositiveCount = 0 ∧ analysis.emojiNegativeCount = 0 ∧
      analysis.ngramPositiveHits = 0 ∧ analysis.ngramNegativeHits = 0 ∧
      analysis.baseSentimentScore = 0 ∧ analysis.adjustedSentimentScore = 0 := by
  have hall : ∀ x ∈ (tokenize tweet.text).map (normalizeWord stem), x = [] := by
    intro x hx
    obtain ⟨w, hw, hwx⟩ := List.mem_map.mp hx
    rw [← hwx]
    exact hempty w hw
  refine ⟨_, analyzeTweetAdvanced_eq stem tweet wordPolarity negationWords intensifiers
    downtoners ngramPolarity positiveEmojisSlang negativeEmojisSlang, ?_⟩
  rw [foldl_ruleStep_of_all_empty _ _ _ _ _ _ _ _ _ hall, prepare_eq]
  unfold analyzeTweetAdvanced.emphasis
  by_cases hc : List.count '!' tweet.text > 0
  · simp [hc]
  · simp [hc]

/-- A post of punctuation only, with four `!` characters. -/
theorem wordless_post_is_all_zero_witness :
    ∃ analysis,
      analyzeTweetAdvanced id ⟨[], [], [], [], "!!! ... ?! --".toList⟩
        (buildWordPolarityMap id [] []) (buildNegationWords id) (buildIntensifiers id)
        (buildDowntoners id) buildNgramPolarity [] [] = some analysis ∧
      analysis.totalWords = 0 ∧ analysis.neutralWordCount = 0 ∧
      analysis.baseSentimentScore = 0 ∧ analysis.adjustedSentimentScore = 0 := by
  obtain ⟨analysis, h, h1, _, _, h4, _, _, _, _, _, _, _, h12, h13⟩ :=
    wordless_post_is_all_zero id ⟨[], [], [], [], "!!! ... ?! --".toList⟩
      (buildWordPolarityMap id [] []) (buildNegationWords id) (buildIntensifiers id)
      (buildDowntoners id) buildNgramPolarity [] [] (by decide)
  exact ⟨analysis, h, h1, h4, h12, h13⟩

theorem trigramStep_isSome (ngramPolarity : StrMap) (normalizedTokens : List CString)
    (i : Nat) (analysis : AdvancedTweetAnalysis) :
    (analyzeTweetAdvanced.trigramStep ngramPolarity normalizedTokens i analysis).isSome =
      true := by
  unfold analyzeTweetAdvanced.trigramStep
  by_cases h2 : i + 2 < normalizedTokens.length
  · rw [if_pos h2, getElem?_eq_some_getD normalizedTokens i (by omega),
      getElem?_eq_some_getD normalizedTokens (i + 1) (by omega),
      getElem?_eq_some_getD normalizedTokens (i + 2) h2]
    simp only [ngramHit_eq]
    rfl
  · rw [if_neg h2]
    rfl

theorem bigramStep_isSome (ngramPolarity : StrMap) (normalizedTokens : List CString)
    (i : Nat) (inNgram : Bool) (analysis : AdvancedTweetAnalysis) :
    (analyzeTweetAdvanced.bigramStep ngramPolarity normalizedTokens i inNgram
      analysis).isSome = true := by
  unfold analyzeTweetAdvanced.bigramStep
  by_cases h : inNgram = false ∧ i + 1 < normalizedTokens.length
  · rw [if_pos h, getElem?_eq_some_getD normalizedTokens i (by omega),
      getElem?_eq_some_getD normalizedTokens (i + 1) h.2]
    simp only [ngramHit_eq]
    rfl
  · rw [if_neg h]
    rfl

theorem readBack_isSome (normalizedTokens : List CString) (i : Nat) (j : Int)
    (hi : i < normalizedTokens.length) (hj : 1 ≤ j) (hguard : (i : Int) - j ≥ 0) :
    analyzeTweetAdvanced.readBack normalizedTokens i j =
      some (normalizedTokens.getD ((i : Int) - j).toNat []) := by
  unfold analyzeTweetAdvanced.readBack
  rw [if_neg (by omega), getElem?_eq_some_getD normalizedTokens _ (by omega)]

/-- C18: for every post and all lexicons, no read of `analyzeTweetAdvanced` is
out of bounds and no map is read at a missing key: the analysis returns a
result, the two token lists have the same size, and at every index `i` of the
token list the body of the loop, the trigram block, the bigram block, the
look-back loop and the polarity block return a result from any state. The reads
themselves: `rawTokens[i]` and `normalizedTokens[i]` are in bounds, the
look-ahead reads at `i + 1` and `i + 2` are in bounds under the conditions
`i + 1 < size` and `i + 2 < size` of their blocks, and the look-back read at
`i - j` is in bounds under the loop condition `(int)i - j >= 0`, which is what
keeps it there: without it the index is out of bounds. -/
theorem analysis_reads_are_in_bounds (stem : CString → CString) (tweet : Tweet)
    (wordPolarity : StrMap) (negationWords intensifiers downtoners : StrSet)
    (ngramPolarity : StrMap) (positiveEmojisSlang negativeEmojisSlang : StrSet) :
    (analyzeTweetAdvanced stem tweet wordPolarity negationWords intensifiers downtoners
      ngramPolarity positiveEmojisSlang negativeEmojisSlang).isSome = true ∧
    (analyzeTweetAdvanced.prepare stem tweet).rawTokens.length =
      (analyzeTweetAdvanced.prepare stem tweet).normalizedTokens.length ∧
    ∀ (i : Nat) (analysis : AdvancedTweetAnalysis),
      i < (analyzeTweetAdvanced.prepare stem tweet).normalizedTokens.length →
      (analyzeTweetAdvanced.processToken wordPolarity negationWords intensifiers downtoners
        ngramPolarity positiveEmojisSlang negativeEmojisSlang
        (analyzeTweetAdvanced.prepare stem tweet).rawTokens
        (analyzeTweetAdvanced.prepare stem tweet).normalizedTokens analysis i).isSome = true ∧
      (analyzeTweetAdvanced.trigramStep ngramPolarity
        (analyzeTweetAdvanced.prepare stem tweet).normalizedTokens i analysis).isSome = true ∧
      (∀ inNgram, (analyzeTweetAdvanced.bigramStep ngramPolarity
        (analyzeTweetAdvanced.prepare stem tweet).normalizedTokens i inNgram
        analysis).isSome = true) ∧
      (analyzeTweetAdvanced.lookBack negationWords intensifiers downtoners
        (analyzeTweetAdvanced.prepare stem tweet).normalizedTokens i 2 1 {}).isSome = true ∧
      (∀ token, (analyzeTweetAdvanced.sentimentWord wordPolarity negationWords intensifiers
        downtoners (analyzeTweetAdvanced.prepare stem tweet).normalizedTokens i token
        analysis).isSome = true) ∧
      ((analyzeTweetAdvanced.prepare stem tweet).rawTokens[i]?).isSome = true ∧
      ((analyzeTweetAdvanced.prepare stem tweet).normalizedTokens[i]?).isSome = true ∧
      (i + 1 < (analyzeTweetAdvanced.prepare stem tweet).normalizedTokens.length →
        ((analyzeTweetAdvanced.prepare stem tweet).normalizedTokens[i + 1]?).isSome = true) ∧
      (i + 2 < (analyzeTweetAdvanced.prepare stem tweet).normalizedTokens.length →
        ((analyzeTweetAdvanced.prepare stem tweet).normalizedTokens[i + 2]?).isSome = true) ∧
      (∀ j : Int, 1 ≤ j → (i : Int) - j ≥ 0 →
        (analyzeTweetAdvanced.readBack
          (analyzeTweetAdvanced.prepare stem tweet).normalizedTokens i j).isSome = true) ∧
      (∀ j : Int, (i : Int) - j < 0 →
        analyzeTweetAdvanced.readBack
          (analyzeTweetAdvanced.prepare stem tweet).normalizedTokens i j = none) := by
  have hlen : (analyzeTweetAdvanced.prepare stem tweet).rawTokens.length =
      (analyzeTweetAdvanced.prepare stem tweet).normalizedTokens.length := by
    simp [prepare_eq]
  refine ⟨?_, hlen, ?_⟩
  · rw [analyzeTweetAdvanced_eq]
    rfl
  · intro i analysis hi
    refine ⟨?_, trigramStep_isSome _ _ _ _, fun b => bigramStep_isSome _ _ _ b _, ?_, ?_,
      ?_, ?_, ?_, ?_, ?_, ?_⟩
    · rw [processToken_eq _ _ _ _ _ _ _ _ _ _ _ hi (by omega)]
      rfl
    · rw [lookBack_eq _ _ _ _ _ hi]
      rfl
    · intro token
      rw [sentimentWord_eq _ _ _ _ _ _ hi]
      rfl
    · rw [getElem?_eq_some_getD _ i (by omega)]
      rfl
    · rw [getElem?_eq_some_getD _ i hi]
      rfl
    · intro h1
      rw [getElem?_eq_some_getD _ (i + 1) h1]
      rfl
    · intro h2
      rw [getElem?_eq_some_getD _ (i + 2) h2]
      rfl
    · intro j hj hguard
      rw [readBack_isSome _ i j hi hj hguard]
      rfl
    · intro j hneg
      unfold analyzeTweetAdvanced.readBack
      rw [if_pos hneg]

/-- The post `not good`: the analysis returns a result; at the token `good`
(index `1`) the look-back loop returns a result and its read at `i - 1` is in
bounds, while at the token `not` (index `0`) a read at `i - 1` is out of
bounds, which the loop condition excludes. -/
theorem analysis_reads_are_in_bounds_witness :
    (analyzeTweetAdvanced id ⟨[], [], [], [], "not good".toList⟩
      (buildWordPolarityMap id ["good".toList] ["bad".toList]) (buildNegationWords id)
      (buildIntensifiers id) (buildDowntoners id) buildNgramPolarity
      buildPositiveEmojisSlang buildNegativeEmojisSlang).isSome = true ∧
    (analyzeTweetAdvanced.lookBack (buildNegationWords id) (buildIntensifiers id)
      (buildDowntoners id)
      (analyzeTweetAdvanced.prepare id ⟨[], [], [], [], "not good".toList⟩).normalizedTokens
      1 2 1 {}).isSome = true ∧
    (analyzeTweetAdvanced.readBack
      (analyzeTweetAdvanced.prepare id ⟨[], [], [], [], "not good".toList⟩).normalizedTokens
      1 1).isSome = true ∧
    analyzeTweetAdvanced.readBack
      (analyzeTweetAdvanced.prepare id ⟨[], [], [], [], "not good".toList⟩).normalizedTokens
      0 1 = none := by
  obtain ⟨h1, _, h3⟩ := analysis_reads_are_in_bounds id ⟨[], [], [], [], "not good".toList⟩
    (buildWordPolarityMap id ["good".toList] ["bad".toList]) (buildNegationWords id)
    (buildIntensifiers id) (buildDowntoners id) buildNgramPolarity
    buildPositiveEmojisSlang buildNegativeEmojisSlang
  obtain ⟨_, _, _, hlook, _, _, _, _, _, hback, _⟩ := h3 1 {} (by decide)
  obtain ⟨_, _, _, _, _, _, _, _, _, _, hout⟩ := h3 0 {} (by decide)
  exact ⟨h1, hlook, hback 1 (by decide) (by decide), hout 1 (by decide)⟩

/-! ## The order of the rules -/

theorem getD_of_getElem? (l : List CString) (i : Nat) (x : CString) (h : l[i]? = some x) :
    l.getD i [] = x := by
  rw [List.getD_eq_getElem?_getD, h]
  rfl

theorem lt_length_of_getElem? (l : List CString) (i : Nat) (x : CString)
    (h : l[i]? = some x) : i < l.length :=
  (List.getElem?_eq_some_iff.mp h).1

theorem phraseWeight_of_trigram (ngramPolarity : StrMap) (normalizedTokens : List CString)
    (i : Nat) (t0 t1 t2 : CString) (w : ℚ)
    (h0 : normalizedTokens[i]? = some t0) (h1 : normalizedTokens[i + 1]? = some t1)
    (h2 : normalizedTokens[i + 2]? = some t2)
    (hkey : ngramPolarity.at (t0 ++ " ".toList ++ t1 ++ " ".toList ++ t2) = some w) :
    phraseWeight ngramPolarity normalizedTokens i = some w := by
  unfold phraseWeight
  simp only [getD_of_getElem? _ _ _ h0, getD_of_getElem? _ _ _ h1, getD_of_getElem? _ _ _ h2,
    if_pos (lt_length_of_getElem? _ _ _ h2), hkey]

/-- C20: at an index `i` whose token reaches the phrase rules (non-empty, not
an emoji or slang entry), when the tokens `i, i+1, i+2` exist and their
space-joined normalized forms are a key of the phrase map of weight `w`, the
step adds `w`, and nothing else, to the adjusted score and increments exactly
one of `ngramPositiveHits` (when `w > 0`) and `ngramNegativeHits` (otherwise),
whatever the phrase map holds for the bigram of the tokens `i, i+1`: the bigram
block does nothing once the trigram has matched. -/
theorem trigram_match_takes_priority (wordPolarity : StrMap)
    (negationWords intensifiers downtoners : StrSet) (ngramPolarity : StrMap)
    (positiveEmojisSlang negativeEmojisSlang : StrSet)
    (rawTokens normalizedTokens : List CString) (analysis : AdvancedTweetAnalysis) (i : Nat)
    (rawToken t0 t1 t2 : CString) (w : ℚ)
    (hraw : rawTokens[i]? = some rawToken) (h0 : normalizedTokens[i]? = some t0)
    (h1 : normalizedTokens[i + 1]? = some t1) (h2 : normalizedTokens[i + 2]? = some t2)
    (hne : t0 ≠ [])
    (hpos : positiveEmojisSlang.count (toLowerStr rawToken) = false)
    (hneg : negativeEmojisSlang.count (toLowerStr rawToken) = false)
    (hkey : ngramPolarity.at (t0 ++ " ".toList ++ t1 ++ " ".toList ++ t2) = some w) :
    ∃ result,
      analyzeTweetAdvanced.processToken wordPolarity negationWords intensifiers downtoners
        ngramPolarity positiveEmojisSlang negativeEmojisSlang rawTokens normalizedTokens
        analysis i = some result ∧
      result.adjustedSentimentScore = analysis.adjustedSentimentScore + w ∧
      (w > 0 → result.ngramPositiveHits = analysis.ngramPositiveHits + 1 ∧
        result.ngramNegativeHits = analysis.ngramNegativeHits) ∧
      (¬ w > 0 → result.ngramNegativeHits = analysis.ngramNegativeHits + 1 ∧
        result.ngramPositiveHits = analysis.ngramPositiveHits) ∧
      result.totalWords = analysis.totalWords + 1 ∧
      result.baseSentimentScore = analysis.baseSentimentScore ∧
      result.posWordCount = analysis.posWordCount ∧
      result.negWordCount = analysis.negWordCount ∧
      result.neutralWordCount = analysis.neutralWordCount ∧
      result.negationHits = analysis.negationHits ∧
      result.intensifierHits = analysis.intensifierHits ∧
      result.downtonerHits = analysis.downtonerHits ∧
      (∀ hit : AdvancedTweetAnalysis,
        analyzeTweetAdvanced.trigramStep ngramPolarity normalizedTokens i hit =
          some (ngramUpdate hit w, true) ∧
        analyzeTweetAdvanced.bigramStep ngramPolarity normalizedTokens i true hit =
          some (hit, true)) := by
  have hi := lt_length_of_getElem? _ _ _ h0
  have hir := lt_length_of_getElem? _ _ _ hraw
  have htok := getD_of_getElem? _ _ _ h0
  have hrw := getD_of_getElem? _ _ _ hraw
  have hpw := phraseWeight_of_trigram ngramPolarity normalizedTokens i t0 t1 t2 w h0 h1 h2 hkey
  have hstep : ruleStep wordPolarity negationWords intensifiers downtoners ngramPolarity
      positiveEmojisSlang negativeEmojisSlang rawTokens normalizedTokens analysis i =
      ngramUpdate { analysis with totalWords := analysis.totalWords + 1 } w := by
    unfold ruleStep
    simp only [htok, hrw, if_neg hne, hpos, hneg, hpw]
    simp
  refine ⟨_, processToken_eq wordPolarity negationWords intensifiers downtoners ngramPolarity
    positiveEmojisSlang negativeEmojisSlang rawTokens normalizedTokens analysis i hi hir, ?_⟩
  rw [hstep]
  unfold ngramUpdate
  refine ⟨?_, ?_, ?_, ?_, ?_, ?_, ?_, ?_, ?_, ?_, ?_, ?_⟩
  · by_cases hw : w > 0 <;> simp [hw]
  · intro hw
    simp [hw]
  · intro hw
    simp [hw]
  · by_cases hw : w > 0 <;> simp [hw]
  · by_cases hw : w > 0 <;> simp [hw]
  · by_cases hw : w > 0 <;> simp [hw]
  · by_cases hw : w > 0 <;> simp [hw]
  · by_cases hw : w > 0 <;> simp [hw]
  · by_cases hw : w > 0 <;> simp [hw]
  · by_cases hw : w > 0 <;> simp [hw]
  · by_cases hw : w > 0 <;> simp [hw]
  · intro hit
    constructor
    · unfold analyzeTweetAdvanced.trigramStep
      rw [if_pos (lt_length_of_getElem? _ _ _ h2), h0, h1, h2]
      simp only [ngramHit_eq, hkey]
      rfl
    · unfold analyzeTweetAdvanced.bigramStep
      rw [if_neg (by simp)]

/-- The post `so much fun` with a phrase map that holds the trigram
`so much fun` of weight `2` and the bigram `so much` of weight `-1`: at the
first token only the trigram counts. -/
theorem trigram_match_takes_priority_witness :
    ∃ result,
      analyzeTweetAdvanced.processToken [] [] ["so".toList] [] 
        [("so much fun".toList, 2), ("so much".toList, -1)] [] []
        ["so".toList, "much".toList, "fun".toList]
        ["so".toList, "much".toList, "fun".toList] {} 0 = some result ∧
      result.adjustedSentimentScore = 2 ∧ result.ngramPositiveHits = 1 ∧
      result.ngramNegativeHits = 0 ∧ result.intensifierHits = 0 := by
  obtain ⟨result, h, h1, h2, _, _, _, _, _, _, _, h11, _⟩ :=
    trigram_match_takes_priority [] [] ["so".toList] []
      [("so much fun".toList, 2), ("so much".toList, -1)] [] []
      ["so".toList, "much".toList, "fun".toList]
      ["so".toList, "much".toList, "fun".toList] {} 0 "so".toList "so".toList "much".toList
      "fun".toList 2 rfl rfl rfl rfl (by decide) rfl rfl rfl
  obtain ⟨e1, e2⟩ := h2 (by norm_num)
  exact ⟨result, h, by simpa using h1, by simpa using e1, by simpa using e2,
    by simpa using h11⟩

/-! ## The keys of the phrase map -/

/-- C21 at a failing input: with a stemmer that turns `looking` into `look`, the
post `looking forward`, a phrase of the fixed table, registers no phrase hit
with the lexicons built by the builders: its normalized tokens are `look` and
`forward`, and the key of the phrase map is the unstemmed `looking forward`. -/
theorem stemmed_phrase_registers_no_hit :
    (analyzeTweetAdvanced lookingStem ⟨[], [], [], [], "looking forward".toList⟩
        (buildWordPolarityMap lookingStem [] []) (buildNegationWords lookingStem)
        (buildIntensifiers lookingStem) (buildDowntoners lookingStem) buildNgramPolarity
        buildPositiveEmojisSlang buildNegativeEmojisSlang).map
      (fun analysis => (analysis.totalWords, analysis.neutralWordCount,
        analysis.ngramPositiveHits + analysis.ngramNegativeHits)) = some (2, 2, 0) ∧
    "looking forward".toList ∈ phraseTable ∧
    buildNgramPolarity.count "looking forward".toList = true ∧
    buildNgramPolarity.count "look forward".toList = false ∧
    (tokenize "looking forward".toList).map (normalizeWord lookingStem) =
      ["look".toList, "forward".toList] := by
  refine ⟨rfl, by decide, rfl, rfl, rfl⟩

/-! ## The counters of an analysis -/

/-- What one step of the rules does to the counters: the polarity words never
outnumber the words, the phrase hits never decrease, and when no polarity
weight is `0` every counted word is classified exactly once. -/
theorem ruleStep_counters (wordPolarity : StrMap)
    (negationWords intensifiers downtoners : StrSet) (ngramPolarity : StrMap)
    (positiveEmojisSlang negativeEmojisSlang : StrSet)
    (rawTokens normalizedTokens : List CString) (analysis : AdvancedTweetAnalysis) (i : Nat) :
    (ruleStep wordPolarity negationWords intensifiers downtoners ngramPolarity
        positiveEmojisSlang negativeEmojisSlang rawTokens normalizedTokens
        analysis i).posWordCount +
      (ruleStep wordPolarity negationWords intensifiers downtoners ngramPolarity
        positiveEmojisSlang negativeEmojisSlang rawTokens normalizedTokens
        analysis i).negWordCount + analysis.totalWords ≤
      analysis.posWordCount + analysis.negWordCount +
        (ruleStep wordPolarity negationWords intensifiers downtoners ngramPolarity
          positiveEmojisSlang negativeEmojisSlang rawTokens normalizedTokens
          analysis i).totalWords ∧
    analysis.ngramPositiveHits + analysis.ngramNegativeHits ≤
      (ruleStep wordPolarity negationWords intensifiers downtoners ngramPolarity
        positiveEmojisSlang negativeEmojisSlang rawTokens normalizedTokens
        analysis i).ngramPositiveHits +
      (ruleStep wordPolarity negationWords intensifiers downtoners ngramPolarity
        positiveEmojisSlang negativeEmojisSlang rawTokens normalizedTokens
        analysis i).ngramNegativeHits ∧
    ((∀ k w, wordPolarity.at k = some w → w ≠ 0) →
      classifiedWords (ruleStep wordPolarity negationWords intensifiers downtoners
        ngramPolarity positiveEmojisSlang negativeEmojisSlang rawTokens normalizedTokens
        analysis i) + analysis.totalWords =
      classifiedWords analysis +
        (ruleStep wordPolarity negationWords intensifiers downtoners ngramPolarity
          positiveEmojisSlang negativeEmojisSlang rawTokens normalizedTokens
          analysis i).totalWords) := by
  unfold ruleStep classifiedWords
  simp only []
  by_cases hempty : normalizedTokens.getD i [] = []
  · simp only [if_pos hempty]
    exact ⟨le_refl _, le_refl _, fun _ => trivial⟩
  simp only [if_neg hempty]
  by_cases hp : positiveEmojisSlang.count (toLowerStr (rawTokens.getD i [])) = true
  · simp only [if_pos hp]
    refine ⟨?_, le_refl _, fun _ => ?_⟩ <;> omega
  simp only [if_neg hp]
  by_cases hn : negativeEmojisSlang.count (toLowerStr (rawTokens.getD i [])) = true
  · simp only [if_pos hn]
    refine ⟨?_, le_refl _, fun _ => ?_⟩ <;> omega
  simp only [if_neg hn]
  cases hpw : phraseWeight ngramPolarity normalizedTokens i with
  | some w =>
    simp only []
    unfold ngramUpdate
    by_cases hw : w > 0
    · simp only [if_pos hw]
      refine ⟨?_, ?_, fun _ => ?_⟩ <;> omega
    · simp only [if_neg hw]
      refine ⟨?_, ?_, fun _ => ?_⟩ <;> omega
  | none =>
    simp only [markers_eq]
    cases hat : StrMap.at wordPolarity (normalizedTokens.getD i []) with
    | none =>
      simp only []
      refine ⟨?_, le_refl _, fun _ => ?_⟩ <;> omega
    | some base =>
      simp only []
      unfold polarityUpdate
      by_cases h1 : base > 0
      · simp only [if_pos h1]
        refine ⟨?_, le_refl _, fun _ => ?_⟩ <;> omega
      · by_cases h2 : base < 0
        · simp only [if_neg h1, if_pos h2]
          refine ⟨?_, le_refl _, fun _ => ?_⟩ <;> omega
        · simp only [if_neg h1, if_neg h2]
          refine ⟨?_, le_refl _, fun hnz => ?_⟩
          · omega
          · exact absurd (le_antisymm (not_lt.mp h1) (not_lt.mp h2)) (hnz _ _ hat)

theorem foldl_ruleStep_counters (wordPolarity : StrMap)
    (negationWords intensifiers downtoners : StrSet) (ngramPolarity : StrMap)
    (positiveEmojisSlang negativeEmojisSlang : StrSet)
    (rawTokens normalizedTokens : List CString) (indices : List Nat) :
    ∀ (analysis : AdvancedTweetAnalysis),
      (indices.foldl (ruleStep wordPolarity negationWords intensifiers downtoners
          ngramPolarity positiveEmojisSlang negativeEmojisSlang rawTokens normalizedTokens)
          analysis).posWordCount +
        (indices.foldl (ruleStep wordPolarity negationWords intensifiers downtoners
          ngramPolarity positiveEmojisSlang negativeEmojisSlang rawTokens normalizedTokens)
          analysis).negWordCount + analysis.totalWords ≤
        analysis.posWordCount + analysis.negWordCount +
          (indices.foldl (ruleStep wordPolarity negationWords intensifiers downtoners
            ngramPolarity positiveEmojisSlang negativeEmojisSlang rawTokens normalizedTokens)
            analysis).totalWords ∧
      analysis.ngramPositiveHits + analysis.ngramNegativeHits ≤
        (indices.foldl (ruleStep wordPolarity negationWords intensifiers downtoners
          ngramPolarity positiveEmojisSlang negativeEmojisSlang rawTokens normalizedTokens)
          analysis).ngramPositiveHits +
        (indices.foldl (ruleStep wordPolarity negationWords intensifiers downtoners
          ngramPolarity positiveEmojisSlang negativeEmojisSlang rawTokens normalizedTokens)
          analysis).ngramNegativeHits ∧
      ((∀ k w, wordPolarity.at k = some w → w ≠ 0) →
        classifiedWords (indices.foldl (ruleStep wordPolarity negationWords intensifiers
          downtoners ngramPolarity positiveEmojisSlang negativeEmojisSlang rawTokens
          normalizedTokens) analysis) + analysis.totalWords =
        classifiedWords analysis +
          (indices.foldl (ruleStep wordPolarity negationWords intensifiers downtoners
            ngramPolarity positiveEmojisSlang negativeEmojisSlang rawTokens normalizedTokens)
            analysis).totalWords) := by
  induction indices with
  | nil =>
    intro analysis
    exact ⟨le_refl _, le_refl _, fun _ => rfl⟩
  | cons i rest ih =>
    intro analysis
    obtain ⟨h1, h2, h3⟩ := ruleStep_counters wordPolarity negationWords intensifiers
      downtoners ngramPolarity positiveEmojisSlang negativeEmojisSlang rawTokens
      normalizedTokens analysis i
    obtain ⟨g1, g2, g3⟩ := ih (ruleStep wordPolarity negationWords intensifiers downtoners
      ngramPolarity positiveEmojisSlang negativeEmojisSlang rawTokens normalizedTokens
      analysis i)
    rw [List.foldl_cons]
    refine ⟨by omega, by omega, fun hnz => ?_⟩
    have e1 := h3 hnz
    have e2 := g3 hnz
    omega

theorem emphasis_eq (analysis : AdvancedTweetAnalysis) :
    analyzeTweetAdvanced.emphasis analysis =
      { analysis with
        adjustedSentimentScore :=
          (analyzeTweetAdvanced.emphasis analysis).adjustedSentimentScore } := by
  unfold analyzeTweetAdvanced.emphasis
  by_cases h : analysis.exclamationCount > 0
  · simp only [if_pos h]
  · simp only [if_neg h]

/-- The counters of the analysis of a tweet: the polarity words never
outnumber the words, and when no polarity weight is `0` the counted words are
the classified words. -/
theorem analyzeTweetAdvanced_counters (stem : CString → CString) (tweet : Tweet)
    (wordPolarity : StrMap) (negationWords intensifiers downtoners : StrSet)
    (ngramPolarity : StrMap) (positiveEmojisSlang negativeEmojisSlang : StrSet) :
    ∃ analysis,
      analyzeTweetAdvanced stem tweet wordPolarity negationWords intensifiers downtoners
        ngramPolarity positiveEmojisSlang negativeEmojisSlang = some analysis ∧
      analysis.posWordCount + analysis.negWordCount ≤ analysis.totalWords ∧
      ((∀ k w, wordPolarity.at k = some w → w ≠ 0) →
        analysis.totalWords = classifiedWords analysis) := by
  refine ⟨_, analyzeTweetAdvanced_eq stem tweet wordPolarity negationWords intensifiers
    downtoners ngramPolarity positiveEmojisSlang negativeEmojisSlang, ?_⟩
  obtain ⟨h1, _, h3⟩ := foldl_ruleStep_counters wordPolarity negationWords intensifiers
    downtoners ngramPolarity positiveEmojisSlang negativeEmojisSlang (tokenize tweet.text)
    ((tokenize tweet.text).map (normalizeWord stem))
    (List.range' 0 (tokenize tweet.text).length) (analyzeTweetAdvanced.prepare stem tweet).analysis
  rw [emphasis_eq]
  have hp : (analyzeTweetAdvanced.prepare stem tweet).analysis.posWordCount = 0 ∧
      (analyzeTweetAdvanced.prepare stem tweet).analysis.negWordCount = 0 ∧
      (analyzeTweetAdvanced.prepare stem tweet).analysis.totalWords = 0 ∧
      classifiedWords (analyzeTweetAdvanced.prepare stem tweet).analysis = 0 := by
    rw [prepare_eq]
    exact ⟨rfl, rfl, rfl, rfl⟩
  obtain ⟨p1, p2, p3, p4⟩ := hp
  rw [p1, p2, p3] at h1
  refine ⟨?_, fun hnz => ?_⟩
  · simp only []
    omega
  · have e := h3 hnz
    rw [p3, p4] at e
    unfold classifiedWords at e ⊢
    simp only [] at e ⊢
    omega

theorem pushAnalysis_foldl (stem : CString → CString) (wordPolarity : StrMap)
    (negationWords intensifiers downtoners : StrSet) (ngramPolarity : StrMap)
    (positiveEmojisSlang negativeEmojisSlang : StrSet) (tweets : List Tweet) :
    ∀ (results : List AdvancedTweetAnalysis),
      ∃ more : List AdvancedTweetAnalysis,
        tweets.foldl (analyzeAllTweetsAdvanced.pushAnalysis stem wordPolarity negationWords
          intensifiers downtoners ngramPolarity positiveEmojisSlang negativeEmojisSlang)
          (some results) = some (results ++ more) ∧
        more.length = tweets.length ∧
        ∀ a ∈ more, a.posWordCount + a.negWordCount ≤ a.totalWords ∧
          ∃ tweet ∈ tweets, analyzeTweetAdvanced stem tweet wordPolarity negationWords
            intensifiers downtoners ngramPolarity positiveEmojisSlang negativeEmojisSlang =
            some a := by
  induction tweets with
  | nil =>
    intro results
    exact ⟨[], by simp, rfl, fun a ha => absurd ha (List.not_mem_nil _)⟩
  | cons tweet rest ih =>
    intro results
    obtain ⟨analysis, h, hle, _⟩ := analyzeTweetAdvanced_counters stem tweet wordPolarity
      negationWords intensifiers downtoners ngramPolarity positiveEmojisSlang
      negativeEmojisSlang
    obtain ⟨more, hfold, hlen, hall⟩ := ih (results ++ [analysis])
    refine ⟨analysis :: more, ?_, by simp [hlen], ?_⟩
    · rw [List.foldl_cons]
      unfold analyzeAllTweetsAdvanced.pushAnalysis
      simp only [h]
      rw [show (results ++ analysis :: more) = (results ++ [analysis]) ++ more by simp]
      exact hfold
    · intro a ha
      rcases List.mem_cons.mp ha with rfl | ha
      · exact ⟨hle, tweet, List.mem_cons_self _ _, h⟩
      · obtain ⟨h1, t, ht, h2⟩ := hall a ha
        exact ⟨h1, t, List.mem_cons_of_mem _ ht, h2⟩

theorem percent_bounds (a : AdvancedTweetAnalysis)
    (h : a.posWordCount + a.negWordCount ≤ a.totalWords) :
    0 ≤ posPercent a ∧ 0 ≤ negPercent a ∧ posPercent a + negPercent a ≤ 100 := by
  unfold posPercent negPercent
  by_cases h0 : a.totalWords = 0
  · simp [h0]
  · rw [if_neg h0, if_neg h0]
    have hpos : (0 : ℚ) < (a.totalWords : ℚ) := by
      exact_mod_cast Nat.pos_of_ne_zero h0
    have hle : (a.posWordCount : ℚ) + (a.negWordCount : ℚ) ≤ (a.totalWords : ℚ) := by
      exact_mod_cast h
    refine ⟨by positivity, by positivity, ?_⟩
    rw [← add_div, div_le_iff₀ hpos]
    nlinarith

theorem groupMean_bounds (v : List AdvancedTweetAnalysis)
    (h : ∀ a ∈ v, a.posWordCount + a.negWordCount ≤ a.totalWords) :
    0 ≤ groupMean posPercent v ∧ 0 ≤ groupMean negPercent v ∧
      groupMean posPercent v + groupMean negPercent v ≤ 100 := by
  have hsum : 0 ≤ (v.map posPercent).sum ∧ 0 ≤ (v.map negPercent).sum ∧
      (v.map posPercent).sum + (v.map negPercent).sum ≤ 100 * (v.length : ℚ) := by
    induction v with
    | nil => simp
    | cons a v ih =>
      obtain ⟨i1, i2, i3⟩ := ih (fun x hx => h x (List.mem_cons_of_mem _ hx))
      obtain ⟨p1, p2, p3⟩ := percent_bounds a (h a (List.mem_cons_self _ _))
      simp only [List.map_cons, List.sum_cons, List.length_cons, Nat.cast_add, Nat.cast_one]
      refine ⟨by linarith, by linarith, by linarith⟩
  obtain ⟨s1, s2, s3⟩ := hsum
  unfold groupMean
  have hn : (0 : ℚ) ≤ (v.length : ℚ) := Nat.cast_nonneg _
  refine ⟨div_nonneg s1 hn, div_nonneg s2 hn, ?_⟩
  rw [← add_div]
  by_cases h0 : (v.length : ℚ) = 0
  · rw [h0, div_zero]
    norm_num
  · have hpos : (0 : ℚ) < (v.length : ℚ) := lt_of_le_of_ne hn (Ne.symm h0)
    rw [div_le_iff₀ hpos]
    exact s3

theorem accumulateWith_id_foldl (posts : List AdvancedTweetAnalysis) :
    ∀ totals : ℚ × ℚ,
      posts.foldl (summarizeAdvancedBySenator.accumulateWith id) totals =
        (totals.1 + (posts.map posPercent).sum, totals.2 + (posts.map negPercent).sum) := by
  induction posts with
  | nil =>
    intro totals
    simp
  | cons a rest ih =>
    intro totals
    rw [List.foldl_cons, ih]
    simp only [List.map_cons, List.sum_cons]
    unfold summarizeAdvancedBySenator.accumulateWith summarizeAdvancedBySenator.percentWith
    by_cases h0 : a.totalWords > 0
    · have hp : posPercent a = 100 * (a.posWordCount : ℚ) / (a.totalWords : ℚ) := by
        unfold posPercent
        rw [if_neg (by omega)]
      have hn : negPercent a = 100 * (a.negWordCount : ℚ) / (a.totalWords : ℚ) := by
        unfold negPercent
        rw [if_neg (by omega)]
      rw [if_pos h0, hp, hn]
      simp only [id]
      exact Prod.ext (by ring) (by ring)
    · have hp : posPercent a = 0 := by
        unfold posPercent
        rw [if_pos (by omega)]
      have hn : negPercent a = 0 := by
        unfold negPercent
        rw [if_pos (by omega)]
      rw [if_neg h0, hp, hn]
      exact Prod.ext (by ring) (by ring)

/-- Without rounding, the percentage path gives the two means of the exact
summary. -/
theorem percentagesWith_id (posts : List AdvancedTweetAnalysis) :
    summarizeAdvancedBySenator.percentagesWith id posts =
      (groupMean posPercent posts, groupMean negPercent posts) := by
  unfold summarizeAdvancedBySenator.percentagesWith groupMean
  simp only [accumulateWith_id_foldl, id, zero_add]

/-- The analysis of the worked post of three words. -/
theorem thirdsTweet_analysis :
    ∃ analysis,
      analyzeAllTweetsAdvanced id [thirdsTweet]
        (buildWordPolarityMap id ["good".toList] ["bad".toList]) (buildNegationWords id)
        (buildIntensifiers id) (buildDowntoners id) buildNgramPolarity
        buildPositiveEmojisSlang buildNegativeEmojisSlang = some [analysis] ∧
      analysis.senatorName = "A".toList ∧ analysis.totalWords = 3 ∧
      analysis.posWordCount = 1 ∧ analysis.negWordCount = 2 := by
  obtain ⟨analysis, h, _⟩ := analyzeTweetAdvanced_counters id thirdsTweet
    (buildWordPolarityMap id ["good".toList] ["bad".toList]) (buildNegationWords id)
    (buildIntensifiers id) (buildDowntoners id) buildNgramPolarity
    buildPositiveEmojisSlang buildNegativeEmojisSlang
  have h' := h
  rw [analyzeTweetAdvanced_eq] at h'
  have ha := Option.some.inj h'
  refine ⟨analysis, ?_, ?_, ?_, ?_, ?_⟩
  · unfold analyzeAllTweetsAdvanced
    rw [List.foldl_cons, List.foldl_nil]
    unfold analyzeAllTweetsAdvanced.pushAnalysis
    simp only [h, List.nil_append]
  · rw [← ha]
    rfl
  · rw [← ha]
    rfl
  · rw [← ha]
    rfl
  · rw [← ha]
    rfl

/-- C24, with the percentages as the code computes them. For every list of
posts, all lexicons and every iteration order, `analyzeAllTweetsAdvanced`
returns analyses in each of which `posWordCount + negWordCount ≤ totalWords`;
every author has a summary, and every summary that
`summarizeAdvancedBySenator` computes from the analyses satisfies
`0 ≤ avgPosPercent`, `0 ≤ avgNegPercent` and
`avgPosPercent + avgNegPercent ≤ 100` in exact arithmetic, where the two fields
are what the percentage path gives without rounding. With the rounding of
binary64, when the number of posts and the word counts of the group are in the
range of `int`, each of the two percentages of a summary lies between `0` and
`100`; nothing is stated of the sum of the two binary64 values. -/
theorem summary_percentages_are_bounded (stem : CString → CString) (tweets : List Tweet)
    (wordPolarity : StrMap) (negationWords intensifiers downtoners : StrSet)
    (ngramPolarity : StrMap) (positiveEmojisSlang negativeEmojisSlang : StrSet)
    (order : IterationOrder) :
    ∃ perTweet,
      analyzeAllTweetsAdvanced stem tweets wordPolarity negationWords intensifiers downtoners
        ngramPolarity positiveEmojisSlang negativeEmojisSlang = some perTweet ∧
      perTweet.length = tweets.length ∧
      (∀ a ∈ perTweet, a.posWordCount + a.negWordCount ≤ a.totalWords) ∧
      (∀ a ∈ perTweet, ∃ s ∈ summarizeAdvancedBySenator order perTweet,
        s.name = a.senatorName) ∧
      ∀ s ∈ summarizeAdvancedBySenator order perTweet,
        (0 ≤ s.avgPosPercent ∧ 0 ≤ s.avgNegPercent ∧
          s.avgPosPercent + s.avgNegPercent ≤ 100) ∧
        summarizeAdvancedBySenator.percentagesWith id (postsOf perTweet s.name) =
          (s.avgPosPercent, s.avgNegPercent) ∧
        (tweets.length < 2 ^ 31 →
          (∀ a ∈ postsOf perTweet s.name, a.totalWords < 2 ^ 31) →
          0 ≤ (summarizeAdvancedBySenator.percentages64 (postsOf perTweet s.name)).1 ∧
          (summarizeAdvancedBySenator.percentages64 (postsOf perTweet s.name)).1 ≤ 100 ∧
          0 ≤ (summarizeAdvancedBySenator.percentages64 (postsOf perTweet s.name)).2 ∧
          (summarizeAdvancedBySenator.percentages64 (postsOf perTweet s.name)).2 ≤ 100) := by
  obtain ⟨perTweet, hfold, hlen, hall⟩ := pushAnalysis_foldl stem wordPolarity negationWords
    intensifiers downtoners ngramPolarity positiveEmojisSlang negativeEmojisSlang tweets []
  rw [List.nil_append] at hfold
  refine ⟨perTweet, hfold, hlen, fun a ha => (hall a ha).1, ?_, ?_⟩
  · intro a ha
    exact ⟨_, summary_exists order perTweet a ha, (summarize_fields _ _).1⟩
  · intro s hs
    obtain ⟨heq, _⟩ := summary_of_mem order perTweet s hs
    obtain ⟨_, _, _, _, h5, h6, _⟩ := summarize_fields s.name (postsOf perTweet s.name)
    rw [← heq] at h5 h6
    refine ⟨?_, ?_, ?_⟩
    · rw [h5, h6]
      apply groupMean_bounds
      intro a ha
      exact (hall a (List.mem_filter.mp ha).1).1
    · rw [percentagesWith_id, h5, h6]
    · intro hposts hwords
      apply percentages64_bounds _ _ hwords
      · have : (postsOf perTweet s.name).length ≤ perTweet.length :=
          List.length_filter_le _ _
        omega
      · intro a ha
        exact (hall a (List.mem_filter.mp ha).1).1

/-- The worked post of three words, one positive and two negative: the summary
of its author exists, its exact percentages are `100 / 3` and `200 / 3`, and
its binary64 percentages lie between `0` and `100`. -/
theorem summary_percentages_are_bounded_witness :
    ∃ perTweet,
      analyzeAllTweetsAdvanced id [thirdsTweet]
        (buildWordPolarityMap id ["good".toList] ["bad".toList]) (buildNegationWords id)
        (buildIntensifiers id) (buildDowntoners id) buildNgramPolarity
        buildPositiveEmojisSlang buildNegativeEmojisSlang = some perTweet ∧
      perTweet.length = 1 ∧
      ∃ s ∈ summarizeAdvancedBySenator IterationOrder.creation perTweet,
        s.name = "A".toList ∧ s.avgPosPercent + s.avgNegPercent ≤ 100 ∧
        0 ≤ (summarizeAdvancedBySenator.percentages64 (postsOf perTweet s.name)).1 ∧
        (summarizeAdvancedBySenator.percentages64 (postsOf perTweet s.name)).1 ≤ 100 ∧
        0 ≤ (summarizeAdvancedBySenator.percentages64 (postsOf perTweet s.name)).2 ∧
        (summarizeAdvancedBySenator.percentages64 (postsOf perTweet s.name)).2 ≤ 100 := by
  obtain ⟨analysis, hrun, hname, h3, _, _⟩ := thirdsTweet_analysis
  obtain ⟨perTweet, h, hlen, _, hex, hall⟩ := summary_percentages_are_bounded id [thirdsTweet]
    (buildWordPolarityMap id ["good".toList] ["bad".toList]) (buildNegationWords id)
    (buildIntensifiers id) (buildDowntoners id) buildNgramPolarity
    buildPositiveEmojisSlang buildNegativeEmojisSlang IterationOrder.creation
  have hp : perTweet = [analysis] := Option.some.inj (h.symm.trans hrun)
  subst hp
  obtain ⟨s, hs, hsname⟩ := hex analysis (List.mem_singleton_self _)
  obtain ⟨⟨_, _, hsum⟩, _, hbin⟩ := hall s hs
  have hwords : ∀ a ∈ postsOf [analysis] s.name, a.totalWords < 2 ^ 31 := by
    intro a ha
    have hmem := (List.mem_filter.mp ha).1
    rw [List.mem_singleton] at hmem
    rw [hmem, h3]
    norm_num
  exact ⟨[analysis], h, hlen, s, hs, hsname.trans hname, hsum, hbin (by decide) hwords⟩

/-- C24 as stated fails in binary64. For the worked post of three words, one
positive and two negative, the analysis has `posWordCount + negWordCount =
totalWords`, its author has a summary whose group is that one post, and the
code computes `avgPosPercent` as `100 / 3` rounded up and `avgNegPercent` as
`200 / 3` rounded up: their sum is `100 + 2^-47`, above `100`. -/
theorem summary_percentages_counterexample :
    ∃ analysis,
      analyzeAllTweetsAdvanced id [thirdsTweet]
        (buildWordPolarityMap id ["good".toList] ["bad".toList]) (buildNegationWords id)
        (buildIntensifiers id) (buildDowntoners id) buildNgramPolarity
        buildPositiveEmojisSlang buildNegativeEmojisSlang = some [analysis] ∧
      analysis.totalWords = 3 ∧ analysis.posWordCount = 1 ∧ analysis.negWordCount = 2 ∧
      (∃ s ∈ summarizeAdvancedBySenator IterationOrder.creation [analysis],
        s.name = "A".toList ∧ postsOf [analysis] s.name = [analysis]) ∧
      summarizeAdvancedBySenator.percentages64 [analysis] =
        (4691249611844267 / 2 ^ 47, 4691249611844267 / 2 ^ 46) ∧
      (summarizeAdvancedBySenator.percentages64 [analysis]).1 +
        (summarizeAdvancedBySenator.percentages64 [analysis]).2 = 100 + 1 / 2 ^ 47 ∧
      ¬ ((summarizeAdvancedBySenator.percentages64 [analysis]).1 +
        (summarizeAdvancedBySenator.percentages64 [analysis]).2 ≤ 100) := by
  obtain ⟨analysis, hrun, hname, h3, h1, h2⟩ := thirdsTweet_analysis
  have hp := percentages64_thirds analysis h3 h1 h2
  have hposts : postsOf [analysis] analysis.senatorName = [analysis] := by
    unfold postsOf
    rw [List.filter_cons, if_pos (decide_eq_true rfl), List.filter_nil]
  refine ⟨analysis, hrun, h3, h1, h2, ?_, hp, ?_, ?_⟩
  · refine ⟨_, summary_exists IterationOrder.creation [analysis] analysis
      (List.mem_singleton_self _), ?_, ?_⟩
    · rw [(summarize_fields _ _).1]
      exact hname
    · rw [(summarize_fields _ _).1]
      exact hposts
  · rw [hp]
    norm_num
  · rw [hp]
    norm_num

/-! ## Tokens without letters or digits -/

theorem isalnum_tolower (c : Char) (h : isalnum c = true) : isalnum (tolower c) = true := by
  unfold tolower
  by_cases hu : isupper c = true
  · rw [if_pos hu]
    have hn : 65 ≤ c.toNat ∧ c.toNat ≤ 90 := by simpa [isupper] using hu
    generalize c.toNat = n at hn
    obtain ⟨h1, h2⟩ := hn
    interval_cases n <;> decide
  · rw [if_neg hu]
    exact h

theorem no_alnum_of_toLowerStr (raw : CString)
    (h : ∀ c ∈ toLowerStr raw, isalnum c = false) : ∀ c ∈ raw, isalnum c = false := by
  intro c hc
  by_contra hcon
  have hal : isalnum c = true := by simpa using hcon
  have hmem : tolower c ∈ toLowerStr raw := List.mem_map.mpr ⟨c, hc, rfl⟩
  have := h _ hmem
  rw [isalnum_tolower c hal] at this
  exact Bool.noConfusion this

theorem tokenize_go_chars (cs : List Char) :
    ∀ (cur : List Char), ∀ w ∈ tokenize.go cs cur, ∀ c ∈ w, c ∈ cs ∨ c ∈ cur := by
  induction cs with
  | nil =>
    intro cur w hw c hc
    unfold tokenize.go at hw
    by_cases hcur : cur = []
    · rw [if_pos hcur] at hw
      exact absurd hw (List.not_mem_nil _)
    · rw [if_neg hcur, List.mem_singleton] at hw
      rw [hw] at hc
      exact Or.inr (List.mem_reverse.mp hc)
  | cons x cs ih =>
    intro cur w hw c hc
    unfold tokenize.go at hw
    by_cases hx : isspace x = true
    · rw [if_pos hx] at hw
      by_cases hcur : cur = []
      · rw [if_pos hcur] at hw
        rcases ih [] w hw c hc with h | h
        · exact Or.inl (List.mem_cons_of_mem _ h)
        · exact absurd h (List.not_mem_nil _)
      · rw [if_neg hcur] at hw
        rcases List.mem_cons.mp hw with hw | hw
        · rw [hw] at hc
          exact Or.inr (List.mem_reverse.mp hc)
        · rcases ih [] w hw c hc with h | h
          · exact Or.inl (List.mem_cons_of_mem _ h)
          · exact absurd h (List.not_mem_nil _)
    · rw [if_neg hx] at hw
      rcases ih (x :: cur) w hw c hc with h | h
      · exact Or.inl (List.mem_cons_of_mem _ h)
      · rcases List.mem_cons.mp h with h | h
        · exact Or.inl (h ▸ List.mem_cons_self _ _)
        · exact Or.inr h

/-- The characters of a token of a text are characters of the text. -/
theorem tokenize_chars (text : CString) : ∀ w ∈ tokenize text, ∀ c ∈ w, c ∈ text := by
  intro w hw c hc
  rcases tokenize_go_chars text [] w hw c hc with h | h
  · exact h
  · exact absurd h (List.not_mem_nil _)

/-- The analysis of a text without any letter or digit: no emoji is counted
and the adjusted score is `0`. -/
theorem analysis_of_text_without_alnum (stem : CString → CString) (tweet : Tweet)
    (wordPolarity : StrMap) (negationWords intensifiers downtoners : StrSet)
    (ngramPolarity : StrMap) (positiveEmojisSlang negativeEmojisSlang : StrSet)
    (hno : ∀ c ∈ tweet.text, isalnum c = false) :
    ∃ analysis,
      analyzeTweetAdvanced stem tweet wordPolarity negationWords intensifiers downtoners
        ngramPolarity positiveEmojisSlang negativeEmojisSlang = some analysis ∧
      analysis.totalWords = 0 ∧ analysis.emojiPositiveCount = 0 ∧
      analysis.emojiNegativeCount = 0 ∧ analysis.adjustedSentimentScore = 0 := by
  have hall : ∀ x ∈ (tokenize tweet.text).map (normalizeWord stem), x = [] := by
    intro x hx
    obtain ⟨w, hw, hwx⟩ := List.mem_map.mp hx
    rw [← hwx]
    exact normalizeWord_no_alnum stem w (fun c hc => hno c (tokenize_chars _ w hw c hc))
  refine ⟨_, analyzeTweetAdvanced_eq stem tweet wordPolarity negationWords intensifiers
    downtoners ngramPolarity positiveEmojisSlang negativeEmojisSlang, ?_⟩
  rw [foldl_ruleStep_of_all_empty _ _ _ _ _ _ _ _ _ hall, prepare_eq]
  unfold analyzeTweetAdvanced.emphasis
  by_cases hc : List.count '!' tweet.text > 0
  · simp [hc]
  · simp [hc]

/-- C23: a token whose raw form has no ASCII letter or digit has an empty
normalized form and is skipped: the step returns the analysis unchanged, even
when the token is an entry of an emoji/slang set. In particular the post made
of one emoji entry of the two built sets has both emoji counters and the
adjusted score at `0`; the entries without letter or digit are the fifteen
emoji, among them the thumbs-up and the angry face, no raw token whose
lower-cased form is one of them is ever counted, and the entries that can be
counted are the ten ASCII slang words. -/
theorem emoji_entries_are_skipped (stem : CString → CString) (wordPolarity : StrMap)
    (negationWords intensifiers downtoners : StrSet) (ngramPolarity : StrMap)
    (positiveEmojisSlang negativeEmojisSlang : StrSet)
    (rawTokens normalizedTokens : List CString) (analysis : AdvancedTweetAnalysis) (i : Nat)
    (rawToken : CString)
    (hraw : rawTokens[i]? = some rawToken)
    (hnorm : normalizedTokens[i]? = some (normalizeWord stem rawToken))
    (hno : ∀ c ∈ rawToken, isalnum c = false) :
    normalizeWord stem rawToken = [] ∧
    analyzeTweetAdvanced.processToken wordPolarity negationWords intensifiers downtoners
      ngramPolarity positiveEmojisSlang negativeEmojisSlang rawTokens normalizedTokens
      analysis i = some analysis ∧
    (∀ e ∈ buildPositiveEmojisSlang ++ buildNegativeEmojisSlang,
      (∀ c ∈ e, isalnum c = false) →
      ∀ tweet : Tweet, tweet.text = e →
        ∃ result,
          analyzeTweetAdvanced stem tweet wordPolarity negationWords intensifiers downtoners
            ngramPolarity buildPositiveEmojisSlang buildNegativeEmojisSlang = some result ∧
          result.emojiPositiveCount = 0 ∧ result.emojiNegativeCount = 0 ∧
          result.adjustedSentimentScore = 0) ∧
    (buildPositiveEmojisSlang ++ buildNegativeEmojisSlang).filter
        (fun e => e.all (fun c => !isalnum c)) =
      ["😂".toList, "🤣".toList, "😊".toList, "😃".toList, "😄".toList, "❤️".toList,
       "💙".toList, "👍".toList, "✨".toList, "💀".toList, "😡".toList, "😭".toList,
       "😢".toList, "👎".toList, "😠".toList] ∧
    (buildPositiveEmojisSlang ++ buildNegativeEmojisSlang).filter
        (fun e => e.any isalnum) =
      ["lol".toList, "lmao".toList, "haha".toList, "hehe".toList, "yay".toList,
       "awesome".toList, "ugh".toList, "omg".toList, "wtf".toList, "smh".toList] ∧
    (∀ raw : CString,
      toLowerStr raw ∈ (buildPositiveEmojisSlang ++ buildNegativeEmojisSlang).filter
        (fun e => e.all (fun c => !isalnum c)) →
      normalizeWord stem raw = []) := by
  have hempty := normalizeWord_no_alnum stem rawToken hno
  refine ⟨hempty, ?_, ?_, by decide, by decide, ?_⟩
  · unfold analyzeTweetAdvanced.processToken
    rw [hnorm, hraw, hempty]
    rfl
  · intro e _ he tweet htext
    obtain ⟨result, h, _, h2, h3, h4⟩ := analysis_of_text_without_alnum stem tweet
      wordPolarity negationWords intensifiers downtoners ngramPolarity
      buildPositiveEmojisSlang buildNegativeEmojisSlang (by rw [htext]; exact he)
    exact ⟨result, h, h2, h3, h4⟩
  · intro raw hmem
    have hall := (List.mem_filter.mp hmem).2
    rw [List.all_eq_true] at hall
    apply normalizeWord_no_alnum
    apply no_alnum_of_toLowerStr
    intro c hc
    simpa using hall c hc

/-- The post `I 👍 this`: at its second token, the thumbs-up entry of the built
positive set, the step leaves the analysis unchanged; and the post `👍` alone
counts no emoji. -/
theorem emoji_entries_are_skipped_witness :
    analyzeTweetAdvanced.processToken (buildWordPolarityMap id [] []) (buildNegationWords id)
      (buildIntensifiers id) (buildDowntoners id) buildNgramPolarity
      buildPositiveEmojisSlang buildNegativeEmojisSlang
      ["I".toList, "👍".toList, "this".toList] ["i".toList, [], "this".toList]
      { totalWords := 1, neutralWordCount := 1 } 1 =
      some { totalWords := 1, neutralWordCount := 1 } ∧
    ∃ result,
      analyzeTweetAdvanced id ⟨[], [], [], [], "👍".toList⟩ (buildWordPolarityMap id [] [])
        (buildNegationWords id) (buildIntensifiers id) (buildDowntoners id)
        buildNgramPolarity buildPositiveEmojisSlang buildNegativeEmojisSlang = some result ∧
      result.emojiPositiveCount = 0 ∧ result.emojiNegativeCount = 0 ∧
      result.adjustedSentimentScore = 0 := by
  obtain ⟨_, h2, h3, _⟩ := emoji_entries_are_skipped id (buildWordPolarityMap id [] [])
    (buildNegationWords id) (buildIntensifiers id) (buildDowntoners id) buildNgramPolarity
    buildPositiveEmojisSlang buildNegativeEmojisSlang
    ["I".toList, "👍".toList, "this".toList] ["i".toList, [], "this".toList]
    { totalWords := 1, neutralWordCount := 1 } 1 "👍".toList rfl rfl (by decide)
  exact ⟨h2, h3 "👍".toList (by decide) (by decide) ⟨[], [], [], [], "👍".toList⟩ rfl⟩

/-! ## Phrases and the identity stemmer -/

/-- A post whose first token is matched by a phrase rule registers a phrase
hit. -/
theorem phrase_hit_at_first_token (stem : CString → CString) (tweet : Tweet)
    (wordPolarity : StrMap) (negationWords intensifiers downtoners : StrSet)
    (ngramPolarity : StrMap) (positiveEmojisSlang negativeEmojisSlang : StrSet)
    (hne : ((tokenize tweet.text).map (normalizeWord stem)).getD 0 [] ≠ [])
    (hpos : positiveEmojisSlang.count (toLowerStr ((tokenize tweet.text).getD 0 [])) = false)
    (hneg : negativeEmojisSlang.count (toLowerStr ((tokenize tweet.text).getD 0 [])) = false)
    (hphrase : (phraseWeight ngramPolarity
      ((tokenize tweet.text).map (normalizeWord stem)) 0).isSome = true) :
    ∃ analysis,
      analyzeTweetAdvanced stem tweet wordPolarity negationWords intensifiers downtoners
        ngramPolarity positiveEmojisSlang negativeEmojisSlang = some analysis ∧
      1 ≤ analysis.ngramPositiveHits + analysis.ngramNegativeHits := by
  refine ⟨_, analyzeTweetAdvanced_eq stem tweet wordPolarity negationWords intensifiers
    downtoners ngramPolarity positiveEmojisSlang negativeEmojisSlang, ?_⟩
  have hlen : 0 < (tokenize tweet.text).length := by
    by_contra hcon
    have h0 : tokenize tweet.text = [] := List.length_eq_zero.mp (by omega)
    rw [h0] at hne
    exact hne rfl
  obtain ⟨n, hn⟩ : ∃ n, (tokenize tweet.text).length = n + 1 := ⟨_, (Nat.succ_pred_eq_of_pos hlen).symm⟩
  obtain ⟨w, hw⟩ := Option.isSome_iff_exists.mp hphrase
  have hstep : ruleStep wordPolarity negationWords intensifiers downtoners ngramPolarity
      positiveEmojisSlang negativeEmojisSlang (tokenize tweet.text)
      ((tokenize tweet.text).map (normalizeWord stem))
      (analyzeTweetAdvanced.prepare stem tweet).analysis 0 =
      ngramUpdate { (analyzeTweetAdvanced.prepare stem tweet).analysis with
        totalWords := (analyzeTweetAdvanced.prepare stem tweet).analysis.totalWords + 1 } w := by
    unfold ruleStep
    simp only [if_neg hne, hpos, hneg, hw]
    simp
  obtain ⟨_, hmono, _⟩ := foldl_ruleStep_counters wordPolarity negationWords intensifiers
    downtoners ngramPolarity positiveEmojisSlang negativeEmojisSlang (tokenize tweet.text)
    ((tokenize tweet.text).map (normalizeWord stem)) (List.range' (0 + 1) n)
    (ngramUpdate { (analyzeTweetAdvanced.prepare stem tweet).analysis with
      totalWords := (analyzeTweetAdvanced.prepare stem tweet).analysis.totalWords + 1 } w)
  have hone : 1 ≤ (ngramUpdate { (analyzeTweetAdvanced.prepare stem tweet).analysis with
      totalWords := (analyzeTweetAdvanced.prepare stem tweet).analysis.totalWords + 1 }
      w).ngramPositiveHits +
      (ngramUpdate { (analyzeTweetAdvanced.prepare stem tweet).analysis with
        totalWords := (analyzeTweetAdvanced.prepare stem tweet).analysis.totalWords + 1 }
        w).ngramNegativeHits := by
    unfold ngramUpdate
    by_cases h : w > 0
    · simp only [if_pos h]
      omega
    · simp only [if_neg h]
      omega
  rw [emphasis_eq, hn, List.range'_succ, List.foldl_cons, hstep]
  exact le_trans hone hmono

/-- With the identity as stemmer, which leaves the words of the phrases as the
keys have them, each phrase of the fixed table registers a phrase hit. -/
theorem unstemmed_phrases_register_hit :
    ∀ phrase ∈ phraseTable,
      ∃ analysis,
        analyzeTweetAdvanced id ⟨[], [], [], [], phrase⟩ (buildWordPolarityMap id [] [])
          (buildNegationWords id) (buildIntensifiers id) (buildDowntoners id)
          buildNgramPolarity buildPositiveEmojisSlang buildNegativeEmojisSlang =
          some analysis ∧
        1 ≤ analysis.ngramPositiveHits + analysis.ngramNegativeHits := by
  intro phrase h
  simp only [phraseTable, List.mem_cons, List.mem_singleton, List.not_mem_nil, or_false] at h
  rcases h with rfl | rfl | rfl | rfl | rfl | rfl | rfl | rfl | rfl | rfl <;>
    exact phrase_hit_at_first_token id _ _ _ _ _ _ _ _ (by decide) rfl rfl rfl

end SenatorSentiment
